import Mathlib

/-! Stella: Lanczos resampler (`src/common/audio/LanczosResampler.cxx`).

A shallow embedding of the resampler and proofs about it.

Conventions of the embedding:
* `uInt32` values are natural numbers; every 32-bit operation that can wrap is
  written with `u32` (reduction modulo `2^32`).
* `float`/`double` values are elements of an arbitrary division ring `F`
  (exact arithmetic); `sin` and `pi` are parameters of the kernel functions.
* A null pointer is `none`; undefined behaviour (null or out-of-bounds access,
  integer division by zero) makes an operation return `none`.
* The producer callback is a function from the number of earlier pulls to the
  answer of the next pull.
-/

namespace Stella

/-! ## Machine integers -/

/-- Wrap-around of `uInt32` arithmetic. -/
def u32 (x : Nat) : Nat := x % 4294967296

/-! ## `reducedDenominator` -/

/-- The `for` loop of `reducedDenominator`, started at the loop test with the
current values of `n`, `d` and `i`. The first argument bounds the number of
loop tests still allowed; `none` means the bound was reached. The decrement
`i--` is a 32-bit decrement (adding `2^32 - 1` modulo `2^32`). -/
def reducedDenominatorLoop : Nat → Nat → Nat → Nat → Option Nat
  | 0, _, _, _ => none
  | fuel + 1, n, d, i =>
    if 1 < i then
      if n % i = 0 ∧ d % i = 0 then
        reducedDenominatorLoop fuel (n / i) (d / i) (u32 (min (n / i) (d / i) + 4294967295))
      else
        reducedDenominatorLoop fuel n d (u32 (i + 4294967295))
    else
      some d

/-- Function `reducedDenominator(n, d)`: the loop is entered with `i = min(n, d)`.
The loop is given `n + d + 1` tests, which is never exhausted on 32-bit
arguments (`reducedDenominatorLoop_search`, `reducedDenominatorLoop_coprime`). -/
def reducedDenominator (n d : Nat) : Option Nat :=
  reducedDenominatorLoop (n + d + 1) n d (min n d)

/-! ## Kernel functions -/

section Kernel

variable {F : Type} [Field F] [DecidableEq F]

/-- Constant `CLIPPING_FACTOR = 0.75`. -/
def CLIPPING_FACTOR : F := 0.75

/-- Function `sinc(x)`: `1` at `x == 0`, otherwise `sin(M_PI * x) / M_PI / x`
(the casts between `float` and `double` are the identity of `F`). -/
def sinc (sin : F → F) (pi : F) (x : F) : F :=
  if x = 0 then 1 else sin (pi * x) / pi / x

/-- Function `lanczosKernel(x, a) = sinc(x) * sinc(x / float(a))`. -/
def lanczosKernel (sin : F → F) (pi : F) (x : F) (a : Nat) : F :=
  sinc sin pi x * sinc sin pi (x / (a : F))

end Kernel

/-! ## Data model -/

/-- Modelled from the spec: `Resampler::Format` (declared in `Resampler.hxx`, which is
not part of the sources at hand): sample rate, stereo flag and fragment size
(samples per channel per fragment). -/
structure Format where
  sampleRate : Nat
  stereo : Bool
  fragmentSize : Nat
  deriving DecidableEq, Repr

/-- Modelled from the spec: class `ConvolutionBuffer` (its files are not part of the
sources at hand): a fixed-capacity ordered sequence of the most recently
supplied samples, oldest first. -/
structure ConvolutionBuffer (F : Type) where
  data : List F
  deriving DecidableEq, Repr

section Buffer

variable {F : Type} [Field F]

/-- Modelled from the spec: constructor `ConvolutionBuffer(size)`: `size` positions,
all zero. -/
def ConvolutionBuffer.create (size : Nat) : ConvolutionBuffer F :=
  ⟨List.replicate size 0⟩

/-- Modelled from the spec: `ConvolutionBuffer::shift(nextValue)` pushes the new
value and drops the oldest of the held samples. -/
def ConvolutionBuffer.shift (b : ConvolutionBuffer F) (nextValue : F) : ConvolutionBuffer F :=
  ⟨(b.data ++ [nextValue]).drop 1⟩

/-- Dot product of the held samples with the coefficients, index-aligned. -/
def dotProduct : List F → List F → F
  | x :: xs, k :: ks => x * k + dotProduct xs ks
  | _, _ => 0

/-- Modelled from the spec: `ConvolutionBuffer::convoluteWith(kernel)` returns the dot
product of the held samples (oldest to newest) with as many coefficients read
from `kernel`; here `kernel` is the address `mem + off`, and reading past the
end of `mem` is undefined. -/
def ConvolutionBuffer.convoluteWith (b : ConvolutionBuffer F) (mem : List F) (off : Nat) :
    Option F :=
  if off + b.data.length ≤ mem.length then
    some (dotProduct b.data ((mem.drop off).take b.data.length))
  else none

end Buffer

/-- Members of `LanczosResampler` (with those of its base class `Resampler`), and
three counters that record what a run did: `pulls` (calls of
`myNextFragmentCallback` so far), `diagnostics` (lines written to `cerr`) and
`outputSamples`/`shiftRequests` (output samples computed by convolution and the
sum of the `samplesToShift` values passed to `shiftSamples`). -/
structure LanczosResampler (F : Type) where
  myFormatFrom : Format
  myFormatTo : Format
  myPrecomputedKernelCount : Nat
  myKernelSize : Nat
  myCurrentKernelIndex : Nat
  myKernelParameter : Nat
  myPrecomputedKernels : List F
  myBuffer : Option (ConvolutionBuffer F)
  myBufferL : Option (ConvolutionBuffer F)
  myBufferR : Option (ConvolutionBuffer F)
  myCurrentFragment : Option (List Int)
  myFragmentIndex : Nat
  myIsUnderrun : Bool
  myTimeIndex : Nat
  pulls : Nat
  diagnostics : Nat
  outputSamples : Nat
  shiftRequests : Nat

/-- The producer callback `myNextFragmentCallback`: the answer to the pull made
after `k` earlier pulls (`none` is the null pointer, "no data"). -/
abbrev Producer := Nat → Option (List Int)

/-- One assignment `fragment[index] = value` into the caller's output buffer. -/
abbrev Write (F : Type) := Nat × F

section Engine

variable {F : Type} [Field F]

/-! ## `precomputeKernels` -/

/-- Inner loop of `precomputeKernels` over `j`, with `count` iterations left:
`kernel[j] = lanczosKernel(center - j + a - 1, a) * CLIPPING_FACTOR` where
`kernel = myPrecomputedKernels + off`. -/
def precomputeKernelRow [DecidableEq F] (sin : F → F) (pi : F) (a : Nat) (center : F)
    (off : Nat) : Nat → Nat → List F → Option (List F)
  | 0, _, mem => some mem
  | count + 1, j, mem =>
    if off + j < mem.length then
      precomputeKernelRow sin pi a center off count (j + 1)
        (mem.set (off + j)
          (lanczosKernel sin pi (center - (j : F) + (a : F) - 1) a * CLIPPING_FACTOR))
    else none

/-- Outer loop of `precomputeKernels` over `i`, with `count` iterations left. -/
def precomputeKernelsLoop [DecidableEq F] (sin : F → F) (pi : F) (rateFrom rateTo : Nat)
    (kernelSize a : Nat) : Nat → Nat → Nat → List F → Option (List F)
  | 0, _, _, mem => some mem
  | count + 1, i, timeIndex, mem =>
    match precomputeKernelRow sin pi a ((timeIndex : F) / (rateTo : F))
        (u32 (kernelSize * i)) (u32 (2 * a)) 0 mem with
    | none => none
    | some mem1 =>
      if rateTo = 0 then none
      else precomputeKernelsLoop sin pi rateFrom rateTo kernelSize a count (i + 1)
        (u32 (timeIndex + rateFrom) % rateTo) mem1

/-- Method `precomputeKernels()`, as a function of the members it reads and of the
array `myPrecomputedKernels` it fills. -/
def precomputeKernels [DecidableEq F] (sin : F → F) (pi : F) (rateFrom rateTo : Nat)
    (kernelCount kernelSize a : Nat) (mem : List F) : Option (List F) :=
  precomputeKernelsLoop sin pi rateFrom rateTo kernelSize a kernelCount 0 0 mem

/-- Constructor of `LanczosResampler`. The array allocated by
`new float[myPrecomputedKernelCount * myKernelSize]` starts out as zeros. -/
def LanczosResampler.create [DecidableEq F] (sin : F → F) (pi : F)
    (formatFrom formatTo : Format) (kernelParameter : Nat) : Option (LanczosResampler F) :=
  match reducedDenominator formatFrom.sampleRate formatTo.sampleRate with
  | none => none
  | some count =>
    let size := u32 (2 * kernelParameter)
    match precomputeKernels sin pi formatFrom.sampleRate formatTo.sampleRate count size
        kernelParameter (List.replicate (u32 (count * size)) 0) with
    | none => none
    | some kernels =>
      some
        { myFormatFrom := formatFrom
          myFormatTo := formatTo
          myPrecomputedKernelCount := count
          myKernelSize := size
          myCurrentKernelIndex := 0
          myKernelParameter := kernelParameter
          myPrecomputedKernels := kernels
          myBuffer := if formatFrom.stereo then none else some (ConvolutionBuffer.create size)
          myBufferL := if formatFrom.stereo then some (ConvolutionBuffer.create size) else none
          myBufferR := if formatFrom.stereo then some (ConvolutionBuffer.create size) else none
          myCurrentFragment := none
          myFragmentIndex := 0
          myIsUnderrun := true
          myTimeIndex := 0
          pulls := 0
          diagnostics := 0
          outputSamples := 0
          shiftRequests := 0 }

/-! ## `shiftSamples` and `fillFragment` -/

/-- The pushes of one iteration of the `while` loop of `shiftSamples`: the raw
sample(s) at the cursor, divided by `0x7fff`, go into the buffer(s). -/
def pushSample (s : LanczosResampler F) : Option (LanczosResampler F) :=
  match s.myCurrentFragment with
  | none => none
  | some frag =>
    if s.myFormatFrom.stereo then
      match s.myBufferL, s.myBufferR,
          frag[u32 (2 * s.myFragmentIndex)]?, frag[u32 (u32 (2 * s.myFragmentIndex) + 1)]? with
      | some l, some r, some vl, some vr =>
        some { s with
          myBufferL := some (l.shift ((vl : F) / 32767))
          myBufferR := some (r.shift ((vr : F) / 32767)) }
      | _, _, _, _ => none
    else
      match s.myBuffer, frag[s.myFragmentIndex]? with
      | some b, some v => some { s with myBuffer := some (b.shift ((v : F) / 32767)) }
      | _, _ => none

/-- The end of one iteration of the `while` loop of `shiftSamples`:
`myFragmentIndex++` and, when the cursor reaches `fragmentSize`, the pull of the
next fragment. -/
def advanceCursor (cb : Producer) (s : LanczosResampler F) : Option (LanczosResampler F) :=
  let s1 := { s with myFragmentIndex := u32 (s.myFragmentIndex + 1) }
  if s1.myFormatFrom.fragmentSize ≤ s1.myFragmentIndex then
    if s1.myFormatFrom.fragmentSize = 0 then none
    else
      let s2 := { s1 with
        myFragmentIndex := s1.myFragmentIndex % s1.myFormatFrom.fragmentSize
        pulls := s1.pulls + 1 }
      match cb s1.pulls with
      | some nextFragment =>
        some { s2 with myCurrentFragment := some nextFragment, myIsUnderrun := false }
      | none =>
        some { s2 with diagnostics := s2.diagnostics + 1, myIsUnderrun := true }
  else some s1

/-- Method `shiftSamples(samplesToShift)`. -/
def shiftSamples (cb : Producer) : Nat → LanczosResampler F → Option (LanczosResampler F)
  | 0, s => some s
  | samplesToShift + 1, s =>
    match pushSample s with
    | none => none
    | some s1 =>
      match advanceCursor cb s1 with
      | none => none
      | some s2 => shiftSamples cb samplesToShift s2

/-- The assignments to `fragment` of iteration `i` of the loop of `fillFragment`,
from the convolution results of the current buffers with the kernel at
`myPrecomputedKernels + off`. -/
def convolveSample (s : LanczosResampler F) (off i : Nat) : Option (List (Write F)) :=
  if s.myFormatFrom.stereo then
    match s.myBufferL, s.myBufferR with
    | some l, some r =>
      match l.convoluteWith s.myPrecomputedKernels off,
          r.convoluteWith s.myPrecomputedKernels off with
      | some sampleL, some sampleR =>
        if s.myFormatTo.stereo then
          some [(u32 (2 * i), sampleL), (u32 (u32 (2 * i) + 1), sampleR)]
        else some [(i, (sampleL + sampleR) / 2)]
      | _, _ => none
    | _, _ => none
  else
    match s.myBuffer with
    | some b =>
      match b.convoluteWith s.myPrecomputedKernels off with
      | some sample =>
        if s.myFormatTo.stereo then
          some [(u32 (u32 (2 * i) + 1), sample), (u32 (2 * i), sample)]
        else some [(i, sample)]
      | none => none
    | none => none

/-- One iteration (index `i`) of the `for` loop of `fillFragment`. -/
def outputSample (cb : Producer) (s : LanczosResampler F) (i : Nat) :
    Option (LanczosResampler F × List (Write F)) :=
  if s.myPrecomputedKernelCount = 0 then none
  else
    let off := u32 (s.myCurrentKernelIndex * s.myKernelSize)
    let s1 := { s with
      myCurrentKernelIndex := u32 (s.myCurrentKernelIndex + 1) % s.myPrecomputedKernelCount }
    match convolveSample s1 off i with
    | none => none
    | some ws =>
      let s2 := { s1 with
        myTimeIndex := u32 (s1.myTimeIndex + s1.myFormatFrom.sampleRate)
        outputSamples := s1.outputSamples + 1 }
      if s2.myFormatTo.sampleRate = 0 then none
      else
        let samplesToShift := s2.myTimeIndex / s2.myFormatTo.sampleRate
        if samplesToShift = 0 then some (s2, ws)
        else
          match shiftSamples cb samplesToShift
              { s2 with
                myTimeIndex := s2.myTimeIndex % s2.myFormatTo.sampleRate
                shiftRequests := s2.shiftRequests + samplesToShift } with
          | none => none
          | some s3 => some (s3, ws)

/-- The `for` loop of `fillFragment`, with `count` iterations left from index `i`. -/
def fillLoop (cb : Producer) :
    Nat → Nat → LanczosResampler F → Option (LanczosResampler F × List (Write F))
  | 0, _, s => some (s, [])
  | count + 1, i, s =>
    match outputSample cb s i with
    | none => none
    | some (s1, ws) =>
      match fillLoop cb count (i + 1) s1 with
      | none => none
      | some (s2, rest) => some (s2, ws ++ rest)

/-- The pull at the top of `fillFragment`, made only in underrun. -/
def recoverFromUnderrun (cb : Producer) (s : LanczosResampler F) : LanczosResampler F :=
  if s.myIsUnderrun then
    match cb s.pulls with
    | some nextFragment =>
      { s with
        pulls := s.pulls + 1
        myCurrentFragment := some nextFragment
        myFragmentIndex := 0
        myIsUnderrun := false }
    | none => { s with pulls := s.pulls + 1 }
  else s

/-- Method `fillFragment(fragment, length)`: the new state and the assignments made
to `fragment`, in order. `memset` assigns zero to the `length` positions. -/
def fillFragment (cb : Producer) (s : LanczosResampler F) (length : Nat) :
    Option (LanczosResampler F × List (Write F)) :=
  let s1 := recoverFromUnderrun cb s
  match s1.myCurrentFragment with
  | none => some (s1, (List.range length).map (fun i => (i, (0 : F))))
  | some _ => fillLoop cb (if s1.myFormatTo.stereo then length >>> 1 else length) 0 s1

/-- A sequence of `fillFragment` calls with the given lengths: the final state and
the assignments of each call. -/
def fillFragments (cb : Producer) :
    LanczosResampler F → List Nat → Option (LanczosResampler F × List (List (Write F)))
  | s, [] => some (s, [])
  | s, length :: rest =>
    match fillFragment cb s length with
    | none => none
    | some (s1, ws) =>
      match fillFragments cb s1 rest with
      | none => none
      | some (s2, wss) => some (s2, ws :: wss)

end Engine

/-! ## Well-formed states -/

section Invariants

variable {F : Type} [Field F]

/-- The producer contract: every fragment handed out has `fragmentSize` samples,
times two (interleaved) for a stereo source. -/
def ProducerOk (cb : Producer) (fmt : Format) : Prop :=
  ∀ k frag, cb k = some frag → frag.length = fmt.fragmentSize * (if fmt.stereo then 2 else 1)

/-- Representation invariant of the engine: what the constructor establishes and
every method keeps, and what makes every access of `fillFragment` defined. -/
structure WellFormed (s : LanczosResampler F) : Prop where
  fragmentSize_pos : 0 < s.myFormatFrom.fragmentSize
  rateTo_pos : 0 < s.myFormatTo.sampleRate
  kernelCount_pos : 0 < s.myPrecomputedKernelCount
  kernelCount_lt : s.myPrecomputedKernelCount < 4294967296
  kernelIndex_lt : s.myCurrentKernelIndex < s.myPrecomputedKernelCount
  kernels_fit : ∀ k, k < s.myPrecomputedKernelCount →
    u32 (k * s.myKernelSize) + s.myKernelSize ≤ s.myPrecomputedKernels.length
  mono : s.myFormatFrom.stereo = false →
    ∃ b, s.myBuffer = some b ∧ b.data.length = s.myKernelSize
  stereo : s.myFormatFrom.stereo = true →
    ∃ l r, s.myBufferL = some l ∧ s.myBufferR = some r ∧
      l.data.length = s.myKernelSize ∧ r.data.length = s.myKernelSize
  fragment_size : ∀ frag, s.myCurrentFragment = some frag →
    frag.length = s.myFormatFrom.fragmentSize * (if s.myFormatFrom.stereo then 2 else 1)
  cursor_lt : s.myFragmentIndex < s.myFormatFrom.fragmentSize

/-- The members that `shiftSamples` never assigns. -/
def SameTimebase (s t : LanczosResampler F) : Prop :=
  t.myFormatFrom = s.myFormatFrom ∧ t.myFormatTo = s.myFormatTo ∧
  t.myPrecomputedKernelCount = s.myPrecomputedKernelCount ∧
  t.myKernelSize = s.myKernelSize ∧ t.myKernelParameter = s.myKernelParameter ∧
  t.myPrecomputedKernels = s.myPrecomputedKernels ∧
  t.myCurrentKernelIndex = s.myCurrentKernelIndex ∧ t.myTimeIndex = s.myTimeIndex ∧
  t.outputSamples = s.outputSamples ∧ t.shiftRequests = s.shiftRequests

/-- The members fixed by the constructor. -/
def SameConfig (s t : LanczosResampler F) : Prop :=
  t.myFormatFrom = s.myFormatFrom ∧ t.myFormatTo = s.myFormatTo ∧
  t.myPrecomputedKernelCount = s.myPrecomputedKernelCount ∧
  t.myKernelSize = s.myKernelSize ∧ t.myKernelParameter = s.myKernelParameter ∧
  t.myPrecomputedKernels = s.myPrecomputedKernels

/-- The timebase relations: after `k = outputSamples` output samples the
accumulator is `(k * Fin) mod Fout`, the raw samples requested so far are
`(k * Fin) / Fout`, and the kernel index is `k mod N`. -/
structure PhaseLocked (s : LanczosResampler F) : Prop where
  time : s.myTimeIndex = (s.outputSamples * s.myFormatFrom.sampleRate) % s.myFormatTo.sampleRate
  shifts :
    s.shiftRequests = (s.outputSamples * s.myFormatFrom.sampleRate) / s.myFormatTo.sampleRate
  kernel : s.myCurrentKernelIndex = s.outputSamples % s.myPrecomputedKernelCount

/-- What a state keeps while the producer has no data: the current fragment stays,
the cursor has advanced by `d` raw samples modulo the fragment size, the underrun
flag, once set, stays set, and `outputs` samples were computed by convolution. -/
structure Replayed (frag : List Int) (s t : LanczosResampler F) (d outputs : Nat) : Prop where
  fragment : t.myCurrentFragment = some frag
  cursor : t.myFragmentIndex = (s.myFragmentIndex + d) % s.myFormatFrom.fragmentSize
  pulls : s.pulls ≤ t.pulls
  underrun : s.myIsUnderrun = true → t.myIsUnderrun = true
  config : SameConfig s t
  shifts : t.shiftRequests = s.shiftRequests + d
  samples : t.outputSamples = s.outputSamples + outputs

end Invariants

/-! ## A worked configuration

A mono engine converting rate 3 to rate 2 with kernel half-width 1 and fragments
of two samples, over the rationals; the producer hands out one fragment and then
reports "no data". The stand-in `exampleSin` vanishes everywhere, so the table
below is what `precomputeKernels` computes with it. -/

def exampleFrom : Format := ⟨3, false, 2⟩

def exampleTo : Format := ⟨2, false, 2⟩

def exampleSin : ℚ → ℚ := fun _ => 0

def exampleProducer : Producer := fun k => if k = 0 then some [32767, 0] else none

def silentProducer : Producer := fun _ => none

def exampleEngine : LanczosResampler ℚ :=
  { myFormatFrom := exampleFrom
    myFormatTo := exampleTo
    myPrecomputedKernelCount := 2
    myKernelSize := 2
    myCurrentKernelIndex := 0
    myKernelParameter := 1
    myPrecomputedKernels := [3 / 4, 0, 0, 0]
    myBuffer := some ⟨[0, 0]⟩
    myBufferL := none
    myBufferR := none
    myCurrentFragment := none
    myFragmentIndex := 0
    myIsUnderrun := true
    myTimeIndex := 0
    pulls := 0
    diagnostics := 0
    outputSamples := 0
    shiftRequests := 0 }

/-- The state of `exampleEngine` after `fillFragment` with `length = 2` and
`exampleProducer`: the second pull found no data, the engine is in underrun and
still holds the exhausted fragment. -/
def underrunEngine : LanczosResampler ℚ :=
  { exampleEngine with
    myBuffer := some ⟨[0, 1]⟩
    myCurrentFragment := some [32767, 0]
    myFragmentIndex := 1
    pulls := 2
    diagnostics := 1
    outputSamples := 2
    shiftRequests := 3 }

/-- A producer whose only fragment starts with the most negative 16-bit sample. -/
def extremeProducer : Producer := fun k => if k = 0 then some [-32768, 0] else none

def passthroughFormat : Format := ⟨1, false, 2⟩

/-- The mono engine with target rate 1, kernel half-width 1 and a single kernel
`[0.75, 0]`, as constructed (`singleKernelEngine_created_one`,
`singleKernelEngine_created_three`) from source rates 1 and 3 with the real sine. -/
def singleKernelEngine (F : Type) [Field F] (formatFrom : Format) : LanczosResampler F :=
  { myFormatFrom := formatFrom
    myFormatTo := passthroughFormat
    myPrecomputedKernelCount := 1
    myKernelSize := 2
    myCurrentKernelIndex := 0
    myKernelParameter := 1
    myPrecomputedKernels := [3 / 4, 0]
    myBuffer := some ⟨[0, 0]⟩
    myBufferL := none
    myBufferR := none
    myCurrentFragment := none
    myFragmentIndex := 0
    myIsUnderrun := true
    myTimeIndex := 0
    pulls := 0
    diagnostics := 0
    outputSamples := 0
    shiftRequests := 0 }

/-- The range of the value `v / 32767` pushed for a raw sample `v`: between
`-32768 / 32767` and `1`, and at least `-1` exactly when `v` is not `-32768`. -/
def PushedRange (F : Type) [LinearOrderedField F] (v : Int) : Prop :=
  -(32768 / 32767 : F) ≤ (v : F) / 32767 ∧ (v : F) / 32767 ≤ 1 ∧
    (-1 ≤ (v : F) / 32767 ↔ v ≠ -32768)

/-- A producer that has no data for two pulls and then hands out one fragment. -/
def lateProducer : Producer := fun k => if k = 2 then some [32767, 0] else none

section Selected

variable {F : Type} [Field F]

/-- The kernel snapshot selected for the next output sample: the `myKernelSize`
coefficients at `myPrecomputedKernels + myCurrentKernelIndex * myKernelSize`. -/
def selectedKernel (s : LanczosResampler F) : List F :=
  (s.myPrecomputedKernels.drop (u32 (s.myCurrentKernelIndex * s.myKernelSize))).take
    s.myKernelSize

end Selected

def stereoFormat : Format := ⟨1, true, 1⟩

/-- The engine constructed for a stereo source of rate 1 and a mono target of rate 1
with kernel half-width 1. -/
def downmixEngine : LanczosResampler ℚ :=
  { singleKernelEngine ℚ stereoFormat with
    myBuffer := none
    myBufferL := some ⟨[0, 0]⟩
    myBufferR := some ⟨[0, 0]⟩ }

/-- The engine constructed for a mono source of rate 1 and a stereo target of rate 1
with kernel half-width 1. -/
def upmixEngine : LanczosResampler ℚ :=
  { singleKernelEngine ℚ passthroughFormat with myFormatTo := stereoFormat }

/-- A producer of a constant stream at full scale: every fragment is `[32767, 32767]`. -/
def dcProducer : Producer := fun _ => some [32767, 32767]

/-- The mono engine converting rate 1 to rate 2 with kernel half-width 1: two kernels,
`[0.75, 0]` for phase 0 and `[c, c]` for phase 1/2, where `c` stands for the
coefficient `lanczosKernel(±1/2, 1) * 0.75`. -/
def upsamplingEngine (F : Type) [Field F] (c : F) : LanczosResampler F :=
  { singleKernelEngine F passthroughFormat with
    myFormatTo := exampleTo
    myPrecomputedKernelCount := 2
    myPrecomputedKernels := [3 / 4, 0, c, c] }

/-- The state of `upsamplingEngine` after `fillFragment` with `length = 5` and
`dcProducer`: the buffer holds two copies of `1` and phase 1/2 is next. -/
def warmUpsamplingEngine (F : Type) [Field F] (c : F) : LanczosResampler F :=
  { upsamplingEngine F c with
    myCurrentKernelIndex := 1
    myBuffer := some ⟨[1, 1]⟩
    myCurrentFragment := some [32767, 32767]
    myFragmentIndex := 0
    myIsUnderrun := false
    myTimeIndex := 1
    pulls := 2
    outputSamples := 5
    shiftRequests := 2 }

/-- The state of `singleKernelEngine` (rates 1 to 1) after `fillFragment` with
`length = 2` and `dcProducer`: the buffer holds two copies of `1`. -/
def warmEngine (F : Type) [Field F] : LanczosResampler F :=
  { singleKernelEngine F passthroughFormat with
    myBuffer := some ⟨[1, 1]⟩
    myCurrentFragment := some [32767, 32767]
    myFragmentIndex := 0
    myIsUnderrun := false
    pulls := 2
    outputSamples := 2
    shiftRequests := 2 }

/-! ## Passthrough: equal rates, a producer that always has data -/

/-- Raw input sample `n` of the stream the producer hands out in fragments of `size`
samples: sample `n mod size` of fragment `n / size`. -/
def inputSample (cb : Producer) (size n : Nat) : Int :=
  match cb (n / size) with
  | some frag => frag.getD (n % size) 0
  | none => 0

section Passthrough

variable {F : Type} [Field F]

/-- The value named by the passthrough property for output sample `k`: `0` for
`k < a + 1`, otherwise `0.75` times the normalised input sample `k - a - 1`. -/
def delayedOutput (F : Type) [Field F] (cb : Producer) (size a k : Nat) : F :=
  if k < a + 1 then 0 else 3 / 4 * ((inputSample cb size (k - a - 1) : F) / 32767)

/-- The assignments named by the passthrough property for a sequence of
`fillFragment` calls with the given lengths, the first of which starts at output
sample `k`. -/
def passthroughWrites (F : Type) [Field F] (cb : Producer) (size a : Nat) :
    Nat → List Nat → List (List (Write F))
  | _, [] => []
  | k, length :: rest =>
    (List.range length).map (fun i => (i, delayedOutput F cb size a (k + i)))
      :: passthroughWrites F cb size a (k + length) rest

/-- The states of a mono engine with equal rates, one kernel `0.75` at tap `a - 1`,
that has computed `outputSamples` output samples from a producer that always had
data: the buffer holds the last `2a` normalised input samples (zeros before the
first), oldest first, and the cursor is at input sample `outputSamples`. -/
structure Streaming (cb : Producer) (size a : Nat) (s : LanczosResampler F) : Prop where
  monoFrom : s.myFormatFrom.stereo = false
  monoTo : s.myFormatTo.stereo = false
  rates : s.myFormatFrom.sampleRate = s.myFormatTo.sampleRate
  rate_pos : 0 < s.myFormatTo.sampleRate
  rate_lt : s.myFormatTo.sampleRate < 4294967296
  size_eq : s.myFormatFrom.fragmentSize = size
  kernelCount : s.myPrecomputedKernelCount = 1
  kernelSize : s.myKernelSize = 2 * a
  kernels : s.myPrecomputedKernels = List.replicate (a - 1) 0 ++ (3 / 4 : F) :: List.replicate a 0
  kernelIndex : s.myCurrentKernelIndex = 0
  time : s.myTimeIndex = 0
  underrun : s.myIsUnderrun = false
  buffer : s.myBuffer = some ⟨(List.replicate (2 * a) 0 ++
    (List.range s.outputSamples).map
      (fun n => (inputSample cb size n : F) / 32767)).drop s.outputSamples⟩
  fragment : s.myCurrentFragment = cb (s.outputSamples / size)
  cursor : s.myFragmentIndex = s.outputSamples % size
  pulls : s.pulls = s.outputSamples / size + 1

end Passthrough

/-! ## What a run is observed to do -/

section Observed

variable {F : Type} [Field F]

/-- The read position of the engine in the sequence of raw-sample positions handed to
it: every pull of the callback starts a fragment of `fragmentSize` positions, and
`myFragmentIndex` is the position within the current one. -/
def rawPosition (s : LanczosResampler F) : Nat :=
  s.pulls * s.myFormatFrom.fragmentSize + s.myFragmentIndex

/-- A sequence of `fillFragment` calls together with what can be observed of it: the
final state, the assignments of each call, the number of output samples written
by the calls that took the convolution path (the assignments of the call, two
per sample for a stereo target), and the number of raw samples shifted (the
advance of the read position between the pull at the top of a call and the end
of the call). -/
def observedRun (cb : Producer) :
    LanczosResampler F → List Nat →
      Option (LanczosResampler F × List (List (Write F)) × Nat × Nat)
  | s, [] => some (s, [], 0, 0)
  | s, length :: rest =>
    match fillFragment cb s length with
    | none => none
    | some (s1, ws) =>
      match observedRun cb s1 rest with
      | none => none
      | some (t, wss, k, m) =>
        some (t, ws :: wss,
          (if (recoverFromUnderrun cb s).myCurrentFragment.isSome then
            ws.length / (if s.myFormatTo.stereo then 2 else 1) else 0) + k,
          (rawPosition s1 - rawPosition (recoverFromUnderrun cb s)) + m)

end Observed

section Shifted

variable {F : Type} [Field F]

/-- What shifting exactly one raw sample does to a state `s`, giving `t`: the
sample(s) at the cursor of the current fragment, divided by `32767`, are pushed
into the buffer(s), the cursor advances by one modulo the fragment size, and the
callback is pulled exactly when the cursor reaches the end of the fragment, so
that the read position moves forward by one. -/
structure ShiftedOnce (s t : LanczosResampler F) : Prop where
  position : rawPosition t = rawPosition s + 1
  cursor : t.myFragmentIndex = (s.myFragmentIndex + 1) % s.myFormatFrom.fragmentSize
  pulls : t.pulls = s.pulls
    + (if s.myFragmentIndex + 1 = s.myFormatFrom.fragmentSize then 1 else 0)
  mono : s.myFormatFrom.stereo = false → ∃ frag b v, s.myCurrentFragment = some frag ∧
    s.myBuffer = some b ∧ frag[s.myFragmentIndex]? = some v ∧
    t.myBuffer = some (b.shift ((v : F) / 32767))
  stereo : s.myFormatFrom.stereo = true → ∃ frag l r vl vr,
    s.myCurrentFragment = some frag ∧ s.myBufferL = some l ∧ s.myBufferR = some r ∧
    frag[u32 (2 * s.myFragmentIndex)]? = some vl ∧
    frag[u32 (u32 (2 * s.myFragmentIndex) + 1)]? = some vr ∧
    t.myBufferL = some (l.shift ((vl : F) / 32767)) ∧
    t.myBufferR = some (r.shift ((vr : F) / 32767))

end Shifted

/-! ## Theorems -/

theorem u32_of_lt {x : Nat} (h : x < 4294967296) : u32 x = x := Nat.mod_eq_of_lt h

theorem u32_lt (x : Nat) : u32 x < 4294967296 := Nat.mod_lt _ (by decide)

theorem u32_pred {i : Nat} (h0 : 0 < i) (h : i ≤ 4294967296) :
    u32 (i + 4294967295) = i - 1 := by
  unfold u32; omega

/-- Once `n` and `d` are coprime the loop only counts down and returns `d`. -/
theorem reducedDenominatorLoop_coprime (n d : Nat) (hc : Nat.gcd n d = 1) :
    ∀ (i fuel : Nat), i < 4294967296 → i < fuel →
      reducedDenominatorLoop fuel n d i = some d := by
  intro i
  induction i with
  | zero =>
    intro fuel _ hf
    obtain ⟨f, rfl⟩ : ∃ f, fuel = f + 1 := ⟨fuel - 1, by omega⟩
    simp [reducedDenominatorLoop]
  | succ i ih =>
    intro fuel hi hf
    obtain ⟨f, rfl⟩ : ∃ f, fuel = f + 1 := ⟨fuel - 1, by omega⟩
    unfold reducedDenominatorLoop
    by_cases h1 : 1 < i + 1
    · have hnd : ¬ (n % (i + 1) = 0 ∧ d % (i + 1) = 0) := by
        rintro ⟨hn, hd⟩
        have hdvd : (i + 1) ∣ Nat.gcd n d :=
          Nat.dvd_gcd (Nat.dvd_of_mod_eq_zero hn) (Nat.dvd_of_mod_eq_zero hd)
        rw [hc] at hdvd
        have := Nat.le_of_dvd (by decide) hdvd
        omega
      rw [if_pos h1, if_neg hnd, u32_pred (by omega) (by omega)]
      exact ih f (by omega) (by omega)
    · rw [if_neg h1]

/-- Counting down from any `i` between `gcd n d` and `min n d`, the first common
divisor met is `gcd n d`; after dividing by it the loop returns `d / gcd n d`. -/
theorem reducedDenominatorLoop_search (n d : Nat) (hn : 0 < n) (hd : 0 < d)
    (hn32 : n < 4294967296) :
    ∀ (k i fuel : Nat), i = Nat.gcd n d + k → i ≤ min n d → i + min n d < fuel →
      reducedDenominatorLoop fuel n d i = some (d / Nat.gcd n d) := by
  have hg0 : 0 < Nat.gcd n d := Nat.gcd_pos_of_pos_left d hn
  have hgn : Nat.gcd n d ≤ n := Nat.le_of_dvd hn (Nat.gcd_dvd_left n d)
  intro k
  induction k with
  | zero =>
    intro i fuel hi hle hf
    obtain ⟨f, rfl⟩ : ∃ f, fuel = f + 1 := ⟨fuel - 1, by omega⟩
    simp only [Nat.add_zero] at hi
    subst hi
    unfold reducedDenominatorLoop
    by_cases h1 : 1 < Nat.gcd n d
    · have hdiv : n % Nat.gcd n d = 0 ∧ d % Nat.gcd n d = 0 :=
        ⟨Nat.mod_eq_zero_of_dvd (Nat.gcd_dvd_left n d),
         Nat.mod_eq_zero_of_dvd (Nat.gcd_dvd_right n d)⟩
      rw [if_pos h1, if_pos hdiv]
      have hcop : Nat.gcd (n / Nat.gcd n d) (d / Nat.gcd n d) = 1 :=
        Nat.coprime_div_gcd_div_gcd hg0
      have hn' : 0 < n / Nat.gcd n d :=
        Nat.div_pos hgn hg0
      have hd' : 0 < d / Nat.gcd n d :=
        Nat.div_pos (Nat.le_of_dvd hd (Nat.gcd_dvd_right n d)) hg0
      have hnle : n / Nat.gcd n d ≤ n := Nat.div_le_self _ _
      have hdle : d / Nat.gcd n d ≤ d := Nat.div_le_self _ _
      have hmin : min (n / Nat.gcd n d) (d / Nat.gcd n d) ≤ min n d := by omega
      have hmin0 : 0 < min (n / Nat.gcd n d) (d / Nat.gcd n d) := by omega
      rw [u32_pred hmin0 (by omega)]
      exact reducedDenominatorLoop_coprime _ _ hcop _ _ (by omega) (by omega)
    · have hg1 : Nat.gcd n d = 1 := by omega
      rw [if_neg h1, hg1, Nat.div_one]
  | succ k ih =>
    intro i fuel hi hle hf
    obtain ⟨f, rfl⟩ : ∃ f, fuel = f + 1 := ⟨fuel - 1, by omega⟩
    unfold reducedDenominatorLoop
    have h1 : 1 < i := by omega
    have hnd : ¬ (n % i = 0 ∧ d % i = 0) := by
      rintro ⟨hn', hd'⟩
      have hdvd : i ∣ Nat.gcd n d :=
        Nat.dvd_gcd (Nat.dvd_of_mod_eq_zero hn') (Nat.dvd_of_mod_eq_zero hd')
      have := Nat.le_of_dvd hg0 hdvd
      omega
    have hin : i ≤ n := le_trans hle (Nat.min_le_left n d)
    rw [if_pos h1, if_neg hnd, u32_pred (by omega) (by omega)]
    exact ih (i - 1) f (by omega) (by omega) (by omega)

/-- On positive arguments (`n` a 32-bit value) `reducedDenominator` returns
`d / gcd n d` without exhausting its loop bound. -/
theorem reducedDenominator_gcd (n d : Nat) (hn : 0 < n) (hd : 0 < d) (hn32 : n < 4294967296) :
    reducedDenominator n d = some (d / Nat.gcd n d) := by
  have hg : Nat.gcd n d ≤ min n d := by
    simp only [Nat.le_min]
    exact ⟨Nat.le_of_dvd hn (Nat.gcd_dvd_left n d), Nat.le_of_dvd hd (Nat.gcd_dvd_right n d)⟩
  have hmin : min n d ≤ n := Nat.min_le_left n d
  have hmin2 : min n d ≤ d := Nat.min_le_right n d
  exact reducedDenominatorLoop_search n d hn hd hn32 (min n d - Nat.gcd n d) (min n d)
    (n + d + 1) (by omega) (le_refl _) (by omega)

/-- Divisibility of `k * Fin` by `Fout` is divisibility of `k` by
`Fout / gcd(Fin, Fout)`. -/
theorem dvd_mul_iff_reduced (a b k : Nat) (hb : 0 < b) :
    b ∣ k * a ↔ (b / Nat.gcd a b) ∣ k := by
  have hg : 0 < Nat.gcd a b := Nat.gcd_pos_of_pos_right a hb
  obtain ⟨a1, b1, hcop, ha, hb1⟩ := Nat.exists_coprime a b
  have hdiv : b / Nat.gcd a b = b1 := Nat.div_eq_of_eq_mul_left hg hb1
  rw [hdiv]
  have h1 : b ∣ k * a ↔ Nat.gcd a b * b1 ∣ Nat.gcd a b * (k * a1) := by
    have e1 : Nat.gcd a b * b1 = b := by rw [Nat.mul_comm]; exact hb1.symm
    have e2 : Nat.gcd a b * (k * a1) = k * a := by
      calc Nat.gcd a b * (k * a1) = k * (a1 * Nat.gcd a b) := by ring
        _ = k * a := by rw [← ha]
    rw [e1, e2]
  rw [h1, Nat.mul_dvd_mul_iff_left hg]
  exact (Nat.Coprime.dvd_mul_right hcop.symm)

/-- Reducing the output-sample count modulo `N = Fout / gcd(Fin, Fout)` does not
change the phase `(k * Fin) mod Fout`. -/
theorem phase_mod_reduced (a b k : Nat) (hb : 0 < b) :
    (k % (b / Nat.gcd a b)) * a % b = k * a % b := by
  have hN : b ∣ (b / Nat.gcd a b) * a := (dvd_mul_iff_reduced a b _ hb).mpr (dvd_refl _)
  obtain ⟨c, hc⟩ := hN
  have hk : k * a = (k % (b / Nat.gcd a b)) * a + b * (c * (k / (b / Nat.gcd a b))) := by
    conv_lhs => rw [← Nat.mod_add_div k (b / Nat.gcd a b)]
    rw [Nat.add_mul, Nat.mul_right_comm, hc]
    ring
  rw [hk, Nat.add_mul_mod_self_left]

/-! ### Safety of `shiftSamples` and `fillFragment` -/

section Safety

variable {F : Type}

theorem u32_le (x : Nat) : u32 x ≤ x := Nat.mod_le _ _

theorem sameTimebase_refl (s : LanczosResampler F) : SameTimebase s s := by
  simp [SameTimebase]

theorem sameTimebase_trans {s t r : LanczosResampler F} (h1 : SameTimebase s t)
    (h2 : SameTimebase t r) : SameTimebase s r := by
  unfold SameTimebase at h1 h2 ⊢
  refine ⟨h2.1.trans h1.1, h2.2.1.trans h1.2.1, h2.2.2.1.trans h1.2.2.1,
    h2.2.2.2.1.trans h1.2.2.2.1, h2.2.2.2.2.1.trans h1.2.2.2.2.1,
    h2.2.2.2.2.2.1.trans h1.2.2.2.2.2.1, h2.2.2.2.2.2.2.1.trans h1.2.2.2.2.2.2.1,
    h2.2.2.2.2.2.2.2.1.trans h1.2.2.2.2.2.2.2.1,
    h2.2.2.2.2.2.2.2.2.1.trans h1.2.2.2.2.2.2.2.2.1,
    h2.2.2.2.2.2.2.2.2.2.trans h1.2.2.2.2.2.2.2.2.2⟩

theorem shift_length (b : ConvolutionBuffer F) (v : F) :
    (b.shift v).data.length = b.data.length := by
  simp [ConvolutionBuffer.shift]

/-- What `pushSample` leaves alone. -/
theorem pushSample_frame [Field F] {s t : LanczosResampler F} (h : pushSample s = some t) :
    SameTimebase s t ∧ t.myCurrentFragment = s.myCurrentFragment ∧
      t.myFragmentIndex = s.myFragmentIndex ∧ t.myIsUnderrun = s.myIsUnderrun ∧
      t.pulls = s.pulls ∧ t.diagnostics = s.diagnostics := by
  unfold pushSample at h
  split at h
  · exact absurd h (by simp)
  · split at h
    · split at h
      · injection h with h
        subst h
        simp [SameTimebase, *]
      · exact absurd h (by simp)
    · split at h
      · injection h with h
        subst h
        simp [SameTimebase, *]
      · exact absurd h (by simp)

theorem pushSample_safe [Field F] (s : LanczosResampler F) (hw : WellFormed s)
    (hf : s.myCurrentFragment.isSome = true) :
    ∃ t, pushSample s = some t ∧ WellFormed t := by
  obtain ⟨frag, hfrag⟩ := Option.isSome_iff_exists.mp hf
  have hlen := hw.fragment_size frag hfrag
  have hcur := hw.cursor_lt
  cases hst : s.myFormatFrom.stereo with
  | true =>
    obtain ⟨l, r, hl, hr, hll, hrl⟩ := hw.stereo hst
    rw [hst] at hlen
    simp only [if_true] at hlen
    have h1 : u32 (2 * s.myFragmentIndex) < frag.length := by
      have := u32_le (2 * s.myFragmentIndex); omega
    have h2 : u32 (u32 (2 * s.myFragmentIndex) + 1) < frag.length := by
      have := u32_le (2 * s.myFragmentIndex)
      have := u32_le (u32 (2 * s.myFragmentIndex) + 1); omega
    refine ⟨{ s with
        myBufferL := some (l.shift ((frag[u32 (2 * s.myFragmentIndex)] : F) / 32767))
        myBufferR := some (r.shift ((frag[u32 (u32 (2 * s.myFragmentIndex) + 1)] : F) / 32767)) },
      ?_, ?_⟩
    · simp only [pushSample, hfrag, hst, if_true, hl, hr, List.getElem?_eq_getElem h1,
        List.getElem?_eq_getElem h2]
    · exact
        { fragmentSize_pos := hw.fragmentSize_pos
          rateTo_pos := hw.rateTo_pos
          kernelCount_pos := hw.kernelCount_pos
          kernelCount_lt := hw.kernelCount_lt
          kernelIndex_lt := hw.kernelIndex_lt
          kernels_fit := hw.kernels_fit
          mono := fun h => by simp [hst] at h
          stereo := fun _ => ⟨_, _, rfl, rfl, by simp [shift_length, hll], by
            simp [shift_length, hrl]⟩
          fragment_size := hw.fragment_size
          cursor_lt := hw.cursor_lt }
  | false =>
    obtain ⟨b, hb, hbl⟩ := hw.mono hst
    rw [hst] at hlen
    simp only [Bool.false_eq_true, if_false, Nat.mul_one] at hlen
    have h1 : s.myFragmentIndex < frag.length := by omega
    refine ⟨{ s with myBuffer := some (b.shift ((frag[s.myFragmentIndex] : F) / 32767)) },
      ?_, ?_⟩
    · simp only [pushSample, hfrag, hst, Bool.false_eq_true, if_false, hb,
        List.getElem?_eq_getElem h1]
    · exact
        { fragmentSize_pos := hw.fragmentSize_pos
          rateTo_pos := hw.rateTo_pos
          kernelCount_pos := hw.kernelCount_pos
          kernelCount_lt := hw.kernelCount_lt
          kernelIndex_lt := hw.kernelIndex_lt
          kernels_fit := hw.kernels_fit
          mono := fun _ => ⟨_, rfl, by simp [shift_length, hbl]⟩
          stereo := fun h => by simp [hst] at h
          fragment_size := hw.fragment_size
          cursor_lt := hw.cursor_lt }

/-- What `advanceCursor` leaves alone. -/
theorem advanceCursor_frame {cb : Producer} {s t : LanczosResampler F}
    (h : advanceCursor cb s = some t) :
    SameTimebase s t ∧ t.myBuffer = s.myBuffer ∧ t.myBufferL = s.myBufferL ∧
      t.myBufferR = s.myBufferR ∧ (s.myCurrentFragment.isSome = true →
        t.myCurrentFragment.isSome = true) := by
  unfold advanceCursor at h
  simp only at h
  split at h
  · split at h
    · exact absurd h (by simp)
    · split at h
      · injection h with h
        subst h
        simp [SameTimebase]
      · injection h with h
        subst h
        simp [SameTimebase]
  · injection h with h
    subst h
    simp [SameTimebase]

theorem advanceCursor_safe (cb : Producer) (s : LanczosResampler F) (hw : WellFormed s)
    (hp : ProducerOk cb s.myFormatFrom) :
    ∃ t, advanceCursor cb s = some t ∧ WellFormed t := by
  have hpos := hw.fragmentSize_pos
  unfold advanceCursor
  simp only
  by_cases hge : s.myFormatFrom.fragmentSize ≤ u32 (s.myFragmentIndex + 1)
  · rw [if_pos hge, if_neg (by omega)]
    have hmod : u32 (s.myFragmentIndex + 1) % s.myFormatFrom.fragmentSize
        < s.myFormatFrom.fragmentSize := Nat.mod_lt _ hpos
    cases hcb : cb s.pulls with
    | none =>
      refine ⟨_, rfl, ?_⟩
      exact
        { fragmentSize_pos := hw.fragmentSize_pos
          rateTo_pos := hw.rateTo_pos
          kernelCount_pos := hw.kernelCount_pos
          kernelCount_lt := hw.kernelCount_lt
          kernelIndex_lt := hw.kernelIndex_lt
          kernels_fit := hw.kernels_fit
          mono := hw.mono
          stereo := hw.stereo
          fragment_size := hw.fragment_size
          cursor_lt := hmod }
    | some next =>
      refine ⟨_, rfl, ?_⟩
      exact
        { fragmentSize_pos := hw.fragmentSize_pos
          rateTo_pos := hw.rateTo_pos
          kernelCount_pos := hw.kernelCount_pos
          kernelCount_lt := hw.kernelCount_lt
          kernelIndex_lt := hw.kernelIndex_lt
          kernels_fit := hw.kernels_fit
          mono := hw.mono
          stereo := hw.stereo
          fragment_size := fun frag hfr => by
            simp only [Option.some.injEq] at hfr
            subst hfr
            exact hp _ _ hcb
          cursor_lt := hmod }
  · rw [if_neg hge]
    refine ⟨_, rfl, ?_⟩
    exact
      { fragmentSize_pos := hw.fragmentSize_pos
        rateTo_pos := hw.rateTo_pos
        kernelCount_pos := hw.kernelCount_pos
        kernelCount_lt := hw.kernelCount_lt
        kernelIndex_lt := hw.kernelIndex_lt
        kernels_fit := hw.kernels_fit
        mono := hw.mono
        stereo := hw.stereo
        fragment_size := hw.fragment_size
        cursor_lt := by simpa using hge }

/-- Method `shiftSamples` is defined on every well-formed state that has a current
fragment, keeps the state well-formed and the fragment non-null, and assigns
none of the timebase members. -/
theorem shiftSamples_safe [Field F] (cb : Producer) (n : Nat) :
    ∀ (s : LanczosResampler F), WellFormed s → ProducerOk cb s.myFormatFrom →
      s.myCurrentFragment.isSome = true →
      ∃ t, shiftSamples cb n s = some t ∧ WellFormed t ∧ SameTimebase s t ∧
        t.myCurrentFragment.isSome = true := by
  induction n with
  | zero =>
    intro s hw _ hf
    exact ⟨s, rfl, hw, sameTimebase_refl s, hf⟩
  | succ n ih =>
    intro s hw hp hf
    obtain ⟨s1, h1, hw1⟩ := pushSample_safe s hw hf
    obtain ⟨hs1, hfr1, -⟩ := pushSample_frame h1
    have hp1 : ProducerOk cb s1.myFormatFrom := by rw [hs1.1]; exact hp
    obtain ⟨s2, h2, hw2⟩ := advanceCursor_safe cb s1 hw1 hp1
    obtain ⟨hs2, -, -, -, hfr2⟩ := advanceCursor_frame h2
    have hp2 : ProducerOk cb s2.myFormatFrom := by rw [hs2.1]; exact hp1
    obtain ⟨t, h3, hw3, hs3, hf3⟩ := ih s2 hw2 hp2 (hfr2 (by rw [hfr1]; exact hf))
    refine ⟨t, ?_, hw3, sameTimebase_trans (sameTimebase_trans hs1 hs2) hs3, hf3⟩
    simp only [shiftSamples, h1, h2, h3]

theorem sameConfig_refl (s : LanczosResampler F) : SameConfig s s := by
  simp [SameConfig]

theorem sameConfig_trans {s t r : LanczosResampler F} (h1 : SameConfig s t)
    (h2 : SameConfig t r) : SameConfig s r := by
  unfold SameConfig at h1 h2 ⊢
  refine ⟨h2.1.trans h1.1, h2.2.1.trans h1.2.1, h2.2.2.1.trans h1.2.2.1,
    h2.2.2.2.1.trans h1.2.2.2.1, h2.2.2.2.2.1.trans h1.2.2.2.2.1,
    h2.2.2.2.2.2.trans h1.2.2.2.2.2⟩

theorem SameTimebase.sameConfig {s t : LanczosResampler F} (h : SameTimebase s t) :
    SameConfig s t :=
  ⟨h.1, h.2.1, h.2.2.1, h.2.2.2.1, h.2.2.2.2.1, h.2.2.2.2.2.1⟩

/-- The output positions assigned by iteration `i` of the loop of `fillFragment`. -/
theorem convolveSample_indices [Field F] {s : LanczosResampler F} {off i : Nat}
    {ws : List (Write F)} (h : convolveSample s off i = some ws) (j : Nat) :
    j ∈ ws.map Prod.fst ↔
      if s.myFormatTo.stereo then j = u32 (2 * i) ∨ j = u32 (u32 (2 * i) + 1) else j = i := by
  unfold convolveSample at h
  split at h
  · split at h
    · split at h
      · split at h
        · injection h with h
          subst h
          simp [*]
        · injection h with h
          subst h
          simp [*]
      · exact absurd h (by simp)
    · exact absurd h (by simp)
  · split at h
    · split at h
      · split at h
        · injection h with h
          subst h
          simp [*, or_comm]
        · injection h with h
          subst h
          simp [*]
      · exact absurd h (by simp)
    · exact absurd h (by simp)

theorem convoluteWith_safe [Field F] (b : ConvolutionBuffer F) (mem : List F) (off : Nat)
    (h : off + b.data.length ≤ mem.length) :
    b.convoluteWith mem off =
      some (dotProduct b.data ((mem.drop off).take b.data.length)) := by
  simp [ConvolutionBuffer.convoluteWith, h]

/-- With the buffers of a well-formed state and a kernel inside the table, the
convolutions of one iteration are defined. -/
theorem convolveSample_safe [Field F] (s : LanczosResampler F) (hw : WellFormed s)
    (off i : Nat) (hoff : off + s.myKernelSize ≤ s.myPrecomputedKernels.length) :
    ∃ ws, convolveSample s off i = some ws := by
  unfold convolveSample
  cases hst : s.myFormatFrom.stereo with
  | true =>
    obtain ⟨l, r, hl, hr, hll, hrl⟩ := hw.stereo hst
    simp only [if_true, hl, hr]
    rw [convoluteWith_safe l _ _ (by omega), convoluteWith_safe r _ _ (by omega)]
    simp only
    split <;> exact ⟨_, rfl⟩
  | false =>
    obtain ⟨b, hb, hbl⟩ := hw.mono hst
    simp only [Bool.false_eq_true, if_false, hb]
    rw [convoluteWith_safe b _ _ (by omega)]
    simp only
    split <;> exact ⟨_, rfl⟩

/-- What `shiftSamples` leaves alone. -/
theorem shiftSamples_frame [Field F] (cb : Producer) (n : Nat) :
    ∀ (s t : LanczosResampler F), shiftSamples cb n s = some t → SameTimebase s t := by
  induction n with
  | zero =>
    intro s t h
    simp only [shiftSamples, Option.some.injEq] at h
    subst h
    exact sameTimebase_refl s
  | succ n ih =>
    intro s t h
    unfold shiftSamples at h
    split at h
    · exact absurd h (by simp)
    · rename_i s1 h1
      split at h
      · exact absurd h (by simp)
      · rename_i s2 h2
        exact sameTimebase_trans (sameTimebase_trans (pushSample_frame h1).1 (advanceCursor_frame h2).1) (ih s2 t h)

/-- Well-formedness does not depend on the timebase members, as long as the
kernel index stays below the kernel count. -/
theorem WellFormed.timebase {s : LanczosResampler F} (hw : WellFormed s) (k t o r : Nat)
    (hk : k < s.myPrecomputedKernelCount) :
    WellFormed { s with
      myCurrentKernelIndex := k, myTimeIndex := t, outputSamples := o, shiftRequests := r } :=
  { fragmentSize_pos := hw.fragmentSize_pos
    rateTo_pos := hw.rateTo_pos
    kernelCount_pos := hw.kernelCount_pos
    kernelCount_lt := hw.kernelCount_lt
    kernelIndex_lt := hk
    kernels_fit := hw.kernels_fit
    mono := hw.mono
    stereo := hw.stereo
    fragment_size := hw.fragment_size
    cursor_lt := hw.cursor_lt }

/-- One iteration of the loop of `fillFragment` is defined on every well-formed
state that has a current fragment, and keeps it so. -/
theorem outputSample_safe [Field F] (cb : Producer) (s : LanczosResampler F) (i : Nat)
    (hw : WellFormed s) (hp : ProducerOk cb s.myFormatFrom)
    (hf : s.myCurrentFragment.isSome = true) :
    ∃ t ws, outputSample cb s i = some (t, ws) ∧ WellFormed t ∧ SameConfig s t ∧
      t.myCurrentFragment.isSome = true := by
  have hN := hw.kernelCount_pos
  have hB := hw.rateTo_pos
  have hk : u32 (s.myCurrentKernelIndex + 1) % s.myPrecomputedKernelCount
      < s.myPrecomputedKernelCount := Nat.mod_lt _ hN
  have hfit := hw.kernels_fit _ hw.kernelIndex_lt
  obtain ⟨ws, hws⟩ := convolveSample_safe _
    (hw.timebase (u32 (s.myCurrentKernelIndex + 1) % s.myPrecomputedKernelCount)
      s.myTimeIndex s.outputSamples s.shiftRequests hk)
    (u32 (s.myCurrentKernelIndex * s.myKernelSize)) i hfit
  unfold outputSample
  simp only
  rw [if_neg (by omega)]
  rw [hws]
  simp only
  rw [if_neg (by omega)]
  by_cases h0 : u32 (s.myTimeIndex + s.myFormatFrom.sampleRate) / s.myFormatTo.sampleRate = 0
  · rw [if_pos h0]
    exact ⟨_, _, rfl, hw.timebase _ _ _ _ hk, by simp [SameConfig], hf⟩
  · rw [if_neg h0]
    obtain ⟨t, ht, hwt, hst, hft⟩ := shiftSamples_safe cb
      (u32 (s.myTimeIndex + s.myFormatFrom.sampleRate) / s.myFormatTo.sampleRate) _
      (hw.timebase (u32 (s.myCurrentKernelIndex + 1) % s.myPrecomputedKernelCount)
        (u32 (s.myTimeIndex + s.myFormatFrom.sampleRate) % s.myFormatTo.sampleRate)
        (s.outputSamples + 1)
        (s.shiftRequests +
          u32 (s.myTimeIndex + s.myFormatFrom.sampleRate) / s.myFormatTo.sampleRate) hk)
      hp hf
    rw [ht]
    refine ⟨_, _, rfl, hwt, ?_, hft⟩
    have := hst.sameConfig
    simpa [SameConfig] using this

/-- One step of the integer accumulator: from `x mod b`, adding `a` does not wrap
when `a + b ≤ 2^32`, and quotient and remainder account for `x + a`. -/
theorem timebase_step (x a b : Nat) (hb : 0 < b) (hsum : a + b ≤ 4294967296) :
    u32 (x % b + a) = x % b + a ∧ (x % b + a) % b = (x + a) % b ∧
      x / b + (x % b + a) / b = (x + a) / b := by
  have hlt : x % b < b := Nat.mod_lt _ hb
  refine ⟨u32_of_lt (by omega), Nat.mod_add_mod _ _ _, ?_⟩
  have hx : x + a = b * (x / b) + (x % b + a) := by
    have := Nat.div_add_mod x b
    omega
  rw [hx, Nat.mul_add_div hb]

/-- One iteration of the loop of `fillFragment` keeps the timebase relations and
counts one output sample. -/
theorem outputSample_phase [Field F] {cb : Producer} {s t : LanczosResampler F} {i : Nat}
    {ws : List (Write F)} (h : outputSample cb s i = some (t, ws)) (hw : WellFormed s)
    (hph : PhaseLocked s)
    (hsum : s.myFormatFrom.sampleRate + s.myFormatTo.sampleRate ≤ 4294967296) :
    PhaseLocked t := by
  have hB := hw.rateTo_pos
  have hN := hw.kernelCount_pos
  obtain ⟨hu, hm, hd⟩ := timebase_step (s.outputSamples * s.myFormatFrom.sampleRate)
    s.myFormatFrom.sampleRate s.myFormatTo.sampleRate hB hsum
  have hmul : (s.outputSamples + 1) * s.myFormatFrom.sampleRate
      = s.outputSamples * s.myFormatFrom.sampleRate + s.myFormatFrom.sampleRate := by ring
  have hker : u32 (s.myCurrentKernelIndex + 1) % s.myPrecomputedKernelCount
      = (s.outputSamples + 1) % s.myPrecomputedKernelCount := by
    have hlt := hw.kernelIndex_lt
    have hlt2 := hw.kernelCount_lt
    rw [u32_of_lt (by omega), hph.kernel, Nat.mod_add_mod]
  unfold outputSample at h
  simp only at h
  rw [if_neg (by omega)] at h
  split at h
  · exact absurd h (by simp)
  · rw [if_neg (by omega)] at h
    rw [hph.time, hu] at h
    split at h
    · rename_i h0
      simp only [Option.some.injEq, Prod.mk.injEq] at h
      obtain ⟨rfl, -⟩ := h
      have hsmall : s.outputSamples * s.myFormatFrom.sampleRate % s.myFormatTo.sampleRate
          + s.myFormatFrom.sampleRate < s.myFormatTo.sampleRate := by
        exact (Nat.div_eq_zero_iff hB).mp h0
      refine ⟨?_, ?_, ?_⟩
      · simp only
        rw [hmul, ← hm, Nat.mod_eq_of_lt hsmall]
      · simp only
        rw [hmul, ← hd, h0, hph.shifts]
        rfl
      · simpa using hker
    · split at h
      · exact absurd h (by simp)
      · rename_i s3 h3
        simp only [Option.some.injEq, Prod.mk.injEq] at h
        obtain ⟨rfl, -⟩ := h
        obtain ⟨e1, e2, e3, -, -, -, e7, e8, e9, e10⟩ := shiftSamples_frame cb _ _ _ h3
        simp only at e1 e2 e3 e7 e8 e9 e10
        refine ⟨?_, ?_, ?_⟩
        · rw [e8, e9, e1, e2, hmul, ← hm]
        · rw [e10, e9, e1, e2, hmul, ← hd, hph.shifts]
        · rw [e7, e9, e3]
          exact hker

/-- The loop of `fillFragment` is defined on every well-formed state that has a
current fragment, and keeps it so. -/
theorem fillLoop_safe [Field F] (cb : Producer) (count : Nat) :
    ∀ (i : Nat) (s : LanczosResampler F), WellFormed s → ProducerOk cb s.myFormatFrom →
      s.myCurrentFragment.isSome = true →
      ∃ t ws, fillLoop cb count i s = some (t, ws) ∧ WellFormed t ∧ SameConfig s t ∧
        t.myCurrentFragment.isSome = true := by
  induction count with
  | zero =>
    intro i s hw _ hf
    exact ⟨s, [], rfl, hw, sameConfig_refl s, hf⟩
  | succ count ih =>
    intro i s hw hp hf
    obtain ⟨s1, ws, h1, hw1, hc1, hf1⟩ := outputSample_safe cb s i hw hp hf
    have hp1 : ProducerOk cb s1.myFormatFrom := by rw [hc1.1]; exact hp
    obtain ⟨t, rest, h2, hw2, hc2, hf2⟩ := ih (i + 1) s1 hw1 hp1 hf1
    refine ⟨t, ws ++ rest, ?_, hw2, sameConfig_trans hc1 hc2, hf2⟩
    simp only [fillLoop, h1, h2]

/-- The loop of `fillFragment` keeps the timebase relations. -/
theorem fillLoop_phase [Field F] (cb : Producer) (count : Nat) :
    ∀ (i : Nat) (s t : LanczosResampler F) (ws : List (Write F)),
      fillLoop cb count i s = some (t, ws) → WellFormed s → ProducerOk cb s.myFormatFrom →
      s.myCurrentFragment.isSome = true → PhaseLocked s →
      s.myFormatFrom.sampleRate + s.myFormatTo.sampleRate ≤ 4294967296 →
      PhaseLocked t := by
  induction count with
  | zero =>
    intro i s t ws h _ _ _ hph _
    simp only [fillLoop, Option.some.injEq, Prod.mk.injEq] at h
    obtain ⟨rfl, -⟩ := h
    exact hph
  | succ count ih =>
    intro i s t ws h hw hp hf hph hsum
    obtain ⟨s1, ws1, h1, hw1, hc1, hf1⟩ := outputSample_safe cb s i hw hp hf
    have hph1 := outputSample_phase h1 hw hph hsum
    have hp1 : ProducerOk cb s1.myFormatFrom := by rw [hc1.1]; exact hp
    have hsum1 : s1.myFormatFrom.sampleRate + s1.myFormatTo.sampleRate ≤ 4294967296 := by
      rw [hc1.1, hc1.2.1]; exact hsum
    unfold fillLoop at h
    rw [h1] at h
    simp only at h
    split at h
    · exact absurd h (by simp)
    · rename_i s2 rest h2
      simp only [Option.some.injEq, Prod.mk.injEq] at h
      obtain ⟨rfl, -⟩ := h
      exact ih (i + 1) s1 _ rest h2 hw1 hp1 hf1 hph1 hsum1

theorem PhaseLocked.of_sameTimebase {s t : LanczosResampler F} (h : SameTimebase s t)
    (hph : PhaseLocked s) : PhaseLocked t := by
  obtain ⟨e1, e2, e3, -, -, -, e7, e8, e9, e10⟩ := h
  exact ⟨by rw [e8, e9, e1, e2]; exact hph.time, by rw [e10, e9, e1, e2]; exact hph.shifts,
    by rw [e7, e9, e3]; exact hph.kernel⟩

theorem recoverFromUnderrun_frame (cb : Producer) (s : LanczosResampler F) :
    SameTimebase s (recoverFromUnderrun cb s) := by
  unfold recoverFromUnderrun
  split
  · split <;> simp [SameTimebase]
  · exact sameTimebase_refl s

theorem recoverFromUnderrun_safe (cb : Producer) (s : LanczosResampler F) (hw : WellFormed s)
    (hp : ProducerOk cb s.myFormatFrom) : WellFormed (recoverFromUnderrun cb s) := by
  unfold recoverFromUnderrun
  split
  · split
    · rename_i next hcb
      exact
        { fragmentSize_pos := hw.fragmentSize_pos
          rateTo_pos := hw.rateTo_pos
          kernelCount_pos := hw.kernelCount_pos
          kernelCount_lt := hw.kernelCount_lt
          kernelIndex_lt := hw.kernelIndex_lt
          kernels_fit := hw.kernels_fit
          mono := hw.mono
          stereo := hw.stereo
          fragment_size := fun frag hfr => by
            simp only [Option.some.injEq] at hfr
            subst hfr
            exact hp _ _ hcb
          cursor_lt := hw.fragmentSize_pos }
    · exact
        { fragmentSize_pos := hw.fragmentSize_pos
          rateTo_pos := hw.rateTo_pos
          kernelCount_pos := hw.kernelCount_pos
          kernelCount_lt := hw.kernelCount_lt
          kernelIndex_lt := hw.kernelIndex_lt
          kernels_fit := hw.kernels_fit
          mono := hw.mono
          stereo := hw.stereo
          fragment_size := hw.fragment_size
          cursor_lt := hw.cursor_lt }
  · exact hw

/-- Method `fillFragment` is defined on every well-formed state, keeps it
well-formed, leaves the configuration alone and keeps the timebase relations. -/
theorem fillFragment_safe [Field F] (cb : Producer) (s : LanczosResampler F) (length : Nat)
    (hw : WellFormed s) (hp : ProducerOk cb s.myFormatFrom) :
    ∃ t ws, fillFragment cb s length = some (t, ws) ∧ WellFormed t ∧ SameConfig s t ∧
      (PhaseLocked s →
        s.myFormatFrom.sampleRate + s.myFormatTo.sampleRate ≤ 4294967296 → PhaseLocked t) := by
  have hw1 := recoverFromUnderrun_safe cb s hw hp
  have hs1 := recoverFromUnderrun_frame cb s
  have hp1 : ProducerOk cb (recoverFromUnderrun cb s).myFormatFrom := by rw [hs1.1]; exact hp
  unfold fillFragment
  simp only
  cases hfr : (recoverFromUnderrun cb s).myCurrentFragment with
  | none =>
    exact ⟨_, _, rfl, hw1, hs1.sameConfig, fun hph _ => hph.of_sameTimebase hs1⟩
  | some frag =>
    simp only
    obtain ⟨t, ws, h, hwt, hct, -⟩ := fillLoop_safe cb
      (if (recoverFromUnderrun cb s).myFormatTo.stereo then length >>> 1 else length) 0 _
      hw1 hp1 (by rw [hfr]; rfl)
    refine ⟨t, ws, h, hwt, sameConfig_trans hs1.sameConfig hct, fun hph hsum => ?_⟩
    refine fillLoop_phase cb _ 0 _ t ws h hw1 hp1 (by rw [hfr]; rfl)
      (hph.of_sameTimebase hs1) ?_
    rw [hs1.1, hs1.2.1]
    exact hsum

/-- Every sequence of `fillFragment` calls is defined from a well-formed state and
ends in a well-formed state with the same configuration and the timebase
relations. -/
theorem fillFragments_safe [Field F] (cb : Producer) (lengths : List Nat) :
    ∀ (s : LanczosResampler F), WellFormed s → ProducerOk cb s.myFormatFrom →
      ∃ t wss, fillFragments cb s lengths = some (t, wss) ∧ WellFormed t ∧ SameConfig s t ∧
        (PhaseLocked s →
          s.myFormatFrom.sampleRate + s.myFormatTo.sampleRate ≤ 4294967296 →
          PhaseLocked t) := by
  induction lengths with
  | nil =>
    intro s hw _
    exact ⟨s, [], rfl, hw, sameConfig_refl s, fun hph _ => hph⟩
  | cons length rest ih =>
    intro s hw hp
    obtain ⟨s1, ws, h1, hw1, hc1, hph1⟩ := fillFragment_safe cb s length hw hp
    have hp1 : ProducerOk cb s1.myFormatFrom := by rw [hc1.1]; exact hp
    obtain ⟨t, wss, h2, hw2, hc2, hph2⟩ := ih s1 hw1 hp1
    refine ⟨t, ws :: wss, ?_, hw2, sameConfig_trans hc1 hc2, fun hph hsum => ?_⟩
    · simp only [fillFragments, h1, h2]
    · refine hph2 (hph1 hph hsum) ?_
      rw [hc1.1, hc1.2.1]
      exact hsum

/-- Without a current fragment and with a producer that has no data, `fillFragment`
only counts the pull and assigns zero to the `length` output positions. -/
theorem fillFragments_silent [Field F] (cb : Producer) (hcb : ∀ k, cb k = none) (lengths : List Nat) :
    ∀ (s : LanczosResampler F), s.myCurrentFragment = none → s.myIsUnderrun = true →
      fillFragments cb s lengths =
        some ({ s with pulls := s.pulls + lengths.length },
          lengths.map (fun length => (List.range length).map (fun i => (i, (0 : F))))) := by
  induction lengths with
  | nil =>
    intro s _ _
    rfl
  | cons length rest ih =>
    intro s hfr hu
    have hstep : fillFragment cb s length =
        some ({ s with pulls := s.pulls + 1 },
          (List.range length).map (fun i => (i, (0 : F)))) := by
      simp [fillFragment, recoverFromUnderrun, hu, hcb, hfr]
    rw [fillFragments, hstep]
    simp only
    rw [ih { s with pulls := s.pulls + 1 } hfr hu]
    simp only [List.length_cons, List.map_cons, Option.some.injEq, Prod.mk.injEq, and_true]
    congr 1
    omega

/-- The output positions assigned by one iteration of the loop of `fillFragment`. -/
theorem outputSample_indices [Field F] {cb : Producer} {s t : LanczosResampler F} {i : Nat}
    {ws : List (Write F)} (h : outputSample cb s i = some (t, ws)) (j : Nat) :
    j ∈ ws.map Prod.fst ↔
      if s.myFormatTo.stereo then j = u32 (2 * i) ∨ j = u32 (u32 (2 * i) + 1) else j = i := by
  unfold outputSample at h
  simp only at h
  split at h
  · exact absurd h (by simp)
  · split at h
    · exact absurd h (by simp)
    · rename_i ws1 hws
      have hidx := convolveSample_indices hws j
      simp only at hidx
      split at h
      · exact absurd h (by simp)
      · split at h
        · simp only [Option.some.injEq, Prod.mk.injEq] at h
          obtain ⟨-, rfl⟩ := h
          exact hidx
        · split at h
          · exact absurd h (by simp)
          · simp only [Option.some.injEq, Prod.mk.injEq] at h
            obtain ⟨-, rfl⟩ := h
            exact hidx

/-- The output positions assigned by the loop of `fillFragment`. -/
theorem fillLoop_indices [Field F] (cb : Producer) (count : Nat) :
    ∀ (i : Nat) (s t : LanczosResampler F) (ws : List (Write F)),
      fillLoop cb count i s = some (t, ws) → WellFormed s → ProducerOk cb s.myFormatFrom →
      s.myCurrentFragment.isSome = true →
      ∀ j, j ∈ ws.map Prod.fst ↔ ∃ k, i ≤ k ∧ k < i + count ∧
        (if s.myFormatTo.stereo then j = u32 (2 * k) ∨ j = u32 (u32 (2 * k) + 1) else j = k) := by
  induction count with
  | zero =>
    intro i s t ws h _ _ _ j
    simp only [fillLoop, Option.some.injEq, Prod.mk.injEq] at h
    obtain ⟨-, rfl⟩ := h
    simp only [List.map_nil, List.not_mem_nil, Nat.add_zero, false_iff, not_exists, not_and]
    intro k h1 h2
    omega
  | succ count ih =>
    intro i s t ws h hw hp hf j
    obtain ⟨s1, ws1, h1, hw1, hc1, hf1⟩ := outputSample_safe cb s i hw hp hf
    have hp1 : ProducerOk cb s1.myFormatFrom := by rw [hc1.1]; exact hp
    have hidx1 := outputSample_indices h1 j
    unfold fillLoop at h
    rw [h1] at h
    simp only at h
    split at h
    · exact absurd h (by simp)
    · rename_i s2 rest h2
      simp only [Option.some.injEq, Prod.mk.injEq] at h
      obtain ⟨-, rfl⟩ := h
      have hidx2 := ih (i + 1) s1 s2 rest h2 hw1 hp1 hf1 j
      rw [hc1.2.1] at hidx2
      rw [List.map_append, List.mem_append, hidx1, hidx2]
      constructor
      · rintro (h | ⟨k, hk1, hk2, hk3⟩)
        · exact ⟨i, le_refl _, by omega, h⟩
        · exact ⟨k, by omega, by omega, hk3⟩
      · rintro ⟨k, hk1, hk2, hk3⟩
        rcases Nat.eq_or_lt_of_le hk1 with rfl | hlt
        · exact Or.inl hk3
        · exact Or.inr ⟨k, by omega, by omega, hk3⟩

end Safety

/-! ### Underrun: the exhausted fragment is replayed -/

section Replay

variable {F : Type}

theorem advanceCursor_replay {cb : Producer} {s t : LanczosResampler F}
    (h : advanceCursor cb s = some t) (hcb : cb s.pulls = none)
    (hcur : s.myFragmentIndex < s.myFormatFrom.fragmentSize)
    (hsz : s.myFormatFrom.fragmentSize < 4294967296) :
    t.myCurrentFragment = s.myCurrentFragment ∧
      t.myFragmentIndex = (s.myFragmentIndex + 1) % s.myFormatFrom.fragmentSize ∧
      s.pulls ≤ t.pulls ∧ (s.myIsUnderrun = true → t.myIsUnderrun = true) := by
  have hu : u32 (s.myFragmentIndex + 1) = s.myFragmentIndex + 1 := u32_of_lt (by omega)
  unfold advanceCursor at h
  simp only [hcb, hu] at h
  split at h
  · split at h
    · exact absurd h (by simp)
    · injection h with h
      subst h
      exact ⟨rfl, rfl, Nat.le_succ _, fun _ => rfl⟩
  · rename_i hlt
    have hlt1 : ¬ s.myFormatFrom.fragmentSize ≤ s.myFragmentIndex + 1 := hlt
    injection h with h
    subst h
    exact ⟨rfl,
      (Nat.mod_eq_of_lt
        (show s.myFragmentIndex + 1 < s.myFormatFrom.fragmentSize by omega)).symm,
      le_refl _, fun hu => hu⟩

/-- While the producer has no data, `shiftSamples n` keeps the current fragment and
advances the cursor by `n` modulo the fragment size. -/
theorem shiftSamples_replay [Field F] (cb : Producer) (frag : List Int) (n : Nat) :
    ∀ (s : LanczosResampler F), WellFormed s → ProducerOk cb s.myFormatFrom →
      s.myCurrentFragment = some frag → s.myFormatFrom.fragmentSize < 4294967296 →
      (∀ k, s.pulls ≤ k → cb k = none) →
      ∃ t, shiftSamples cb n s = some t ∧ WellFormed t ∧ SameTimebase s t ∧
        t.myCurrentFragment = some frag ∧
        t.myFragmentIndex = (s.myFragmentIndex + n) % s.myFormatFrom.fragmentSize ∧
        s.pulls ≤ t.pulls ∧ (s.myIsUnderrun = true → t.myIsUnderrun = true) := by
  induction n with
  | zero =>
    intro s hw _ hfr _ _
    exact ⟨s, rfl, hw, sameTimebase_refl s, hfr,
      (Nat.mod_eq_of_lt hw.cursor_lt).symm, le_refl _, fun h => h⟩
  | succ n ih =>
    intro s hw hp hfr hsz hcb
    obtain ⟨s1, h1, hw1⟩ := pushSample_safe s hw (by rw [hfr]; rfl)
    obtain ⟨hs1, hfr1, hidx1, hu1, hpl1, -⟩ := pushSample_frame h1
    have hp1 : ProducerOk cb s1.myFormatFrom := by rw [hs1.1]; exact hp
    obtain ⟨s2, h2, hw2⟩ := advanceCursor_safe cb s1 hw1 hp1
    obtain ⟨hs2, -, -, -, -⟩ := advanceCursor_frame h2
    obtain ⟨hfr2, hidx2, hpl2, hu2⟩ := advanceCursor_replay h2
      (hcb _ (by rw [hpl1])) hw1.cursor_lt (by rw [hs1.1]; exact hsz)
    have hp2 : ProducerOk cb s2.myFormatFrom := by rw [hs2.1]; exact hp1
    obtain ⟨t, h3, hw3, hs3, hfr3, hidx3, hpl3, hu3⟩ := ih s2 hw2 hp2
      (by rw [hfr2, hfr1]; exact hfr) (by rw [hs2.1, hs1.1]; exact hsz)
      (fun k hk => hcb k (by omega))
    refine ⟨t, ?_, hw3, sameTimebase_trans (sameTimebase_trans hs1 hs2) hs3, hfr3, ?_,
      by omega, fun h => hu3 (hu2 (by rw [hu1]; exact h))⟩
    · simp only [shiftSamples, h1, h2, h3]
    · rw [hidx3, hidx2, hidx1, hs2.1, hs1.1, Nat.mod_add_mod]
      congr 1
      omega

/-- One iteration of the loop of `fillFragment` while the producer has no data: its
assignments are the convolutions of the buffers as they are, and the raw samples
it requests are taken from the retained fragment. -/
theorem outputSample_replay [Field F] (cb : Producer) (frag : List Int)
    (s : LanczosResampler F) (i : Nat) (hw : WellFormed s)
    (hp : ProducerOk cb s.myFormatFrom) (hfr : s.myCurrentFragment = some frag)
    (hsz : s.myFormatFrom.fragmentSize < 4294967296)
    (hcb : ∀ k, s.pulls ≤ k → cb k = none) :
    ∃ t ws d, outputSample cb s i = some (t, ws) ∧ WellFormed t ∧ Replayed frag s t d 1 ∧
      convolveSample s (u32 (s.myCurrentKernelIndex * s.myKernelSize)) i = some ws := by
  have hN := hw.kernelCount_pos
  have hB := hw.rateTo_pos
  have hk : u32 (s.myCurrentKernelIndex + 1) % s.myPrecomputedKernelCount
      < s.myPrecomputedKernelCount := Nat.mod_lt _ hN
  have hfit := hw.kernels_fit _ hw.kernelIndex_lt
  obtain ⟨ws, hws⟩ := convolveSample_safe s hw
    (u32 (s.myCurrentKernelIndex * s.myKernelSize)) i hfit
  have hws1 : convolveSample
      { s with
        myCurrentKernelIndex := u32 (s.myCurrentKernelIndex + 1) % s.myPrecomputedKernelCount }
      (u32 (s.myCurrentKernelIndex * s.myKernelSize)) i = some ws := hws
  unfold outputSample
  simp only
  rw [if_neg (by omega), hws1]
  simp only
  rw [if_neg (by omega)]
  by_cases h0 : u32 (s.myTimeIndex + s.myFormatFrom.sampleRate) / s.myFormatTo.sampleRate = 0
  · rw [if_pos h0]
    refine ⟨_, ws, 0, rfl, hw.timebase _ _ _ _ hk, ?_, hws⟩
    exact
      { fragment := hfr
        cursor := (Nat.mod_eq_of_lt hw.cursor_lt).symm
        pulls := le_refl _
        underrun := fun h => h
        config := by simp [SameConfig]
        shifts := rfl
        samples := rfl }
  · rw [if_neg h0]
    obtain ⟨t, ht, hwt, hst, hft, hidx, hpl, hu⟩ := shiftSamples_replay cb frag
      (u32 (s.myTimeIndex + s.myFormatFrom.sampleRate) / s.myFormatTo.sampleRate) _
      (hw.timebase (u32 (s.myCurrentKernelIndex + 1) % s.myPrecomputedKernelCount)
        (u32 (s.myTimeIndex + s.myFormatFrom.sampleRate) % s.myFormatTo.sampleRate)
        (s.outputSamples + 1)
        (s.shiftRequests +
          u32 (s.myTimeIndex + s.myFormatFrom.sampleRate) / s.myFormatTo.sampleRate) hk)
      hp hfr hsz hcb
    rw [ht]
    refine ⟨t, ws,
      u32 (s.myTimeIndex + s.myFormatFrom.sampleRate) / s.myFormatTo.sampleRate, rfl, hwt,
      ?_, hws⟩
    have hcfg := hst.sameConfig
    obtain ⟨-, -, -, -, -, -, -, -, e9, e10⟩ := hst
    exact
      { fragment := hft
        cursor := hidx
        pulls := hpl
        underrun := hu
        config := by simpa [SameConfig] using hcfg
        shifts := e10
        samples := e9 }

theorem replayed_trans {frag : List Int} {s t r : LanczosResampler F} {d1 d2 o1 o2 : Nat}
    (h1 : Replayed frag s t d1 o1) (h2 : Replayed frag t r d2 o2) :
    Replayed frag s r (d1 + d2) (o1 + o2) :=
  { fragment := h2.fragment
    cursor := by
      rw [h2.cursor, h1.cursor, h1.config.1, Nat.mod_add_mod, Nat.add_assoc]
    pulls := le_trans h1.pulls h2.pulls
    underrun := fun h => h2.underrun (h1.underrun h)
    config := sameConfig_trans h1.config h2.config
    shifts := by rw [h2.shifts, h1.shifts, Nat.add_assoc]
    samples := by rw [h2.samples, h1.samples, Nat.add_assoc] }

/-- The loop of `fillFragment` while the producer has no data: every output sample
is computed by convolution, the first one from the buffers as they are. -/
theorem fillLoop_replay [Field F] (cb : Producer) (frag : List Int) (count : Nat) :
    ∀ (i : Nat) (s : LanczosResampler F), WellFormed s → ProducerOk cb s.myFormatFrom →
      s.myCurrentFragment = some frag → s.myFormatFrom.fragmentSize < 4294967296 →
      (∀ k, s.pulls ≤ k → cb k = none) →
      ∃ t ws d, fillLoop cb count i s = some (t, ws) ∧ WellFormed t ∧
        Replayed frag s t d count ∧
        (0 < count → ∃ ws0,
          convolveSample s (u32 (s.myCurrentKernelIndex * s.myKernelSize)) i = some ws0 ∧
          ws0 <+: ws) := by
  induction count with
  | zero =>
    intro i s hw _ hfr _ _
    refine ⟨s, [], 0, rfl, hw, ?_, fun h => absurd h (by decide)⟩
    exact
      { fragment := hfr
        cursor := (Nat.mod_eq_of_lt hw.cursor_lt).symm
        pulls := le_refl _
        underrun := fun h => h
        config := sameConfig_refl s
        shifts := rfl
        samples := rfl }
  | succ count ih =>
    intro i s hw hp hfr hsz hcb
    obtain ⟨s1, ws1, d1, h1, hw1, hr1, hconv⟩ := outputSample_replay cb frag s i hw hp hfr hsz hcb
    obtain ⟨t, rest, d2, h2, hw2, hr2, -⟩ := ih (i + 1) s1 hw1
      (by rw [hr1.config.1]; exact hp) hr1.fragment (by rw [hr1.config.1]; exact hsz)
      (fun k hk => hcb k (le_trans hr1.pulls hk))
    refine ⟨t, ws1 ++ rest, d1 + d2, ?_, hw2, ?_, fun _ => ⟨ws1, hconv, List.prefix_append _ _⟩⟩
    · simp only [fillLoop, h1, h2]
    · have := replayed_trans hr1 hr2
      rw [Nat.add_comm 1 count] at this
      exact this

/-- A `fillFragment` call on a state that holds a fragment, while the producer has
no data: the convolution path is taken and the fragment is retained. -/
theorem fillFragment_replay [Field F] (cb : Producer) (frag : List Int)
    (s : LanczosResampler F) (length : Nat) (hw : WellFormed s)
    (hp : ProducerOk cb s.myFormatFrom) (hfr : s.myCurrentFragment = some frag)
    (hsz : s.myFormatFrom.fragmentSize < 4294967296)
    (hcb : ∀ k, s.pulls ≤ k → cb k = none) :
    ∃ t ws d, fillFragment cb s length = some (t, ws) ∧ WellFormed t ∧
      Replayed frag s t d (if s.myFormatTo.stereo then length >>> 1 else length) ∧
      (0 < (if s.myFormatTo.stereo then length >>> 1 else length) → ∃ ws0,
        convolveSample s (u32 (s.myCurrentKernelIndex * s.myKernelSize)) 0 = some ws0 ∧
        ws0 <+: ws) := by
  have hrec : ∃ p, s.pulls ≤ p ∧ recoverFromUnderrun cb s = { s with pulls := p } := by
    unfold recoverFromUnderrun
    split
    · rw [hcb s.pulls (le_refl _)]
      exact ⟨s.pulls + 1, Nat.le_succ _, rfl⟩
    · exact ⟨s.pulls, le_refl _, rfl⟩
  obtain ⟨p, hp1, hrec⟩ := hrec
  have hw1 : WellFormed { s with pulls := p } :=
    { fragmentSize_pos := hw.fragmentSize_pos
      rateTo_pos := hw.rateTo_pos
      kernelCount_pos := hw.kernelCount_pos
      kernelCount_lt := hw.kernelCount_lt
      kernelIndex_lt := hw.kernelIndex_lt
      kernels_fit := hw.kernels_fit
      mono := hw.mono
      stereo := hw.stereo
      fragment_size := hw.fragment_size
      cursor_lt := hw.cursor_lt }
  obtain ⟨t, ws, d, h, hwt, hr, hfirst⟩ := fillLoop_replay cb frag
    (if s.myFormatTo.stereo then length >>> 1 else length) 0 { s with pulls := p } hw1 hp hfr
    hsz (fun k hk => hcb k (le_trans hp1 hk))
  refine ⟨t, ws, d, ?_, hwt, ?_, hfirst⟩
  · have hfr1 : ({ s with pulls := p } : LanczosResampler F).myCurrentFragment = some frag :=
      hfr
    unfold fillFragment
    rw [hrec]
    simp only
    split
    · rename_i hnone
      rw [hfr1] at hnone
      exact absurd hnone (by simp)
    · exact h
  · exact
      { fragment := hr.fragment
        cursor := hr.cursor
        pulls := le_trans hp1 hr.pulls
        underrun := hr.underrun
        config := hr.config
        shifts := hr.shifts
        samples := hr.samples }

/-- What one iteration of `shiftSamples` pushes: the raw sample(s) at the cursor of
the current fragment, divided by `32767`. -/
theorem pushSample_pushes [Field F] (s : LanczosResampler F) (frag : List Int)
    (hw : WellFormed s) (hfr : s.myCurrentFragment = some frag) :
    ∃ t, pushSample s = some t ∧
      (s.myFormatFrom.stereo = false → ∃ b v, s.myBuffer = some b ∧
        frag[s.myFragmentIndex]? = some v ∧ t.myBuffer = some (b.shift ((v : F) / 32767))) ∧
      (s.myFormatFrom.stereo = true → ∃ l r vl vr, s.myBufferL = some l ∧
        s.myBufferR = some r ∧ frag[u32 (2 * s.myFragmentIndex)]? = some vl ∧
        frag[u32 (u32 (2 * s.myFragmentIndex) + 1)]? = some vr ∧
        t.myBufferL = some (l.shift ((vl : F) / 32767)) ∧
        t.myBufferR = some (r.shift ((vr : F) / 32767))) := by
  have hlen := hw.fragment_size frag hfr
  have hcur := hw.cursor_lt
  cases hst : s.myFormatFrom.stereo with
  | true =>
    obtain ⟨l, r, hl, hr, -, -⟩ := hw.stereo hst
    rw [hst] at hlen
    simp only [if_true] at hlen
    have h1 : u32 (2 * s.myFragmentIndex) < frag.length := by
      have := u32_le (2 * s.myFragmentIndex); omega
    have h2 : u32 (u32 (2 * s.myFragmentIndex) + 1) < frag.length := by
      have := u32_le (2 * s.myFragmentIndex)
      have := u32_le (u32 (2 * s.myFragmentIndex) + 1); omega
    refine ⟨{ s with
        myBufferL := some (l.shift ((frag[u32 (2 * s.myFragmentIndex)] : F) / 32767))
        myBufferR := some (r.shift ((frag[u32 (u32 (2 * s.myFragmentIndex) + 1)] : F) / 32767)) },
      ?_, fun h => absurd h (by simp), fun _ => ⟨l, r, _, _, hl, hr,
        List.getElem?_eq_getElem h1, List.getElem?_eq_getElem h2, rfl, rfl⟩⟩
    simp only [pushSample, hfr, hst, if_true, hl, hr, List.getElem?_eq_getElem h1,
      List.getElem?_eq_getElem h2]
  | false =>
    obtain ⟨b, hb, -⟩ := hw.mono hst
    rw [hst] at hlen
    simp only [Bool.false_eq_true, if_false, Nat.mul_one] at hlen
    have h1 : s.myFragmentIndex < frag.length := by omega
    refine ⟨{ s with myBuffer := some (b.shift ((frag[s.myFragmentIndex] : F) / 32767)) },
      ?_, fun _ => ⟨b, _, hb, List.getElem?_eq_getElem h1, rfl⟩, fun h => absurd h (by simp)⟩
    simp only [pushSample, hfr, hst, Bool.false_eq_true, if_false, hb,
      List.getElem?_eq_getElem h1]

end Replay

/-! ### The kernel table -/

section Kernels

variable {F : Type} [Field F] [DecidableEq F]

/-- A row of `precomputeKernels` that is written without an out-of-bounds access lies
inside the array, and the array keeps its length. -/
theorem precomputeKernelRow_fit (sin : F → F) (pi : F) (a : Nat) (center : F) (off : Nat) :
    ∀ (count j : Nat) (mem mem1 : List F),
      precomputeKernelRow sin pi a center off count j mem = some mem1 →
      mem1.length = mem.length ∧ (0 < count → off + j + count ≤ mem.length) := by
  intro count
  induction count with
  | zero =>
    intro j mem mem1 h
    simp only [precomputeKernelRow, Option.some.injEq] at h
    subst h
    exact ⟨rfl, fun h => absurd h (by decide)⟩
  | succ count ih =>
    intro j mem mem1 h
    unfold precomputeKernelRow at h
    split at h
    · rename_i hlt
      obtain ⟨h1, h2⟩ := ih _ _ _ h
      rw [List.length_set] at h1 h2
      refine ⟨h1, fun _ => ?_⟩
      rcases Nat.eq_zero_or_pos count with h0 | h0
      · omega
      · have := h2 h0
        omega
    · exact absurd h (by simp)

/-- When `precomputeKernels` runs without an out-of-bounds access, every kernel
later selected by `fillFragment` lies inside the array. -/
theorem precomputeKernelsLoop_fit (sin : F → F) (pi : F) (rateFrom rateTo a : Nat) :
    ∀ (count i timeIndex : Nat) (mem mem1 : List F),
      precomputeKernelsLoop sin pi rateFrom rateTo (u32 (2 * a)) a count i timeIndex mem
        = some mem1 →
      mem1.length = mem.length ∧
        ∀ k, i ≤ k → k < i + count → u32 (k * u32 (2 * a)) + u32 (2 * a) ≤ mem.length := by
  intro count
  induction count with
  | zero =>
    intro i t mem mem1 h
    simp only [precomputeKernelsLoop, Option.some.injEq] at h
    subst h
    exact ⟨rfl, fun k h1 h2 => absurd h2 (by omega)⟩
  | succ count ih =>
    intro i t mem mem1 h
    unfold precomputeKernelsLoop at h
    split at h
    · exact absurd h (by simp)
    · rename_i mem2 hrow
      split at h
      · exact absurd h (by simp)
      · obtain ⟨hl, hfit⟩ := precomputeKernelRow_fit sin pi a _ _ _ _ _ _ hrow
        obtain ⟨hl2, hfit2⟩ := ih _ _ _ _ h
        refine ⟨hl2.trans hl, fun k h1 h2 => ?_⟩
        rcases Nat.eq_or_lt_of_le h1 with rfl | hlt
        · rcases Nat.eq_zero_or_pos (u32 (2 * a)) with h0 | h0
          · rw [h0]
            simp [u32]
          · have := hfit h0
            rw [Nat.mul_comm]
            omega
        · have := hfit2 k (by omega) (by omega)
          omega

/-- A row of `precomputeKernels` that fits into the array is written completely:
position `off + j` receives the coefficient of tap `j`, all other positions are
left alone. -/
theorem precomputeKernelRow_spec (sin : F → F) (pi : F) (a : Nat) (center : F) (off : Nat) :
    ∀ (count j : Nat) (mem : List F), off + j + count ≤ mem.length →
      ∃ mem1, precomputeKernelRow sin pi a center off count j mem = some mem1 ∧
        mem1.length = mem.length ∧
        (∀ p, p < off + j ∨ off + j + count ≤ p → mem1[p]? = mem[p]?) ∧
        (∀ q, j ≤ q → q < j + count → mem1[off + q]? =
          some (lanczosKernel sin pi (center - (q : F) + (a : F) - 1) a * CLIPPING_FACTOR)) := by
  intro count
  induction count with
  | zero =>
    intro j mem _
    exact ⟨mem, rfl, rfl, fun _ _ => rfl, fun q h1 h2 => absurd h2 (by omega)⟩
  | succ count ih =>
    intro j mem hfit
    obtain ⟨mem1, h1, hl, hout, hin⟩ := ih (j + 1)
      (mem.set (off + j)
        (lanczosKernel sin pi (center - (j : F) + (a : F) - 1) a * CLIPPING_FACTOR))
      (by rw [List.length_set]; omega)
    rw [List.length_set] at hl
    refine ⟨mem1, ?_, hl, fun p hp => ?_, fun q hq1 hq2 => ?_⟩
    · unfold precomputeKernelRow
      rw [if_pos (by omega)]
      exact h1
    · rw [hout p (by omega), List.getElem?_set_ne (by omega)]
    · rcases Nat.eq_or_lt_of_le hq1 with rfl | hlt
      · rw [hout (off + j) (by omega), List.getElem?_set_self (by omega)]
      · exact hin q (by omega) (by omega)

/-- When no 32-bit product wraps, `precomputeKernels` fills the whole table: row `k`
holds the coefficients for time index `(k * Fin) mod Fout`. -/
theorem precomputeKernelsLoop_spec (sin : F → F) (pi : F) (rateFrom rateTo a n : Nat)
    (hto : 0 < rateTo) (hsum : rateFrom + rateTo ≤ 4294967296)
    (hsize : n * (2 * a) < 4294967296) :
    ∀ (count i : Nat) (mem : List F), i + count = n → mem.length = n * (2 * a) →
      ∃ mem1, precomputeKernelsLoop sin pi rateFrom rateTo (2 * a) a count i
          (i * rateFrom % rateTo) mem = some mem1 ∧
        mem1.length = mem.length ∧
        (∀ p, p < 2 * a * i → mem1[p]? = mem[p]?) ∧
        (∀ k q, i ≤ k → k < n → q < 2 * a → mem1[k * (2 * a) + q]? =
          some (lanczosKernel sin pi
            (((k * rateFrom % rateTo : Nat) : F) / (rateTo : F) - (q : F) + (a : F) - 1) a
              * CLIPPING_FACTOR)) := by
  intro count
  induction count with
  | zero =>
    intro i mem hi _
    exact ⟨mem, rfl, rfl, fun _ _ => rfl, fun k q h1 h2 _ => absurd h2 (by omega)⟩
  | succ count ih =>
    intro i mem hi hlen
    have hin : i < n := by omega
    have hrow : 2 * a * i + 2 * a ≤ n * (2 * a) := by
      have : (i + 1) * (2 * a) ≤ n * (2 * a) := Nat.mul_le_mul_right _ (by omega)
      rw [Nat.add_mul, Nat.one_mul, Nat.mul_comm i] at this
      exact this
    have h2a : u32 (2 * a) = 2 * a := by
      apply u32_of_lt
      have : 1 * (2 * a) ≤ n * (2 * a) := Nat.mul_le_mul_right _ (by omega)
      omega
    have hoff : u32 (2 * a * i) = 2 * a * i := u32_of_lt (by omega)
    obtain ⟨hu, hm, -⟩ := timebase_step (i * rateFrom) rateFrom rateTo hto hsum
    obtain ⟨mem1, h1, hl1, hout1, hin1⟩ := precomputeKernelRow_spec sin pi a
      (((i * rateFrom % rateTo : Nat) : F) / (rateTo : F)) (2 * a * i) (2 * a) 0 mem
      (by rw [hlen]; omega)
    have hnext : u32 (i * rateFrom % rateTo + rateFrom) % rateTo
        = (i + 1) * rateFrom % rateTo := by
      rw [hu, hm, Nat.add_mul, Nat.one_mul]
    obtain ⟨mem2, h2, hl2, hout2, hin2⟩ := ih (i + 1) mem1 (by omega) (by rw [hl1, hlen])
    refine ⟨mem2, ?_, hl2.trans hl1, fun p hp => ?_, fun k q hk1 hk2 hq => ?_⟩
    · unfold precomputeKernelsLoop
      rw [hoff, h2a, h1]
      simp only
      rw [if_neg (by omega), hnext]
      exact h2
    · rw [hout2 p (by rw [Nat.mul_add]; omega), hout1 p (by omega)]
    · rcases Nat.eq_or_lt_of_le hk1 with rfl | hlt
      · rw [hout2 (i * (2 * a) + q) (by rw [Nat.mul_add, Nat.mul_comm i]; omega),
          Nat.mul_comm i]
        exact hin1 q (by omega) (by omega)
      · exact hin2 k q (by omega) hk2 hq

end Kernels

/-! ### The constructor -/

section Constructor

variable {F : Type} [Field F] [DecidableEq F]

/-- The state a successful construction returns. -/
theorem create_eq {sin : F → F} {pi : F} {formatFrom formatTo : Format} {a : Nat}
    {s0 : LanczosResampler F}
    (h : LanczosResampler.create sin pi formatFrom formatTo a = some s0) :
    ∃ count kernels,
      reducedDenominator formatFrom.sampleRate formatTo.sampleRate = some count ∧
      precomputeKernels sin pi formatFrom.sampleRate formatTo.sampleRate count (u32 (2 * a)) a
        (List.replicate (u32 (count * u32 (2 * a))) 0) = some kernels ∧
      s0 =
        { myFormatFrom := formatFrom
          myFormatTo := formatTo
          myPrecomputedKernelCount := count
          myKernelSize := u32 (2 * a)
          myCurrentKernelIndex := 0
          myKernelParameter := a
          myPrecomputedKernels := kernels
          myBuffer :=
            if formatFrom.stereo then none else some (ConvolutionBuffer.create (u32 (2 * a)))
          myBufferL :=
            if formatFrom.stereo then some (ConvolutionBuffer.create (u32 (2 * a))) else none
          myBufferR :=
            if formatFrom.stereo then some (ConvolutionBuffer.create (u32 (2 * a))) else none
          myCurrentFragment := none
          myFragmentIndex := 0
          myIsUnderrun := true
          myTimeIndex := 0
          pulls := 0
          diagnostics := 0
          outputSamples := 0
          shiftRequests := 0 } := by
  unfold LanczosResampler.create at h
  split at h
  · exact absurd h (by simp)
  · rename_i count hc
    simp only at h
    split at h
    · exact absurd h (by simp)
    · rename_i kernels hk
      injection h with h
      exact ⟨count, kernels, hc, hk, h.symm⟩

/-- A freshly constructed engine (positive 32-bit rates, positive fragment size) is
well-formed, satisfies the timebase relations with no output sample produced, has
`N = Fout / gcd(Fin, Fout)` kernels, no current fragment, and is in underrun. -/
theorem create_wellFormed {sin : F → F} {pi : F} {formatFrom formatTo : Format} {a : Nat}
    {s0 : LanczosResampler F}
    (h : LanczosResampler.create sin pi formatFrom formatTo a = some s0)
    (hfrom : 0 < formatFrom.sampleRate) (hto : 0 < formatTo.sampleRate)
    (hfrom32 : formatFrom.sampleRate < 4294967296) (hto32 : formatTo.sampleRate < 4294967296)
    (hfs : 0 < formatFrom.fragmentSize) :
    WellFormed s0 ∧ PhaseLocked s0 ∧ s0.myFormatFrom = formatFrom ∧ s0.myFormatTo = formatTo ∧
      s0.myPrecomputedKernelCount
        = formatTo.sampleRate / Nat.gcd formatFrom.sampleRate formatTo.sampleRate ∧
      s0.myCurrentKernelIndex = 0 ∧ s0.outputSamples = 0 := by
  obtain ⟨count, kernels, hc, hk, rfl⟩ := create_eq h
  rw [reducedDenominator_gcd _ _ hfrom hto hfrom32] at hc
  injection hc with hc
  have hg : Nat.gcd formatFrom.sampleRate formatTo.sampleRate ∣ formatTo.sampleRate :=
    Nat.gcd_dvd_right _ _
  have hgpos : 0 < Nat.gcd formatFrom.sampleRate formatTo.sampleRate :=
    Nat.gcd_pos_of_pos_right _ hto
  have hcpos : 0 < count := by
    rw [← hc]
    exact Nat.div_pos (Nat.le_of_dvd hto hg) hgpos
  have hclt : count < 4294967296 := by
    rw [← hc]
    exact lt_of_le_of_lt (Nat.div_le_self _ _) hto32
  obtain ⟨hlen, hfit⟩ := precomputeKernelsLoop_fit sin pi _ _ a _ _ _ _ _ hk
  refine ⟨?_, ⟨?_, ?_, ?_⟩, rfl, rfl, hc.symm, rfl, rfl⟩
  · exact
      { fragmentSize_pos := hfs
        rateTo_pos := hto
        kernelCount_pos := hcpos
        kernelCount_lt := hclt
        kernelIndex_lt := hcpos
        kernels_fit := fun k hk1 => by
          have := hfit k (Nat.zero_le _) (by simpa using hk1)
          rw [hlen]
          exact this
        mono := fun hst => by
          simp only at hst
          exact ⟨_, by simp only [hst]; rfl, by simp [ConvolutionBuffer.create]⟩
        stereo := fun hst => by
          simp only at hst
          exact ⟨_, _, by simp only [hst]; rfl, by simp only [hst]; rfl,
            by simp [ConvolutionBuffer.create], by simp [ConvolutionBuffer.create]⟩
        fragment_size := fun frag hfr => by simp at hfr
        cursor_lt := hfs }
  · simp
  · simp
  · simp

end Constructor

/-! ### The claims -/

section Claims

variable {F : Type}

/-- C1: for positive 32-bit `n` and `d`, `reducedDenominator n d` returns exactly
`d / gcd n d`; in particular `reducedDenominator 48000 44100 = 147`. -/
theorem reducedDenominator_eq (n d : Nat) (hn : 0 < n) (hd : 0 < d)
    (hn32 : n < 4294967296) (_hd32 : d < 4294967296) :
    reducedDenominator n d = some (d / Nat.gcd n d) ∧
      reducedDenominator 48000 44100 = some 147 := by
  refine ⟨reducedDenominator_gcd n d hn hd hn32, ?_⟩
  rw [reducedDenominator_gcd 48000 44100 (by decide) (by decide) (by decide)]
  norm_num

theorem reducedDenominator_eq_witness :
    (0 < 4 ∧ 0 < 6 ∧ 4 < 4294967296 ∧ 6 < 4294967296) ∧
      reducedDenominator 4 6 = some (6 / Nat.gcd 4 6) ∧
      reducedDenominator 48000 44100 = some 147 :=
  ⟨by decide, reducedDenominator_eq 4 6 (by decide) (by decide) (by decide) (by decide)⟩

/-- C2 (phase lock): from a constructed engine (positive rates with
`Fin + Fout ≤ 2^32`, positive fragment size), every sequence of `fillFragment` calls
with any producer honouring the fragment-size contract is defined and ends in a
state with `myTimeIndex = (myCurrentKernelIndex * Fin) mod Fout`. -/
theorem phase_lock [Field F] [DecidableEq F] (sin : F → F) (pi : F) (formatFrom formatTo : Format) (a : Nat)
    (cb : Producer) (lengths : List Nat) (s0 : LanczosResampler F)
    (hfrom : 0 < formatFrom.sampleRate) (hto : 0 < formatTo.sampleRate)
    (hsum : formatFrom.sampleRate + formatTo.sampleRate ≤ 4294967296)
    (hfs : 0 < formatFrom.fragmentSize) (hp : ProducerOk cb formatFrom)
    (hcreate : LanczosResampler.create sin pi formatFrom formatTo a = some s0) :
    ∃ s wss, fillFragments cb s0 lengths = some (s, wss) ∧
      s.myTimeIndex = (s.myCurrentKernelIndex * formatFrom.sampleRate) % formatTo.sampleRate := by
  obtain ⟨hw0, hph0, hf0, ht0, hN0, -, -⟩ :=
    create_wellFormed hcreate hfrom hto (by omega) (by omega) hfs
  obtain ⟨s, wss, hrun, -, hcfg, hph⟩ :=
    fillFragments_safe cb lengths s0 hw0 (by rw [hf0]; exact hp)
  have hph1 := hph hph0 (by rw [hf0, ht0]; exact hsum)
  refine ⟨s, wss, hrun, ?_⟩
  rw [hph1.time, hph1.kernel, hcfg.1, hcfg.2.1, hcfg.2.2.1, hf0, ht0, hN0,
    phase_mod_reduced _ _ _ hto]

theorem exampleEngine_created :
    LanczosResampler.create exampleSin 1 exampleFrom exampleTo 1 = some exampleEngine := by
  have hcount : reducedDenominator 3 2 = some 2 := by decide
  simp [LanczosResampler.create, exampleFrom, exampleTo, hcount, precomputeKernels,
    precomputeKernelsLoop, precomputeKernelRow, u32, lanczosKernel, sinc, exampleSin,
    CLIPPING_FACTOR, exampleEngine, ConvolutionBuffer.create, List.replicate]
  norm_num

theorem exampleProducer_ok : ProducerOk exampleProducer exampleFrom := by
  intro k frag h
  simp only [exampleProducer] at h
  split at h
  · injection h with h
    subst h
    rfl
  · exact absurd h (by simp)

theorem phase_lock_witness :
    ∃ s wss, fillFragments exampleProducer exampleEngine [3, 2] = some (s, wss) ∧
      s.myTimeIndex = (s.myCurrentKernelIndex * exampleFrom.sampleRate) % exampleTo.sampleRate :=
  phase_lock exampleSin 1 exampleFrom exampleTo 1 exampleProducer [3, 2] exampleEngine
    (by decide) (by decide) (by decide) (by decide) exampleProducer_ok exampleEngine_created

/-- C3: when the producer returns no data on every pull, every sequence of
`fillFragment` calls on a freshly constructed engine is defined (no null pointer is
dereferenced), each call assigns zero to exactly the positions `0 .. length - 1`, and
the engine state stays as constructed except for the count of pulls (one per call):
no output sample is computed by convolution and no buffer is touched. -/
theorem silence_without_data [Field F] [DecidableEq F] (sin : F → F) (pi : F) (formatFrom formatTo : Format) (a : Nat)
    (cb : Producer) (lengths : List Nat) (s0 : LanczosResampler F)
    (hcb : ∀ k, cb k = none)
    (hcreate : LanczosResampler.create sin pi formatFrom formatTo a = some s0) :
    fillFragments cb s0 lengths =
      some ({ s0 with pulls := lengths.length },
        lengths.map (fun length => (List.range length).map (fun i => (i, (0 : F))))) := by
  obtain ⟨count, kernels, -, -, rfl⟩ := create_eq hcreate
  rw [fillFragments_silent cb hcb lengths _ rfl rfl]
  simp

theorem silence_without_data_witness :
    fillFragments silentProducer exampleEngine [3, 0, 2] =
      some ({ exampleEngine with pulls := 3 },
        [[(0, 0), (1, 0), (2, 0)], [], [(0, 0), (1, 0)]]) :=
  silence_without_data exampleSin 1 exampleFrom exampleTo 1 silentProducer [3, 0, 2]
    exampleEngine (fun _ => rfl) exampleEngine_created

/-- C9: for positive 32-bit `Fin` and `Fout`, `N = reducedDenominator Fin Fout` is the
smallest positive integer with `(N * Fin) mod Fout = 0`: the phase returns to `0`
after `N` steps and at no earlier positive step, and the `N` phases
`(k * Fin) mod Fout`, `k < N`, are pairwise distinct. -/
theorem reducedDenominator_minimal (rateFrom rateTo : Nat) (hfrom : 0 < rateFrom)
    (hto : 0 < rateTo) (hfrom32 : rateFrom < 4294967296) (_hto32 : rateTo < 4294967296) :
    ∃ n, reducedDenominator rateFrom rateTo = some n ∧ 0 < n ∧
      (n * rateFrom) % rateTo = 0 ∧
      (∀ k, 0 < k → k < n → (k * rateFrom) % rateTo ≠ 0) ∧
      (∀ i j, i < n → j < n → (i * rateFrom) % rateTo = (j * rateFrom) % rateTo → i = j) := by
  have hg : 0 < Nat.gcd rateFrom rateTo := Nat.gcd_pos_of_pos_right _ hto
  have hn : 0 < rateTo / Nat.gcd rateFrom rateTo :=
    Nat.div_pos (Nat.le_of_dvd hto (Nat.gcd_dvd_right _ _)) hg
  have hsmall : ∀ k, 0 < k → k < rateTo / Nat.gcd rateFrom rateTo →
      ¬ rateTo ∣ k * rateFrom := by
    intro k hk0 hk hdvd
    have := Nat.le_of_dvd hk0 ((dvd_mul_iff_reduced rateFrom rateTo k hto).mp hdvd)
    omega
  have hlt : ∀ i j, i < j → j < rateTo / Nat.gcd rateFrom rateTo →
      (i * rateFrom) % rateTo ≠ (j * rateFrom) % rateTo := by
    intro i j hij hj heq
    have hdvd : rateTo ∣ j * rateFrom - i * rateFrom :=
      (Nat.modEq_iff_dvd' (Nat.mul_le_mul_right _ (le_of_lt hij))).mp heq
    rw [← Nat.sub_mul] at hdvd
    exact hsmall (j - i) (by omega) (by omega) hdvd
  refine ⟨rateTo / Nat.gcd rateFrom rateTo, reducedDenominator_gcd _ _ hfrom hto hfrom32, hn,
    ?_, ?_, ?_⟩
  · exact Nat.mod_eq_zero_of_dvd ((dvd_mul_iff_reduced rateFrom rateTo _ hto).mpr (dvd_refl _))
  · intro k hk0 hk h0
    exact hsmall k hk0 hk (Nat.dvd_of_mod_eq_zero h0)
  · intro i j hi hj heq
    rcases Nat.lt_trichotomy i j with h | h | h
    · exact absurd heq (hlt i j h hj)
    · exact h
    · exact absurd heq.symm (hlt j i h hi)

theorem reducedDenominator_minimal_witness :
    ∃ n, reducedDenominator 48000 44100 = some n ∧ 0 < n ∧
      (n * 48000) % 44100 = 0 ∧
      (∀ k, 0 < k → k < n → (k * 48000) % 44100 ≠ 0) ∧
      (∀ i j, i < n → j < n → (i * 48000) % 44100 = (j * 48000) % 44100 → i = j) :=
  reducedDenominator_minimal 48000 44100 (by decide) (by decide) (by decide) (by decide)

/-- C7: on every well-formed state (as every state reachable from the constructor
is), with a producer honouring the fragment-size contract, `fillFragment` with a
32-bit `length` (even when the target is stereo) is defined and assigns exactly
the output positions `0 .. length - 1`, on the silence path and on the convolution
path alike. -/
theorem fillFragment_writes_exactly [Field F] (cb : Producer) (s : LanczosResampler F) (length : Nat)
    (hw : WellFormed s) (hp : ProducerOk cb s.myFormatFrom) (hlen : length < 4294967296)
    (heven : s.myFormatTo.stereo = true → length % 2 = 0) :
    ∃ t ws, fillFragment cb s length = some (t, ws) ∧
      ∀ j, j ∈ ws.map Prod.fst ↔ j < length := by
  have hw1 := recoverFromUnderrun_safe cb s hw hp
  have hs1 := recoverFromUnderrun_frame cb s
  have hp1 : ProducerOk cb (recoverFromUnderrun cb s).myFormatFrom := by rw [hs1.1]; exact hp
  unfold fillFragment
  simp only
  cases hfr : (recoverFromUnderrun cb s).myCurrentFragment with
  | none =>
    refine ⟨_, _, rfl, fun j => ?_⟩
    simp [List.mem_range]
  | some frag =>
    simp only
    have hf1 : (recoverFromUnderrun cb s).myCurrentFragment.isSome = true := by rw [hfr]; rfl
    obtain ⟨t, ws, h, -, -, -⟩ := fillLoop_safe cb
      (if (recoverFromUnderrun cb s).myFormatTo.stereo then length >>> 1 else length) 0 _
      hw1 hp1 hf1
    refine ⟨t, ws, h, fun j => ?_⟩
    rw [fillLoop_indices cb _ 0 _ t ws h hw1 hp1 hf1 j, hs1.2.1]
    cases hst : s.myFormatTo.stereo with
    | false =>
      simp only [Bool.false_eq_true, if_false]
      constructor
      · rintro ⟨k, -, hk, rfl⟩
        omega
      · intro hj
        exact ⟨j, Nat.zero_le _, by omega, rfl⟩
    | true =>
      have he := heven hst
      simp only [if_true, Nat.shiftRight_eq_div_pow, pow_one, u32]
      constructor
      · rintro ⟨k, -, hk, hj⟩
        omega
      · intro hj
        refine ⟨j / 2, Nat.zero_le _, by omega, ?_⟩
        omega

theorem fillFragment_writes_exactly_witness :
    ∃ t ws, fillFragment exampleProducer exampleEngine 3 = some (t, ws) ∧
      ∀ j, j ∈ ws.map Prod.fst ↔ j < 3 :=
  fillFragment_writes_exactly exampleProducer exampleEngine 3
    (create_wellFormed exampleEngine_created (by decide) (by decide) (by decide) (by decide)
      (by decide)).1
    exampleProducer_ok (by decide) (fun h => absurd h (by decide))

/-- C8: with positive rates, `Fin + Fout ≤ 2^32` and a table size `N * 2a` that fits
32 bits, the constructor succeeds with `N = reducedDenominator Fin Fout` kernels of
`2a` coefficients each, and coefficient `j` of kernel `i` is
`sinc(x) * sinc(x / a) * 0.75` with `x = t_i / Fout - j + a - 1` and
`t_i = (i * Fin) mod Fout`. -/
theorem precomputeKernels_table [Field F] [DecidableEq F] (sin : F → F) (pi : F) (formatFrom formatTo : Format)
    (a : Nat) (hfrom : 0 < formatFrom.sampleRate) (hto : 0 < formatTo.sampleRate)
    (hsum : formatFrom.sampleRate + formatTo.sampleRate ≤ 4294967296)
    (hsize : formatTo.sampleRate / Nat.gcd formatFrom.sampleRate formatTo.sampleRate * (2 * a)
      < 4294967296) :
    ∃ s0 n, LanczosResampler.create sin pi formatFrom formatTo a = some s0 ∧
      reducedDenominator formatFrom.sampleRate formatTo.sampleRate = some n ∧
      s0.myPrecomputedKernelCount = n ∧ s0.myKernelSize = 2 * a ∧
      s0.myPrecomputedKernels.length = n * (2 * a) ∧
      ∀ i j, i < n → j < 2 * a →
        s0.myPrecomputedKernels[i * (2 * a) + j]? =
          some (sinc sin pi
              (((i * formatFrom.sampleRate % formatTo.sampleRate : Nat) : F)
                / (formatTo.sampleRate : F) - (j : F) + (a : F) - 1)
            * sinc sin pi
              ((((i * formatFrom.sampleRate % formatTo.sampleRate : Nat) : F)
                / (formatTo.sampleRate : F) - (j : F) + (a : F) - 1) / (a : F))
            * 0.75) := by
  have hcount := reducedDenominator_gcd formatFrom.sampleRate formatTo.sampleRate hfrom hto
    (by omega)
  have hg : 0 < Nat.gcd formatFrom.sampleRate formatTo.sampleRate :=
    Nat.gcd_pos_of_pos_right _ hto
  have hn : 0 < formatTo.sampleRate / Nat.gcd formatFrom.sampleRate formatTo.sampleRate :=
    Nat.div_pos (Nat.le_of_dvd hto (Nat.gcd_dvd_right _ _)) hg
  have h2a : u32 (2 * a) = 2 * a := by
    apply u32_of_lt
    have : 1 * (2 * a) ≤
        formatTo.sampleRate / Nat.gcd formatFrom.sampleRate formatTo.sampleRate * (2 * a) :=
      Nat.mul_le_mul_right _ hn
    omega
  obtain ⟨kernels, hk, hlen, -, hval⟩ := precomputeKernelsLoop_spec sin pi
    formatFrom.sampleRate formatTo.sampleRate a _ hto hsum hsize _ 0
    (List.replicate
      (formatTo.sampleRate / Nat.gcd formatFrom.sampleRate formatTo.sampleRate * (2 * a)) 0)
    (Nat.zero_add _) (List.length_replicate _ _)
  rw [List.length_replicate] at hlen
  rw [Nat.zero_mul, Nat.zero_mod] at hk
  have hpre : precomputeKernels sin pi formatFrom.sampleRate formatTo.sampleRate
      (formatTo.sampleRate / Nat.gcd formatFrom.sampleRate formatTo.sampleRate) (u32 (2 * a)) a
      (List.replicate (u32 (formatTo.sampleRate
        / Nat.gcd formatFrom.sampleRate formatTo.sampleRate * u32 (2 * a))) 0)
      = some kernels := by
    rw [h2a, u32_of_lt hsize]
    exact hk
  have hsome : ∃ s0, LanczosResampler.create sin pi formatFrom formatTo a = some s0 := by
    unfold LanczosResampler.create
    rw [hcount]
    simp only
    rw [hpre]
    exact ⟨_, rfl⟩
  obtain ⟨s0, hs0⟩ := hsome
  obtain ⟨count, kernels1, hc1, hk1, rfl⟩ := create_eq hs0
  rw [hcount] at hc1
  injection hc1 with hc1
  subst hc1
  rw [hpre] at hk1
  injection hk1 with hk1
  subst hk1
  refine ⟨_, _, hs0, hcount, rfl, h2a, hlen, fun i j hi hj => ?_⟩
  simp only
  rw [hval i j (Nat.zero_le _) hi hj]
  rfl

theorem precomputeKernels_table_witness :
    ∃ s0 n, LanczosResampler.create exampleSin 1 exampleFrom exampleTo 1 = some s0 ∧
      reducedDenominator exampleFrom.sampleRate exampleTo.sampleRate = some n ∧
      s0.myPrecomputedKernelCount = n ∧ s0.myKernelSize = 2 * 1 ∧
      s0.myPrecomputedKernels.length = n * (2 * 1) ∧
      ∀ i j, i < n → j < 2 * 1 →
        s0.myPrecomputedKernels[i * (2 * 1) + j]? =
          some (sinc exampleSin 1
              (((i * exampleFrom.sampleRate % exampleTo.sampleRate : Nat) : ℚ)
                / (exampleTo.sampleRate : ℚ) - (j : ℚ) + ((1 : Nat) : ℚ) - 1)
            * sinc exampleSin 1
              ((((i * exampleFrom.sampleRate % exampleTo.sampleRate : Nat) : ℚ)
                / (exampleTo.sampleRate : ℚ) - (j : ℚ) + ((1 : Nat) : ℚ) - 1) / ((1 : Nat) : ℚ))
            * 0.75) :=
  precomputeKernels_table exampleSin 1 exampleFrom exampleTo 1 (by decide) (by decide)
    (by decide) (by decide)

theorem singleKernelEngine_created_one :
    LanczosResampler.create Real.sin Real.pi passthroughFormat passthroughFormat 1
      = some (singleKernelEngine ℝ passthroughFormat) := by
  have hcount : reducedDenominator 1 1 = some 1 := by decide
  simp [LanczosResampler.create, passthroughFormat, hcount, precomputeKernels,
    precomputeKernelsLoop, precomputeKernelRow, u32, lanczosKernel, sinc,
    CLIPPING_FACTOR, singleKernelEngine, ConvolutionBuffer.create, List.replicate]
  norm_num

theorem singleKernelEngine_created_three :
    LanczosResampler.create Real.sin Real.pi exampleFrom passthroughFormat 1
      = some (singleKernelEngine ℝ exampleFrom) := by
  have hcount : reducedDenominator 3 1 = some 1 := by decide
  simp [LanczosResampler.create, passthroughFormat, exampleFrom, hcount, precomputeKernels,
    precomputeKernelsLoop, precomputeKernelRow, u32, lanczosKernel, sinc,
    CLIPPING_FACTOR, singleKernelEngine, ConvolutionBuffer.create, List.replicate]
  norm_num

theorem underrunEngine_reached :
    fillFragment exampleProducer exampleEngine 2 = some (underrunEngine, [(0, 0), (1, 0)]) := by
  simp [fillFragment, recoverFromUnderrun, exampleEngine, underrunEngine, exampleProducer,
    fillLoop, outputSample, convolveSample, ConvolutionBuffer.convoluteWith, dotProduct,
    shiftSamples, pushSample, advanceCursor, u32, ConvolutionBuffer.shift, exampleFrom,
    exampleTo]

theorem underrunEngine_wellFormed : WellFormed underrunEngine := by
  obtain ⟨t, ws, h, hw, -, -⟩ := fillFragment_safe exampleProducer exampleEngine 2
    (create_wellFormed exampleEngine_created (by decide) (by decide) (by decide) (by decide)
      (by decide)).1 exampleProducer_ok
  rw [underrunEngine_reached] at h
  simp only [Option.some.injEq, Prod.mk.injEq] at h
  rw [h.1]
  exact hw

theorem exampleProducer_silent (k : Nat) (hk : underrunEngine.pulls ≤ k) :
    exampleProducer k = none := by
  have h2 : 2 ≤ k := hk
  simp only [exampleProducer]
  rw [if_neg (by omega)]

/-- C5 (amended): entering Underrun keeps the exhausted fragment as the current
fragment. While the producer keeps returning no data: every `shiftSamples n`,
hence also the remaining shifts of the call that entered Underrun, keeps that
fragment and the flag and advances the cursor by `n` modulo `fragmentSize`; every
later `fillFragment` call keeps fragment and flag and advances the cursor by the
raw samples it requests; and each shift pushes the sample(s) at the cursor of the
retained fragment, divided by 32767, into the convolution buffer(s). -/
theorem underrun_replays_fragment [Field F] (cb : Producer) (frag : List Int)
    (s : LanczosResampler F) (hw : WellFormed s) (hp : ProducerOk cb s.myFormatFrom)
    (hfr : s.myCurrentFragment = some frag) (hu : s.myIsUnderrun = true)
    (hsz : s.myFormatFrom.fragmentSize < 4294967296)
    (hcb : ∀ k, s.pulls ≤ k → cb k = none) :
    (∀ n, ∃ t, shiftSamples cb n s = some t ∧ t.myCurrentFragment = some frag ∧
      t.myIsUnderrun = true ∧
      t.myFragmentIndex = (s.myFragmentIndex + n) % s.myFormatFrom.fragmentSize) ∧
    (∀ length, ∃ t ws d, fillFragment cb s length = some (t, ws) ∧ WellFormed t ∧
      t.myCurrentFragment = some frag ∧ t.myIsUnderrun = true ∧ s.pulls ≤ t.pulls ∧
      t.shiftRequests = s.shiftRequests + d ∧
      t.myFragmentIndex = (s.myFragmentIndex + d) % s.myFormatFrom.fragmentSize) ∧
    (∃ t, pushSample s = some t ∧
      (s.myFormatFrom.stereo = false → ∃ b v, s.myBuffer = some b ∧
        frag[s.myFragmentIndex]? = some v ∧ t.myBuffer = some (b.shift ((v : F) / 32767))) ∧
      (s.myFormatFrom.stereo = true → ∃ l r vl vr, s.myBufferL = some l ∧
        s.myBufferR = some r ∧ frag[u32 (2 * s.myFragmentIndex)]? = some vl ∧
        frag[u32 (u32 (2 * s.myFragmentIndex) + 1)]? = some vr ∧
        t.myBufferL = some (l.shift ((vl : F) / 32767)) ∧
        t.myBufferR = some (r.shift ((vr : F) / 32767)))) := by
  refine ⟨fun n => ?_, fun length => ?_, pushSample_pushes s frag hw hfr⟩
  · obtain ⟨t, h, -, -, hfr1, hidx, -, hu1⟩ := shiftSamples_replay cb frag n s hw hp hfr hsz hcb
    exact ⟨t, h, hfr1, hu1 hu, hidx⟩
  · obtain ⟨t, ws, d, h, hwt, hr, -⟩ := fillFragment_replay cb frag s length hw hp hfr hsz hcb
    exact ⟨t, ws, d, h, hwt, hr.fragment, hr.underrun hu, hr.pulls, hr.shifts, hr.cursor⟩

theorem underrun_replays_fragment_witness :
    (∀ n, ∃ t, shiftSamples exampleProducer n underrunEngine = some t ∧
      t.myCurrentFragment = some [32767, 0] ∧ t.myIsUnderrun = true ∧
      t.myFragmentIndex
        = (underrunEngine.myFragmentIndex + n) % underrunEngine.myFormatFrom.fragmentSize) ∧
    (∀ length, ∃ t ws d, fillFragment exampleProducer underrunEngine length = some (t, ws) ∧
      WellFormed t ∧ t.myCurrentFragment = some [32767, 0] ∧ t.myIsUnderrun = true ∧
      underrunEngine.pulls ≤ t.pulls ∧ t.shiftRequests = underrunEngine.shiftRequests + d ∧
      t.myFragmentIndex
        = (underrunEngine.myFragmentIndex + d) % underrunEngine.myFormatFrom.fragmentSize) ∧
    (∃ t, pushSample underrunEngine = some t ∧
      (underrunEngine.myFormatFrom.stereo = false → ∃ b v, underrunEngine.myBuffer = some b ∧
        ([32767, 0] : List Int)[underrunEngine.myFragmentIndex]? = some v ∧
        t.myBuffer = some (b.shift ((v : ℚ) / 32767))) ∧
      (underrunEngine.myFormatFrom.stereo = true → ∃ l r vl vr,
        underrunEngine.myBufferL = some l ∧ underrunEngine.myBufferR = some r ∧
        ([32767, 0] : List Int)[u32 (2 * underrunEngine.myFragmentIndex)]? = some vl ∧
        ([32767, 0] : List Int)[u32 (u32 (2 * underrunEngine.myFragmentIndex) + 1)]? = some vr ∧
        t.myBufferL = some (l.shift ((vl : ℚ) / 32767)) ∧
        t.myBufferR = some (r.shift ((vr : ℚ) / 32767)))) :=
  underrun_replays_fragment exampleProducer [32767, 0] underrunEngine underrunEngine_wellFormed
    exampleProducer_ok rfl rfl (by decide) exampleProducer_silent

/-- C5 (counterexample): real arithmetic, source rate 3, target rate 1, fragments of
two samples, one fragment `[32767, 0]` and then no data. In the first
`fillFragment` call `shiftSamples(3)` runs: its second shift exhausts the fragment,
the pull fails and Underrun is entered (cursor 0, buffer `[1, 0]`); the remaining
third shift still pushes `fragment[0]` and moves the cursor to 1, and the next
`fillFragment` call pushes three more samples of the old fragment. -/
theorem underrun_still_consumes :
    LanczosResampler.create Real.sin Real.pi exampleFrom passthroughFormat 1
      = some (singleKernelEngine ℝ exampleFrom) ∧
    (∀ k, 1 ≤ k → exampleProducer k = none) ∧
    ∃ u s1 s2,
      shiftSamples exampleProducer 2
        { singleKernelEngine ℝ exampleFrom with
          myCurrentFragment := some [32767, 0], myIsUnderrun := false, pulls := 1,
          outputSamples := 1, shiftRequests := 3 } = some u ∧
      u.myIsUnderrun = true ∧ u.pulls = 2 ∧ u.myFragmentIndex = 0 ∧
      u.myBuffer = some ⟨[1, 0]⟩ ∧
      shiftSamples exampleProducer 1 u = some s1 ∧
      s1.myFragmentIndex = 1 ∧ s1.myBuffer = some ⟨[0, 1]⟩ ∧
      fillFragment exampleProducer (singleKernelEngine ℝ exampleFrom) 1 = some (s1, [(0, 0)]) ∧
      fillFragment exampleProducer s1 1 = some (s2, [(0, 0)]) ∧
      s2.myFragmentIndex = 0 ∧ s2.myBuffer = some ⟨[1, 0]⟩ ∧ s2.shiftRequests = 6 := by
  refine ⟨singleKernelEngine_created_three, fun k hk => ?_, ?_⟩
  · simp only [exampleProducer]
    rw [if_neg (by omega)]
  · simp [fillFragment, recoverFromUnderrun, singleKernelEngine, passthroughFormat,
      exampleFrom, exampleProducer, fillLoop, outputSample, convolveSample,
      ConvolutionBuffer.convoluteWith, dotProduct, shiftSamples, pushSample, advanceCursor,
      u32, ConvolutionBuffer.shift]

/-- C6 (counterexample): real arithmetic, equal rates, fragments of two samples, one
fragment `[32767, 0]` and then no data. The first `fillFragment` call (length 2)
consumes the fragment and ends in Underrun with buffer `[1, 0]`; the next call,
with the producer still silent, outputs `0.75`, not zero. -/
theorem underrun_not_silent :
    LanczosResampler.create Real.sin Real.pi passthroughFormat passthroughFormat 1
      = some (singleKernelEngine ℝ passthroughFormat) ∧
    (∀ k, 1 ≤ k → exampleProducer k = none) ∧
    ∃ s1 s2,
      fillFragment exampleProducer (singleKernelEngine ℝ passthroughFormat) 2
        = some (s1, [(0, 0), (1, 0)]) ∧
      s1.myIsUnderrun = true ∧ s1.pulls = 2 ∧ s1.shiftRequests = 2 ∧
      s1.myBuffer = some ⟨[1, 0]⟩ ∧
      fillFragment exampleProducer s1 1 = some (s2, [(0, 3 / 4)]) ∧ (3 / 4 : ℝ) ≠ 0 := by
  refine ⟨singleKernelEngine_created_one, fun k hk => ?_, ?_⟩
  · simp only [exampleProducer]
    rw [if_neg (by omega)]
  · simp [fillFragment, recoverFromUnderrun, singleKernelEngine, passthroughFormat,
      exampleProducer, fillLoop, outputSample, convolveSample,
      ConvolutionBuffer.convoluteWith, dotProduct, shiftSamples, pushSample, advanceCursor,
      u32, ConvolutionBuffer.shift]

/-- The range of `v / 32767` for a 16-bit `v`. -/
theorem pushedRange_of_int16 [LinearOrderedField F] (v : Int) (hlo : -32768 ≤ v)
    (hhi : v ≤ 32767) : PushedRange F v := by
  have hpos : (0 : F) < 32767 := by norm_num
  have hlo1 : (-32768 : F) ≤ (v : F) := by exact_mod_cast hlo
  have hhi1 : (v : F) ≤ 32767 := by exact_mod_cast hhi
  refine ⟨?_, ?_, ?_⟩
  · rw [← neg_div, div_le_div_iff_of_pos_right hpos]
    exact hlo1
  · rw [div_le_one hpos]
    exact hhi1
  · rw [le_div_iff₀ hpos]
    constructor
    · intro h hv
      rw [hv] at h
      norm_num at h
    · intro hv
      have h1 : -32767 ≤ v := by omega
      have h2 : (-32767 : F) ≤ (v : F) := by exact_mod_cast h1
      linarith

/-- C10 (amended): for every signed 16-bit raw sample `v` read from a fragment, the
value `v / 32767` pushed into the convolution buffer lies in
`[-32768 / 32767, 1]`; it lies in `[-1, 1]` exactly when `v` is not `-32768`. -/
theorem pushed_sample_range [LinearOrderedField F] (s : LanczosResampler F)
    (frag : List Int) (hw : WellFormed s) (hfr : s.myCurrentFragment = some frag)
    (hrange : ∀ v ∈ frag, -32768 ≤ v ∧ v ≤ 32767) :
    ∃ t, pushSample s = some t ∧
      (s.myFormatFrom.stereo = false → ∃ b v, s.myBuffer = some b ∧
        frag[s.myFragmentIndex]? = some v ∧
        t.myBuffer = some (b.shift ((v : F) / 32767)) ∧ PushedRange F v) ∧
      (s.myFormatFrom.stereo = true → ∃ l r vl vr, s.myBufferL = some l ∧
        s.myBufferR = some r ∧ frag[u32 (2 * s.myFragmentIndex)]? = some vl ∧
        frag[u32 (u32 (2 * s.myFragmentIndex) + 1)]? = some vr ∧
        t.myBufferL = some (l.shift ((vl : F) / 32767)) ∧
        t.myBufferR = some (r.shift ((vr : F) / 32767)) ∧
        PushedRange F vl ∧ PushedRange F vr) := by
  obtain ⟨t, h, hmono, hstereo⟩ := pushSample_pushes s frag hw hfr
  refine ⟨t, h, fun hst => ?_, fun hst => ?_⟩
  · obtain ⟨b, v, hb, hv, ht⟩ := hmono hst
    have hmem := hrange v (List.getElem?_mem hv)
    exact ⟨b, v, hb, hv, ht, pushedRange_of_int16 v hmem.1 hmem.2⟩
  · obtain ⟨l, r, vl, vr, hl, hr, hvl, hvr, htl, htr⟩ := hstereo hst
    have hml := hrange vl (List.getElem?_mem hvl)
    have hmr := hrange vr (List.getElem?_mem hvr)
    exact ⟨l, r, vl, vr, hl, hr, hvl, hvr, htl, htr,
      pushedRange_of_int16 vl hml.1 hml.2, pushedRange_of_int16 vr hmr.1 hmr.2⟩

theorem pushed_sample_range_witness :
    ∃ t, pushSample underrunEngine = some t ∧
      (underrunEngine.myFormatFrom.stereo = false → ∃ b v, underrunEngine.myBuffer = some b ∧
        ([32767, 0] : List Int)[underrunEngine.myFragmentIndex]? = some v ∧
        t.myBuffer = some (b.shift ((v : ℚ) / 32767)) ∧ PushedRange ℚ v) ∧
      (underrunEngine.myFormatFrom.stereo = true → ∃ l r vl vr,
        underrunEngine.myBufferL = some l ∧ underrunEngine.myBufferR = some r ∧
        ([32767, 0] : List Int)[u32 (2 * underrunEngine.myFragmentIndex)]? = some vl ∧
        ([32767, 0] : List Int)[u32 (u32 (2 * underrunEngine.myFragmentIndex) + 1)]? = some vr ∧
        t.myBufferL = some (l.shift ((vl : ℚ) / 32767)) ∧
        t.myBufferR = some (r.shift ((vr : ℚ) / 32767)) ∧
        PushedRange ℚ vl ∧ PushedRange ℚ vr) :=
  pushed_sample_range underrunEngine [32767, 0] underrunEngine_wellFormed rfl
    (by
      intro v hv
      simp only [List.mem_cons, List.mem_singleton, List.not_mem_nil, or_false] at hv
      rcases hv with rfl | rfl <;> decide)

/-- C10 (counterexample): real arithmetic, equal rates; the producer's fragment
starts with the 16-bit sample `-32768`. After the first `fillFragment` call the
newest value in the convolution buffer is `-32768 / 32767`, which is below `-1`. -/
theorem pushed_sample_below_minus_one :
    LanczosResampler.create Real.sin Real.pi passthroughFormat passthroughFormat 1
      = some (singleKernelEngine ℝ passthroughFormat) ∧
    ∃ s1,
      fillFragment extremeProducer (singleKernelEngine ℝ passthroughFormat) 1
        = some (s1, [(0, 0)]) ∧
      s1.myBuffer = some ⟨[0, (-32768 : ℝ) / 32767]⟩ ∧ (-32768 : ℝ) / 32767 < -1 := by
  refine ⟨singleKernelEngine_created_one, ?_⟩
  simp [fillFragment, recoverFromUnderrun, singleKernelEngine, passthroughFormat,
    extremeProducer, fillLoop, outputSample, convolveSample,
    ConvolutionBuffer.convoluteWith, dotProduct, shiftSamples, pushSample, advanceCursor,
    u32, ConvolutionBuffer.shift]
  norm_num

end Claims

/-! ### One output sample at a time -/

section Iterations

variable {F : Type}

/-- What one iteration of the loop of `fillFragment` does to the timebase: with
`T = myTimeIndex + Fin` (32-bit), the accumulator becomes `T mod Fout`, `T / Fout`
raw samples are requested, the kernel index moves on cyclically and one output
sample is counted. -/
theorem outputSample_timebase [Field F] {cb : Producer} {s t : LanczosResampler F} {i : Nat}
    {ws : List (Write F)} (h : outputSample cb s i = some (t, ws)) :
    SameConfig s t ∧
      t.myCurrentKernelIndex = u32 (s.myCurrentKernelIndex + 1) % s.myPrecomputedKernelCount ∧
      t.outputSamples = s.outputSamples + 1 ∧
      t.myTimeIndex
        = u32 (s.myTimeIndex + s.myFormatFrom.sampleRate) % s.myFormatTo.sampleRate ∧
      t.shiftRequests = s.shiftRequests
        + u32 (s.myTimeIndex + s.myFormatFrom.sampleRate) / s.myFormatTo.sampleRate := by
  unfold outputSample at h
  simp only at h
  split at h
  · exact absurd h (by simp)
  · split at h
    · exact absurd h (by simp)
    · split at h
      · exact absurd h (by simp)
      · rename_i hB
        have hB0 : 0 < s.myFormatTo.sampleRate := Nat.pos_of_ne_zero hB
        split at h
        · rename_i h0
          simp only [Option.some.injEq, Prod.mk.injEq] at h
          obtain ⟨rfl, -⟩ := h
          have hlt := (Nat.div_eq_zero_iff hB0).mp h0
          refine ⟨by simp [SameConfig], rfl, rfl, ?_, ?_⟩
          · exact (Nat.mod_eq_of_lt hlt).symm
          · rw [h0]
            rfl
        · split at h
          · exact absurd h (by simp)
          · rename_i s3 h3
            simp only [Option.some.injEq, Prod.mk.injEq] at h
            obtain ⟨rfl, -⟩ := h
            have hfr := shiftSamples_frame cb _ _ _ h3
            have hcfg := hfr.sameConfig
            obtain ⟨-, -, -, -, -, -, e7, e8, e9, e10⟩ := hfr
            exact ⟨by simpa [SameConfig] using hcfg, e7, e9, e8, e10⟩

/-- The assignments of one iteration are the convolutions of the buffers as the
iteration finds them (before its shift) with the kernel at the current index. -/
theorem outputSample_writes [Field F] {cb : Producer} {s t : LanczosResampler F} {i : Nat}
    {ws : List (Write F)} (h : outputSample cb s i = some (t, ws)) :
    convolveSample s (u32 (s.myCurrentKernelIndex * s.myKernelSize)) i = some ws := by
  unfold outputSample at h
  simp only at h
  split at h
  · exact absurd h (by simp)
  · split at h
    · exact absurd h (by simp)
    · rename_i ws1 hws
      have hws1 : convolveSample s (u32 (s.myCurrentKernelIndex * s.myKernelSize)) i
          = some ws1 := hws
      split at h
      · exact absurd h (by simp)
      · split at h
        · simp only [Option.some.injEq, Prod.mk.injEq] at h
          obtain ⟨-, rfl⟩ := h
          exact hws1
        · split at h
          · exact absurd h (by simp)
          · simp only [Option.some.injEq, Prod.mk.injEq] at h
            obtain ⟨-, rfl⟩ := h
            exact hws1

/-- Iteration `m` of a loop of `count > m` iterations: the state after the first
`m` iterations, the iteration itself, and its place in the list of assignments. -/
theorem fillLoop_iteration [Field F] (cb : Producer) (count : Nat) :
    ∀ (i : Nat) (s t : LanczosResampler F) (ws : List (Write F)),
      fillLoop cb count i s = some (t, ws) → ∀ m, m < count →
      ∃ sm before t1 wm after, fillLoop cb m i s = some (sm, before) ∧
        outputSample cb sm (i + m) = some (t1, wm) ∧ ws = before ++ wm ++ after := by
  induction count with
  | zero =>
    intro i s t ws _ m hm
    exact absurd hm (by omega)
  | succ count ih =>
    intro i s t ws h m hm
    unfold fillLoop at h
    split at h
    · exact absurd h (by simp)
    · rename_i s1 ws1 h1
      split at h
      · exact absurd h (by simp)
      · rename_i s2 rest h2
        simp only [Option.some.injEq, Prod.mk.injEq] at h
        obtain ⟨-, rfl⟩ := h
        cases m with
        | zero =>
          exact ⟨s, [], s1, ws1, rest, rfl, h1, by simp⟩
        | succ m =>
          obtain ⟨sm, before, t1, wm, after, hm1, hm2, hm3⟩ := ih (i + 1) s1 s2 rest h2 m
            (by omega)
          refine ⟨sm, ws1 ++ before, t1, wm, after, ?_, ?_, ?_⟩
          · simp only [fillLoop, h1, hm1]
          · rw [← hm2]
            congr 1
            omega
          · rw [hm3]
            simp

/-- A property of states that every iteration keeps is kept by the loop. -/
theorem fillLoop_invariant [Field F] (cb : Producer) (P : LanczosResampler F → Prop)
    (hstep : ∀ (s t : LanczosResampler F) (i : Nat) (ws : List (Write F)), WellFormed s →
      outputSample cb s i = some (t, ws) → P s → P t)
    (count : Nat) :
    ∀ (i : Nat) (s t : LanczosResampler F) (ws : List (Write F)),
      fillLoop cb count i s = some (t, ws) → WellFormed s → ProducerOk cb s.myFormatFrom →
      s.myCurrentFragment.isSome = true → P s → P t := by
  induction count with
  | zero =>
    intro i s t ws h _ _ _ hP
    simp only [fillLoop, Option.some.injEq, Prod.mk.injEq] at h
    obtain ⟨rfl, -⟩ := h
    exact hP
  | succ count ih =>
    intro i s t ws h hw hp hf hP
    obtain ⟨s1, ws1, h1, hw1, hc1, hf1⟩ := outputSample_safe cb s i hw hp hf
    have hP1 := hstep s s1 i ws1 hw h1 hP
    unfold fillLoop at h
    rw [h1] at h
    simp only at h
    split at h
    · exact absurd h (by simp)
    · rename_i s2 rest h2
      simp only [Option.some.injEq, Prod.mk.injEq] at h
      obtain ⟨rfl, -⟩ := h
      exact ih (i + 1) s1 _ rest h2 hw1 (by rw [hc1.1]; exact hp) hf1 hP1

/-- A property of states that every iteration keeps, and that only depends on the
timebase members, holds after every sequence of `fillFragment` calls. -/
theorem fillFragments_invariant [Field F] (cb : Producer) (P : LanczosResampler F → Prop)
    (hframe : ∀ s t : LanczosResampler F, SameTimebase s t → P s → P t)
    (hstep : ∀ (s t : LanczosResampler F) (i : Nat) (ws : List (Write F)), WellFormed s →
      outputSample cb s i = some (t, ws) → P s → P t)
    (lengths : List Nat) :
    ∀ (s : LanczosResampler F), WellFormed s → ProducerOk cb s.myFormatFrom → P s →
      ∃ t wss, fillFragments cb s lengths = some (t, wss) ∧ WellFormed t ∧ SameConfig s t ∧
        P t := by
  induction lengths with
  | nil =>
    intro s hw _ hP
    exact ⟨s, [], rfl, hw, sameConfig_refl s, hP⟩
  | cons length rest ih =>
    intro s hw hp hP
    obtain ⟨s1, ws, h1, hw1, hc1, -⟩ := fillFragment_safe cb s length hw hp
    have hP1 : P s1 := by
      have hwr := recoverFromUnderrun_safe cb s hw hp
      have hsr := recoverFromUnderrun_frame cb s
      have hPr := hframe _ _ hsr hP
      unfold fillFragment at h1
      simp only at h1
      split at h1
      · simp only [Option.some.injEq, Prod.mk.injEq] at h1
        obtain ⟨rfl, -⟩ := h1
        exact hPr
      · rename_i frag hfr
        exact fillLoop_invariant cb P hstep _ 0 _ s1 ws h1 hwr (by rw [hsr.1]; exact hp)
          (by rw [hfr]; rfl) hPr
    obtain ⟨t, wss, h2, hw2, hc2, hP2⟩ := ih s1 hw1 (by rw [hc1.1]; exact hp) hP1
    refine ⟨t, ws :: wss, ?_, hw2, sameConfig_trans hc1 hc2, hP2⟩
    simp only [fillFragments, h1, h2]

end Iterations

section Recovery

variable {F : Type}

/-- Without a current fragment, while the producer has no data, each `fillFragment`
call only counts its pull and assigns zeros. -/
theorem fillFragments_silent_upto [Field F] (cb : Producer) (lengths : List Nat) :
    ∀ (s : LanczosResampler F), s.myCurrentFragment = none → s.myIsUnderrun = true →
      (∀ j, s.pulls ≤ j → j < s.pulls + lengths.length → cb j = none) →
      fillFragments cb s lengths =
        some ({ s with pulls := s.pulls + lengths.length },
          lengths.map (fun length => (List.range length).map (fun i => (i, (0 : F))))) := by
  induction lengths with
  | nil =>
    intro s _ _ _
    rfl
  | cons length rest ih =>
    intro s hfr hu hcb
    have hnone : cb s.pulls = none := hcb _ (le_refl _) (by simp)
    have hstep : fillFragment cb s length =
        some ({ s with pulls := s.pulls + 1 },
          (List.range length).map (fun i => (i, (0 : F)))) := by
      simp [fillFragment, recoverFromUnderrun, hu, hnone, hfr]
    rw [fillFragments, hstep]
    simp only
    rw [ih { s with pulls := s.pulls + 1 } hfr hu (fun j h1 h2 => hcb j
      (by simp only at h1; omega) (by simp only [List.length_cons] at h2 ⊢; omega))]
    simp only [List.length_cons, List.map_cons, Option.some.injEq, Prod.mk.injEq, and_true]
    congr 1
    omega

/-- In underrun, when the pull at the top of `fillFragment` returns a fragment, the
call is the convolution loop run on the state that has adopted the fragment, with
the cursor at 0 and the underrun flag cleared. -/
theorem fillFragment_recovers [Field F] (cb : Producer) (s : LanczosResampler F)
    (length : Nat) (frag : List Int) (hu : s.myIsUnderrun = true)
    (hcb : cb s.pulls = some frag) :
    fillFragment cb s length =
      fillLoop cb (if s.myFormatTo.stereo then length >>> 1 else length) 0
        { s with
          pulls := s.pulls + 1
          myCurrentFragment := some frag
          myFragmentIndex := 0
          myIsUnderrun := false } := by
  simp [fillFragment, recoverFromUnderrun, hu, hcb]

/-- The loop of `fillFragment` computes `count` output samples by convolution. -/
theorem fillLoop_count [Field F] (cb : Producer) (count : Nat) :
    ∀ (i : Nat) (s t : LanczosResampler F) (ws : List (Write F)),
      fillLoop cb count i s = some (t, ws) → t.outputSamples = s.outputSamples + count := by
  induction count with
  | zero =>
    intro i s t ws h
    simp only [fillLoop, Option.some.injEq, Prod.mk.injEq] at h
    obtain ⟨rfl, -⟩ := h
    rfl
  | succ count ih =>
    intro i s t ws h
    unfold fillLoop at h
    split at h
    · exact absurd h (by simp)
    · rename_i s1 ws1 h1
      split at h
      · exact absurd h (by simp)
      · rename_i s2 rest h2
        simp only [Option.some.injEq, Prod.mk.injEq] at h
        obtain ⟨rfl, -⟩ := h
        rw [ih _ _ _ _ h2, (outputSample_timebase h1).2.2.1]
        omega

/-- A well-formed state in underrun that adopts a fragment of the right size at the
top of `fillFragment` is well-formed. -/
theorem WellFormed.adopt {s : LanczosResampler F} (hw : WellFormed s) (frag : List Int)
    (p : Nat) (u : Bool)
    (hlen : frag.length
      = s.myFormatFrom.fragmentSize * (if s.myFormatFrom.stereo then 2 else 1)) :
    WellFormed { s with
      pulls := p, myCurrentFragment := some frag, myFragmentIndex := 0, myIsUnderrun := u } :=
  { fragmentSize_pos := hw.fragmentSize_pos
    rateTo_pos := hw.rateTo_pos
    kernelCount_pos := hw.kernelCount_pos
    kernelCount_lt := hw.kernelCount_lt
    kernelIndex_lt := hw.kernelIndex_lt
    kernels_fit := hw.kernels_fit
    mono := hw.mono
    stereo := hw.stereo
    fragment_size := fun f hf => by
      simp only [Option.some.injEq] at hf
      subst hf
      exact hlen
    cursor_lt := hw.fragmentSize_pos }

end Recovery

section ClaimsRecovery

variable {F : Type}

/-- C11 (recovery): on a constructed engine, after `k` `fillFragment` calls in which
the producer returned no data (all zeros written, state unchanged but for the
pull count), the first call whose pull at the top returns a fragment is the
convolution loop run on the state that has adopted that fragment with the cursor
at 0 and the underrun flag cleared: it is defined and computes all its output
samples by convolution. The same holds from every state in underrun. -/
theorem recovery [Field F] [DecidableEq F] (sin : F → F) (pi : F)
    (formatFrom formatTo : Format) (a : Nat) (cb : Producer) (lengths : List Nat)
    (length : Nat) (frag : List Int) (s0 : LanczosResampler F)
    (hfrom : 0 < formatFrom.sampleRate) (hto : 0 < formatTo.sampleRate)
    (hfrom32 : formatFrom.sampleRate < 4294967296) (hto32 : formatTo.sampleRate < 4294967296)
    (hfs : 0 < formatFrom.fragmentSize) (hp : ProducerOk cb formatFrom)
    (hcreate : LanczosResampler.create sin pi formatFrom formatTo a = some s0)
    (hsilent : ∀ j, j < lengths.length → cb j = none)
    (hfrag : cb lengths.length = some frag) :
    fillFragments cb s0 lengths =
        some ({ s0 with pulls := lengths.length },
          lengths.map (fun n => (List.range n).map (fun i => (i, (0 : F))))) ∧
      fillFragment cb { s0 with pulls := lengths.length } length =
        fillLoop cb (if formatTo.stereo then length >>> 1 else length) 0
          { s0 with
            pulls := lengths.length + 1
            myCurrentFragment := some frag
            myFragmentIndex := 0
            myIsUnderrun := false } ∧
      (∃ t ws, fillFragment cb { s0 with pulls := lengths.length } length = some (t, ws) ∧
        WellFormed t ∧ t.myCurrentFragment.isSome = true ∧
        t.outputSamples = (if formatTo.stereo then length >>> 1 else length)) ∧
      (∀ (s : LanczosResampler F) (fragment : List Int), s.myIsUnderrun = true →
        cb s.pulls = some fragment →
        fillFragment cb s length =
          fillLoop cb (if s.myFormatTo.stereo then length >>> 1 else length) 0
            { s with
              pulls := s.pulls + 1
              myCurrentFragment := some fragment
              myFragmentIndex := 0
              myIsUnderrun := false }) := by
  obtain ⟨hw0, -, hf0, -, -, -, -⟩ :=
    create_wellFormed hcreate hfrom hto hfrom32 hto32 hfs
  obtain ⟨count, kernels, -, -, hs0⟩ := create_eq hcreate
  have hfr0 : s0.myCurrentFragment = none := by rw [hs0]
  have hu0 : s0.myIsUnderrun = true := by rw [hs0]
  have hrun := fillFragments_silent_upto cb lengths s0 hfr0 hu0
    (fun j _ h2 => hsilent j (by rw [hs0] at h2; simpa using h2))
  have hrec := fillFragment_recovers cb { s0 with pulls := lengths.length } length frag hu0
    hfrag
  have hwa : WellFormed
      { s0 with
        pulls := lengths.length + 1
        myCurrentFragment := some frag
        myFragmentIndex := 0
        myIsUnderrun := false } :=
    hw0.adopt frag _ false (by rw [hf0]; exact hp _ _ hfrag)
  obtain ⟨t, ws, hloop, hwt, -, hft⟩ := fillLoop_safe cb
    (if s0.myFormatTo.stereo then length >>> 1 else length) 0 _ hwa
    (by rw [hf0]; exact hp) rfl
  have hcount := fillLoop_count cb _ _ _ _ _ hloop
  subst hs0
  refine ⟨?_, hrec, ⟨t, ws, hrec.trans hloop, hwt, hft, ?_⟩,
    fun s fragment hu hcb => fillFragment_recovers cb s length fragment hu hcb⟩
  · rw [hrun]
    simp
  · rw [hcount]
    simp

theorem lateProducer_ok : ProducerOk lateProducer exampleFrom := by
  intro k frag h
  simp only [lateProducer] at h
  split at h
  · injection h with h
    subst h
    rfl
  · exact absurd h (by simp)

theorem recovery_witness :
    fillFragments lateProducer exampleEngine [3, 1] =
        some ({ exampleEngine with pulls := [3, 1].length },
          [3, 1].map (fun n => (List.range n).map (fun i => (i, (0 : ℚ))))) ∧
      fillFragment lateProducer { exampleEngine with pulls := [3, 1].length } 2 =
        fillLoop lateProducer (if exampleTo.stereo then 2 >>> 1 else 2) 0
          { exampleEngine with
            pulls := [3, 1].length + 1
            myCurrentFragment := some [32767, 0]
            myFragmentIndex := 0
            myIsUnderrun := false } ∧
      (∃ t ws, fillFragment lateProducer { exampleEngine with pulls := [3, 1].length } 2
          = some (t, ws) ∧
        WellFormed t ∧ t.myCurrentFragment.isSome = true ∧
        t.outputSamples = (if exampleTo.stereo then 2 >>> 1 else 2)) ∧
      (∀ (s : LanczosResampler ℚ) (fragment : List Int), s.myIsUnderrun = true →
        lateProducer s.pulls = some fragment →
        fillFragment lateProducer s 2 =
          fillLoop lateProducer (if s.myFormatTo.stereo then 2 >>> 1 else 2) 0
            { s with
              pulls := s.pulls + 1
              myCurrentFragment := some fragment
              myFragmentIndex := 0
              myIsUnderrun := false }) :=
  recovery exampleSin 1 exampleFrom exampleTo 1 lateProducer [3, 1] 2 [32767, 0] exampleEngine
    (by decide) (by decide) (by decide) (by decide) (by decide) lateProducer_ok
    exampleEngine_created
    (fun j hj => by
      have hj2 : j < 2 := hj
      simp only [lateProducer]
      rw [if_neg (by omega)])
    rfl

end ClaimsRecovery

section ClaimsEqualRates

variable {F : Type}

/-- With equal rates and one kernel, an iteration that starts with the accumulator
at 0 requests exactly one raw sample and leaves accumulator and kernel index at 0. -/
theorem outputSample_equal_rates [Field F] {cb : Producer} {s t : LanczosResampler F}
    {i : Nat} {ws : List (Write F)} (h : outputSample cb s i = some (t, ws))
    (hrate : s.myFormatFrom.sampleRate = s.myFormatTo.sampleRate)
    (hpos : 0 < s.myFormatTo.sampleRate) (h32 : s.myFormatTo.sampleRate < 4294967296)
    (hone : s.myPrecomputedKernelCount = 1) (htime : s.myTimeIndex = 0) :
    t.shiftRequests = s.shiftRequests + 1 ∧ t.myTimeIndex = 0 ∧
      t.myCurrentKernelIndex = 0 ∧ t.outputSamples = s.outputSamples + 1 := by
  obtain ⟨-, hk, ho, ht, hs⟩ := outputSample_timebase h
  rw [htime, Nat.zero_add, hrate, u32_of_lt h32] at ht hs
  rw [Nat.mod_self] at ht
  rw [Nat.div_self hpos] at hs
  rw [hone, Nat.mod_one] at hk
  exact ⟨hs, ht, hk, ho⟩

theorem singleKernelEngine_created_example :
    LanczosResampler.create exampleSin 1 passthroughFormat passthroughFormat 1
      = some (singleKernelEngine ℚ passthroughFormat) := by
  have hcount : reducedDenominator 1 1 = some 1 := by decide
  simp [LanczosResampler.create, passthroughFormat, hcount, precomputeKernels,
    precomputeKernelsLoop, precomputeKernelRow, u32, lanczosKernel, sinc, exampleSin,
    CLIPPING_FACTOR, singleKernelEngine, ConvolutionBuffer.create, List.replicate]
  norm_num

theorem exampleProducer_ok_passthrough : ProducerOk exampleProducer passthroughFormat := by
  intro k frag h
  simp only [exampleProducer] at h
  split at h
  · injection h with h
    subst h
    rfl
  · exact absurd h (by simp)

end ClaimsEqualRates

/-! ### Channel conversion -/

section Channels

variable {F : Type}

theorem convolveSample_length [Field F] {s : LanczosResampler F} {off i : Nat}
    {ws : List (Write F)} (h : convolveSample s off i = some ws) :
    ws.length = if s.myFormatTo.stereo then 2 else 1 := by
  unfold convolveSample at h
  split at h
  · split at h
    · split at h
      · split at h <;> (injection h with h; subst h; simp [*])
      · exact absurd h (by simp)
    · exact absurd h (by simp)
  · split at h
    · split at h
      · split at h <;> (injection h with h; subst h; simp [*])
      · exact absurd h (by simp)
    · exact absurd h (by simp)

/-- The loop of `fillFragment` makes one assignment per output sample for a mono
target and two for a stereo target. -/
theorem fillLoop_length [Field F] (cb : Producer) (count : Nat) :
    ∀ (i : Nat) (s t : LanczosResampler F) (ws : List (Write F)),
      fillLoop cb count i s = some (t, ws) →
      ws.length = count * (if s.myFormatTo.stereo then 2 else 1) := by
  induction count with
  | zero =>
    intro i s t ws h
    simp only [fillLoop, Option.some.injEq, Prod.mk.injEq] at h
    obtain ⟨-, rfl⟩ := h
    simp
  | succ count ih =>
    intro i s t ws h
    unfold fillLoop at h
    split at h
    · exact absurd h (by simp)
    · rename_i s1 ws1 h1
      split at h
      · exact absurd h (by simp)
      · rename_i s2 rest h2
        simp only [Option.some.injEq, Prod.mk.injEq] at h
        obtain ⟨-, rfl⟩ := h
        have hl1 := convolveSample_length (outputSample_writes h1)
        have hl2 := ih _ _ _ _ h2
        rw [(outputSample_timebase h1).1.2.1] at hl2
        rw [List.length_append, hl1, hl2]
        ring

/-- The assignment of one iteration for a stereo source and a mono target: the mean
of the two convolutions with the selected kernel. -/
theorem convolveSample_stereo_mono [Field F] (s : LanczosResampler F) (hw : WellFormed s)
    (i : Nat) (hfrom : s.myFormatFrom.stereo = true) (hto : s.myFormatTo.stereo = false) :
    ∃ l r, s.myBufferL = some l ∧ s.myBufferR = some r ∧
      convolveSample s (u32 (s.myCurrentKernelIndex * s.myKernelSize)) i =
        some [(i, (dotProduct l.data (selectedKernel s)
          + dotProduct r.data (selectedKernel s)) / 2)] := by
  obtain ⟨l, r, hl, hr, hll, hrl⟩ := hw.stereo hfrom
  have hfit := hw.kernels_fit _ hw.kernelIndex_lt
  refine ⟨l, r, hl, hr, ?_⟩
  unfold convolveSample
  simp only [hfrom, if_true, hl, hr]
  rw [convoluteWith_safe l _ _ (by omega), convoluteWith_safe r _ _ (by omega)]
  simp only [hto, Bool.false_eq_true, if_false, hll, hrl, selectedKernel]

/-- The assignments of one iteration for a mono source and a stereo target: the
convolution with the selected kernel, to both positions of the pair. -/
theorem convolveSample_mono_stereo [Field F] (s : LanczosResampler F) (hw : WellFormed s)
    (i : Nat) (hfrom : s.myFormatFrom.stereo = false) (hto : s.myFormatTo.stereo = true) :
    ∃ b, s.myBuffer = some b ∧
      convolveSample s (u32 (s.myCurrentKernelIndex * s.myKernelSize)) i =
        some [(u32 (u32 (2 * i) + 1), dotProduct b.data (selectedKernel s)),
          (u32 (2 * i), dotProduct b.data (selectedKernel s))] := by
  obtain ⟨b, hb, hbl⟩ := hw.mono hfrom
  have hfit := hw.kernels_fit _ hw.kernelIndex_lt
  refine ⟨b, hb, ?_⟩
  unfold convolveSample
  simp only [hfrom, Bool.false_eq_true, if_false, hb]
  rw [convoluteWith_safe b _ _ (by omega)]
  simp only [hto, if_true, hbl, selectedKernel]

/-- Iteration `m` of the loop of `fillFragment` from a well-formed state: the state
it starts from is well-formed with the same configuration, and its assignments are
the convolutions of that state, placed after those of the earlier iterations. -/
theorem fillLoop_sample [Field F] (cb : Producer) (count : Nat) (s t : LanczosResampler F)
    (ws : List (Write F)) (h : fillLoop cb count 0 s = some (t, ws)) (hw : WellFormed s)
    (hp : ProducerOk cb s.myFormatFrom) (hf : s.myCurrentFragment.isSome = true)
    (m : Nat) (hm : m < count) :
    ∃ sm before wm after, fillLoop cb m 0 s = some (sm, before) ∧ WellFormed sm ∧
      SameConfig s sm ∧
      convolveSample sm (u32 (sm.myCurrentKernelIndex * sm.myKernelSize)) m = some wm ∧
      before.length = m * (if s.myFormatTo.stereo then 2 else 1) ∧
      ws = before ++ wm ++ after := by
  obtain ⟨sm, before, t1, wm, after, h1, h2, h3⟩ := fillLoop_iteration cb count 0 s t ws h m hm
  obtain ⟨sm1, before1, h4, hwm, hcm, -⟩ := fillLoop_safe cb m 0 s hw hp hf
  rw [h1] at h4
  simp only [Option.some.injEq, Prod.mk.injEq] at h4
  obtain ⟨rfl, rfl⟩ := h4
  rw [Nat.zero_add] at h2
  exact ⟨sm, before, wm, after, h1, hwm, hcm, outputSample_writes h2,
    fillLoop_length cb m 0 s sm before h1, h3⟩

end Channels

section ClaimsChannels

variable {F : Type}

/-- When a fragment is at hand after the pull at the top, `fillFragment` is the
convolution loop. -/
theorem fillFragment_convolution_path [Field F] (cb : Producer) (s : LanczosResampler F)
    (length : Nat) (hpath : (recoverFromUnderrun cb s).myCurrentFragment.isSome = true) :
    fillFragment cb s length =
      fillLoop cb (if s.myFormatTo.stereo then length >>> 1 else length) 0
        (recoverFromUnderrun cb s) := by
  obtain ⟨frag, hfrag⟩ := Option.isSome_iff_exists.mp hpath
  unfold fillFragment
  simp only
  rw [(recoverFromUnderrun_frame cb s).2.1]
  split
  · rename_i hnone
    rw [hfrag] at hnone
    exact absurd hnone (by simp)
  · rfl

/-- C13: stereo source, mono target. On the convolution path `fillFragment` makes
`length` assignments, and the one of output index `i` writes, at position `i`, the
mean `(L + R) / 2` of the convolutions of the left and the right buffer with the
selected kernel, both taken in the state in which iteration `i` starts (before
its shift). -/
theorem stereo_to_mono_mean [Field F] (cb : Producer) (s : LanczosResampler F) (length : Nat)
    (hw : WellFormed s) (hp : ProducerOk cb s.myFormatFrom)
    (hpath : (recoverFromUnderrun cb s).myCurrentFragment.isSome = true)
    (hfrom : s.myFormatFrom.stereo = true) (hto : s.myFormatTo.stereo = false) :
    ∃ t ws, fillFragment cb s length = some (t, ws) ∧ ws.length = length ∧
      ∀ i, i < length → ∃ si before after l r,
        fillLoop cb i 0 (recoverFromUnderrun cb s) = some (si, before) ∧
        si.myBufferL = some l ∧ si.myBufferR = some r ∧ before.length = i ∧
        ws = before ++ [(i, (dotProduct l.data (selectedKernel si)
          + dotProduct r.data (selectedKernel si)) / 2)] ++ after := by
  have hw1 := recoverFromUnderrun_safe cb s hw hp
  have hs1 := recoverFromUnderrun_frame cb s
  have hp1 : ProducerOk cb (recoverFromUnderrun cb s).myFormatFrom := by rw [hs1.1]; exact hp
  have hrun := fillFragment_convolution_path cb s length hpath
  simp only [hto, Bool.false_eq_true, if_false] at hrun
  obtain ⟨t, ws, hloop, -, -, -⟩ := fillLoop_safe cb length 0 _ hw1 hp1 hpath
  have hlen := fillLoop_length cb _ _ _ _ _ hloop
  rw [hs1.2.1] at hlen
  simp only [hto, Bool.false_eq_true, if_false, Nat.mul_one] at hlen
  refine ⟨t, ws, hrun.trans hloop, hlen, fun i hi => ?_⟩
  obtain ⟨si, before, wi, after, h1, hwi, hci, hconv, hbl, hws⟩ :=
    fillLoop_sample cb length _ t ws hloop hw1 hp1 hpath i hi
  rw [hs1.2.1] at hbl
  simp only [hto, Bool.false_eq_true, if_false, Nat.mul_one] at hbl
  obtain ⟨l, r, hl, hr, hexp⟩ := convolveSample_stereo_mono si hwi i
    (by rw [hci.1, hs1.1]; exact hfrom) (by rw [hci.2.1, hs1.2.1]; exact hto)
  rw [hexp] at hconv
  injection hconv with hconv
  subst hconv
  exact ⟨si, before, after, l, r, h1, hl, hr, hbl, hws⟩

/-- C14: mono source, stereo target. On the convolution path `fillFragment` with an
even 32-bit `length` makes `length` assignments, and those of pair index
`i < length / 2` write one and the same value to the positions `2i + 1` and `2i`:
the convolution of the mono buffer with the selected kernel, taken in the state
in which iteration `i` starts. -/
theorem mono_to_stereo_same [Field F] (cb : Producer) (s : LanczosResampler F) (length : Nat)
    (hw : WellFormed s) (hp : ProducerOk cb s.myFormatFrom)
    (hpath : (recoverFromUnderrun cb s).myCurrentFragment.isSome = true)
    (hfrom : s.myFormatFrom.stereo = false) (hto : s.myFormatTo.stereo = true)
    (hlen32 : length < 4294967296) (heven : length % 2 = 0) :
    ∃ t ws, fillFragment cb s length = some (t, ws) ∧ ws.length = length ∧
      ∀ i, i < length / 2 → ∃ si before after b,
        fillLoop cb i 0 (recoverFromUnderrun cb s) = some (si, before) ∧
        si.myBuffer = some b ∧ before.length = 2 * i ∧
        ws = before ++ [(2 * i + 1, dotProduct b.data (selectedKernel si)),
          (2 * i, dotProduct b.data (selectedKernel si))] ++ after := by
  have hw1 := recoverFromUnderrun_safe cb s hw hp
  have hs1 := recoverFromUnderrun_frame cb s
  have hp1 : ProducerOk cb (recoverFromUnderrun cb s).myFormatFrom := by rw [hs1.1]; exact hp
  have hrun := fillFragment_convolution_path cb s length hpath
  simp only [hto, if_true, Nat.shiftRight_eq_div_pow, pow_one] at hrun
  obtain ⟨t, ws, hloop, -, -, -⟩ := fillLoop_safe cb (length / 2) 0 _ hw1 hp1 hpath
  have hlen := fillLoop_length cb _ _ _ _ _ hloop
  rw [hs1.2.1] at hlen
  simp only [hto, if_true] at hlen
  refine ⟨t, ws, hrun.trans hloop, by omega, fun i hi => ?_⟩
  obtain ⟨si, before, wi, after, h1, hwi, hci, hconv, hbl, hws⟩ :=
    fillLoop_sample cb (length / 2) _ t ws hloop hw1 hp1 hpath i hi
  rw [hs1.2.1] at hbl
  simp only [hto, if_true] at hbl
  obtain ⟨b, hb, hexp⟩ := convolveSample_mono_stereo si hwi i
    (by rw [hci.1, hs1.1]; exact hfrom) (by rw [hci.2.1, hs1.2.1]; exact hto)
  rw [hexp] at hconv
  injection hconv with hconv
  subst hconv
  have h2i : u32 (2 * i) = 2 * i := u32_of_lt (by omega)
  have h2i1 : u32 (2 * i + 1) = 2 * i + 1 := u32_of_lt (by omega)
  rw [h2i, h2i1] at hws
  exact ⟨si, before, after, b, h1, hb, by omega, hws⟩

theorem downmixEngine_created :
    LanczosResampler.create exampleSin 1 stereoFormat passthroughFormat 1
      = some downmixEngine := by
  have hcount : reducedDenominator 1 1 = some 1 := by decide
  simp [LanczosResampler.create, passthroughFormat, stereoFormat, hcount, precomputeKernels,
    precomputeKernelsLoop, precomputeKernelRow, u32, lanczosKernel, sinc, exampleSin,
    CLIPPING_FACTOR, singleKernelEngine, downmixEngine, ConvolutionBuffer.create,
    List.replicate]
  norm_num

theorem upmixEngine_created :
    LanczosResampler.create exampleSin 1 passthroughFormat stereoFormat 1
      = some upmixEngine := by
  have hcount : reducedDenominator 1 1 = some 1 := by decide
  simp [LanczosResampler.create, passthroughFormat, stereoFormat, hcount, precomputeKernels,
    precomputeKernelsLoop, precomputeKernelRow, u32, lanczosKernel, sinc, exampleSin,
    CLIPPING_FACTOR, singleKernelEngine, upmixEngine, ConvolutionBuffer.create,
    List.replicate]
  norm_num

theorem exampleProducer_ok_stereo : ProducerOk exampleProducer stereoFormat := by
  intro k frag h
  simp only [exampleProducer] at h
  split at h
  · injection h with h
    subst h
    rfl
  · exact absurd h (by simp)

theorem stereo_to_mono_mean_witness :
    ∃ t ws, fillFragment exampleProducer downmixEngine 3 = some (t, ws) ∧ ws.length = 3 ∧
      ∀ i, i < 3 → ∃ si before after l r,
        fillLoop exampleProducer i 0 (recoverFromUnderrun exampleProducer downmixEngine)
          = some (si, before) ∧
        si.myBufferL = some l ∧ si.myBufferR = some r ∧ before.length = i ∧
        ws = before ++ [(i, (dotProduct l.data (selectedKernel si)
          + dotProduct r.data (selectedKernel si)) / 2)] ++ after :=
  stereo_to_mono_mean exampleProducer downmixEngine 3
    (create_wellFormed downmixEngine_created (by decide) (by decide) (by decide) (by decide)
      (by decide)).1
    exampleProducer_ok_stereo rfl rfl rfl

theorem mono_to_stereo_same_witness :
    ∃ t ws, fillFragment exampleProducer upmixEngine 4 = some (t, ws) ∧ ws.length = 4 ∧
      ∀ i, i < 4 / 2 → ∃ si before after b,
        fillLoop exampleProducer i 0 (recoverFromUnderrun exampleProducer upmixEngine)
          = some (si, before) ∧
        si.myBuffer = some b ∧ before.length = 2 * i ∧
        ws = before ++ [(2 * i + 1, dotProduct b.data (selectedKernel si)),
          (2 * i, dotProduct b.data (selectedKernel si))] ++ after :=
  mono_to_stereo_same exampleProducer upmixEngine 4
    (create_wellFormed upmixEngine_created (by decide) (by decide) (by decide) (by decide)
      (by decide)).1
    exampleProducer_ok_passthrough rfl rfl rfl (by decide) (by decide)

end ClaimsChannels

section ClaimsRanges

variable {F : Type}

/-- C16: for positive 32-bit rates, every state reached from the constructor by
`fillFragment` calls (observed between calls) has
`myCurrentKernelIndex < N` and `myTimeIndex < Fout`, where
`N = reducedDenominator Fin Fout ≥ 1` is the kernel count. -/
theorem state_ranges [Field F] [DecidableEq F] (sin : F → F) (pi : F)
    (formatFrom formatTo : Format) (a : Nat) (cb : Producer) (lengths : List Nat)
    (s0 : LanczosResampler F)
    (hfrom : 0 < formatFrom.sampleRate) (hto : 0 < formatTo.sampleRate)
    (hfrom32 : formatFrom.sampleRate < 4294967296) (hto32 : formatTo.sampleRate < 4294967296)
    (hfs : 0 < formatFrom.fragmentSize) (hp : ProducerOk cb formatFrom)
    (hcreate : LanczosResampler.create sin pi formatFrom formatTo a = some s0) :
    ∃ n, reducedDenominator formatFrom.sampleRate formatTo.sampleRate = some n ∧ 1 ≤ n ∧
      ∃ t wss, fillFragments cb s0 lengths = some (t, wss) ∧
        t.myPrecomputedKernelCount = n ∧ t.myCurrentKernelIndex < n ∧
        t.myTimeIndex < formatTo.sampleRate := by
  obtain ⟨hw0, hph0, hf0, ht0, hN0, -, ho0⟩ :=
    create_wellFormed hcreate hfrom hto hfrom32 hto32 hfs
  obtain ⟨t, wss, hrun, hwt, hcfg, hP⟩ := fillFragments_invariant cb
    (fun s => s.myTimeIndex < s.myFormatTo.sampleRate)
    (fun s t hst hP => by
      obtain ⟨-, e2, -, -, -, -, -, e8, -, -⟩ := hst
      rw [e2, e8]
      exact hP)
    (fun s t i ws hw h _ => by
      obtain ⟨hcfg, -, -, htime, -⟩ := outputSample_timebase h
      rw [htime, hcfg.2.1]
      exact Nat.mod_lt _ hw.rateTo_pos)
    lengths s0 hw0 (by rw [hf0]; exact hp)
    (by
      show s0.myTimeIndex < s0.myFormatTo.sampleRate
      rw [hph0.time]
      exact Nat.mod_lt _ hw0.rateTo_pos)
  refine ⟨s0.myPrecomputedKernelCount, ?_, hw0.kernelCount_pos, t, wss, hrun, hcfg.2.2.1, ?_, ?_⟩
  · rw [hN0]
    exact reducedDenominator_gcd _ _ hfrom hto hfrom32
  · rw [← hcfg.2.2.1]
    exact hwt.kernelIndex_lt
  · rw [hcfg.2.1, ht0] at hP
    exact hP

theorem state_ranges_witness :
    ∃ n, reducedDenominator exampleFrom.sampleRate exampleTo.sampleRate = some n ∧ 1 ≤ n ∧
      ∃ t wss, fillFragments exampleProducer exampleEngine [3, 2] = some (t, wss) ∧
        t.myPrecomputedKernelCount = n ∧ t.myCurrentKernelIndex < n ∧
        t.myTimeIndex < exampleTo.sampleRate :=
  state_ranges exampleSin 1 exampleFrom exampleTo 1 exampleProducer [3, 2] exampleEngine
    (by decide) (by decide) (by decide) (by decide) (by decide) exampleProducer_ok
    exampleEngine_created

end ClaimsRanges

section ClaimsDiagnostics

variable {F : Type}

/-- The end of one iteration of `shiftSamples` emits a diagnostic exactly when the
cursor reaches the end of the fragment and the pull fails; the underrun flag is set
only then. -/
theorem advanceCursor_diagnostics (cb : Producer) (s : LanczosResampler F)
    (hw : WellFormed s) :
    ∃ t, advanceCursor cb s = some t ∧
      (t.diagnostics = s.diagnostics + 1 ↔
        (s.myFormatFrom.fragmentSize ≤ u32 (s.myFragmentIndex + 1) ∧ cb s.pulls = none)) ∧
      (t.diagnostics = s.diagnostics ∨ t.diagnostics = s.diagnostics + 1) ∧
      (s.myIsUnderrun = false → t.myIsUnderrun = true →
        t.diagnostics = s.diagnostics + 1) := by
  have hpos := hw.fragmentSize_pos
  unfold advanceCursor
  simp only
  by_cases hge : s.myFormatFrom.fragmentSize ≤ u32 (s.myFragmentIndex + 1)
  · rw [if_pos hge, if_neg (by omega)]
    cases hcb : cb s.pulls with
    | none =>
      exact ⟨_, rfl, by simp [hge], Or.inr rfl, fun _ _ => rfl⟩
    | some next =>
      refine ⟨_, rfl, by simp, Or.inl rfl, fun _ h => ?_⟩
      simp at h
  · rw [if_neg hge]
    refine ⟨_, rfl, by simp [hge], Or.inl rfl, fun h1 h2 => ?_⟩
    simp only at h2
    rw [h1] at h2
    exact absurd h2 (by simp)

theorem recoverFromUnderrun_diagnostics (cb : Producer) (s : LanczosResampler F) :
    (recoverFromUnderrun cb s).diagnostics = s.diagnostics ∧
      ((recoverFromUnderrun cb s).myIsUnderrun = true → s.myIsUnderrun = true) := by
  unfold recoverFromUnderrun
  split
  · rename_i hu
    split
    · exact ⟨rfl, fun _ => hu⟩
    · exact ⟨rfl, fun _ => hu⟩
  · exact ⟨rfl, fun h => h⟩

/-- C17 (amended): a diagnostic is emitted exactly at each failed pull at the end of
a fragment in `shiftSamples`, whether or not the engine is already in Underrun.
Of the steps of a run, the cursor advance emits one diagnostic exactly when the
cursor reaches `fragmentSize` and the pull fails, and only then can the underrun
flag change from false to true; pushing a sample and the pull at the top of
`fillFragment` emit none and never set the flag. -/
theorem diagnostic_per_failed_pull [Field F] (cb : Producer) (s : LanczosResampler F)
    (hw : WellFormed s) :
    (∃ t, advanceCursor cb s = some t ∧
      (t.diagnostics = s.diagnostics + 1 ↔
        (s.myFormatFrom.fragmentSize ≤ u32 (s.myFragmentIndex + 1) ∧ cb s.pulls = none)) ∧
      (t.diagnostics = s.diagnostics ∨ t.diagnostics = s.diagnostics + 1) ∧
      (s.myIsUnderrun = false → t.myIsUnderrun = true →
        t.diagnostics = s.diagnostics + 1)) ∧
    (∀ t, pushSample s = some t →
      t.diagnostics = s.diagnostics ∧ t.myIsUnderrun = s.myIsUnderrun) ∧
    ((recoverFromUnderrun cb s).diagnostics = s.diagnostics ∧
      ((recoverFromUnderrun cb s).myIsUnderrun = true → s.myIsUnderrun = true)) := by
  refine ⟨advanceCursor_diagnostics cb s hw, fun t h => ?_, recoverFromUnderrun_diagnostics cb s⟩
  obtain ⟨-, -, -, hu, -, hd⟩ := pushSample_frame h
  exact ⟨hd, hu⟩

theorem diagnostic_per_failed_pull_witness :
    (∃ t, advanceCursor exampleProducer underrunEngine = some t ∧
      (t.diagnostics = underrunEngine.diagnostics + 1 ↔
        (underrunEngine.myFormatFrom.fragmentSize ≤ u32 (underrunEngine.myFragmentIndex + 1) ∧
          exampleProducer underrunEngine.pulls = none)) ∧
      (t.diagnostics = underrunEngine.diagnostics ∨
        t.diagnostics = underrunEngine.diagnostics + 1) ∧
      (underrunEngine.myIsUnderrun = false → t.myIsUnderrun = true →
        t.diagnostics = underrunEngine.diagnostics + 1)) ∧
    (∀ t, pushSample underrunEngine = some t →
      t.diagnostics = underrunEngine.diagnostics ∧
        t.myIsUnderrun = underrunEngine.myIsUnderrun) ∧
    ((recoverFromUnderrun exampleProducer underrunEngine).diagnostics
        = underrunEngine.diagnostics ∧
      ((recoverFromUnderrun exampleProducer underrunEngine).myIsUnderrun = true →
        underrunEngine.myIsUnderrun = true)) :=
  diagnostic_per_failed_pull exampleProducer underrunEngine underrunEngine_wellFormed

/-- C17 (counterexample): real arithmetic, source rate 3, target rate 1, fragments of
two samples, one fragment `[32767, 0]` and then no data. The first `fillFragment`
call ends in Underrun with one diagnostic. In the next call the engine is in
Underrun throughout, yet the first shift (cursor 1 to 2, wrapped to 0, pull
failed) emits a second diagnostic, and the call ends with three. -/
theorem diagnostic_repeats_in_underrun :
    LanczosResampler.create Real.sin Real.pi exampleFrom passthroughFormat 1
      = some (singleKernelEngine ℝ exampleFrom) ∧
    ∃ s1 p t s2,
      fillFragment exampleProducer (singleKernelEngine ℝ exampleFrom) 1 = some (s1, [(0, 0)]) ∧
      s1.myIsUnderrun = true ∧ s1.diagnostics = 1 ∧
      pushSample s1 = some p ∧ p.myIsUnderrun = true ∧ p.diagnostics = 1 ∧
      advanceCursor exampleProducer p = some t ∧
      t.myIsUnderrun = true ∧ t.diagnostics = 2 ∧
      fillFragment exampleProducer s1 1 = some (s2, [(0, 0)]) ∧
      s2.myIsUnderrun = true ∧ s2.diagnostics = 3 := by
  refine ⟨singleKernelEngine_created_three, ?_⟩
  simp [fillFragment, recoverFromUnderrun, singleKernelEngine, passthroughFormat,
    exampleFrom, exampleProducer, fillLoop, outputSample, convolveSample,
    ConvolutionBuffer.convoluteWith, dotProduct, shiftSamples, pushSample, advanceCursor,
    u32, ConvolutionBuffer.shift]

end ClaimsDiagnostics

/-! ### Index safety -/

section IndexSafety

variable {F : Type}

/-- For a positive 32-bit `d` (and any 32-bit `n`, zero included) the result of
`reducedDenominator` is between 1 and `d`. -/
theorem reducedDenominator_pos (n d : Nat) (hd : 0 < d) (hn32 : n < 4294967296) :
    ∃ k, reducedDenominator n d = some k ∧ 0 < k ∧ k ≤ d := by
  rcases Nat.eq_zero_or_pos n with hn | hn
  · subst hn
    refine ⟨d, ?_, hd, le_refl _⟩
    simp [reducedDenominator, reducedDenominatorLoop]
  · refine ⟨d / Nat.gcd n d, reducedDenominator_gcd n d hn hd hn32, ?_, Nat.div_le_self _ _⟩
    exact Nat.div_pos (Nat.le_of_dvd hd (Nat.gcd_dvd_right _ _)) (Nat.gcd_pos_of_pos_right _ hd)

/-- When every row of `count` rows of `size` coefficients fits into an array of
`(count * size) mod 2^32` coefficients, the product does not wrap. -/
theorem table_size_exact (count size : Nat)
    (hfit : ∀ k, k < count → u32 (k * size) + size ≤ u32 (count * size)) :
    count * size < 4294967296 := by
  by_contra hge
  have hsize : 0 < size := by
    rcases Nat.eq_zero_or_pos size with h | h
    · rw [h] at hge
      simp at hge
    · exact h
  have hmul : 4294967295 / size * size ≤ 4294967295 := Nat.div_mul_le_self _ _
  have hlt : 4294967295 / size < count := by
    apply Nat.lt_of_mul_lt_mul_right (a := size)
    omega
  have hdm := Nat.div_add_mod 4294967295 size
  have hmod : 4294967295 % size < size := Nat.mod_lt _ hsize
  have h1 := hfit _ hlt
  have h2 := u32_lt (count * size)
  rw [u32_of_lt (by omega)] at h1
  rw [Nat.mul_comm] at hdm
  omega

/-- A freshly constructed engine (positive 32-bit target rate, positive fragment
size) is well-formed, and its kernel table has exactly `N * myKernelSize`
coefficients, a product that does not wrap. -/
theorem create_safe [Field F] [DecidableEq F] {sin : F → F} {pi : F}
    {formatFrom formatTo : Format} {a : Nat} {s0 : LanczosResampler F}
    (h : LanczosResampler.create sin pi formatFrom formatTo a = some s0)
    (hto : 0 < formatTo.sampleRate)
    (hfrom32 : formatFrom.sampleRate < 4294967296) (hto32 : formatTo.sampleRate < 4294967296)
    (hfs : 0 < formatFrom.fragmentSize) :
    WellFormed s0 ∧ s0.myFormatFrom = formatFrom ∧ s0.myFormatTo = formatTo ∧
      s0.myPrecomputedKernels.length = s0.myPrecomputedKernelCount * s0.myKernelSize ∧
      s0.myPrecomputedKernelCount * s0.myKernelSize < 4294967296 := by
  obtain ⟨count, kernels, hc, hk, rfl⟩ := create_eq h
  obtain ⟨k, hk1, hkpos, hkle⟩ := reducedDenominator_pos _ _ hto hfrom32
  rw [hk1] at hc
  injection hc with hc
  subst hc
  obtain ⟨hlen, hfit⟩ := precomputeKernelsLoop_fit sin pi _ _ a _ _ _ _ _ hk
  rw [List.length_replicate] at hlen hfit
  have hexact := table_size_exact k (u32 (2 * a)) (fun j hj => hfit j (Nat.zero_le _)
    (by simpa using hj))
  refine ⟨?_, rfl, rfl, ?_, hexact⟩
  · exact
      { fragmentSize_pos := hfs
        rateTo_pos := hto
        kernelCount_pos := hkpos
        kernelCount_lt := lt_of_le_of_lt hkle hto32
        kernelIndex_lt := hkpos
        kernels_fit := fun j hj => by
          have := hfit j (Nat.zero_le _) (by simpa using hj)
          show u32 (j * u32 (2 * a)) + u32 (2 * a) ≤ kernels.length
          rw [hlen]
          exact this
        mono := fun hst => by
          simp only at hst
          exact ⟨_, by simp only [hst]; rfl, by simp [ConvolutionBuffer.create]⟩
        stereo := fun hst => by
          simp only at hst
          exact ⟨_, _, by simp only [hst]; rfl, by simp only [hst]; rfl,
            by simp [ConvolutionBuffer.create], by simp [ConvolutionBuffer.create]⟩
        fragment_size := fun frag hfr => by simp at hfr
        cursor_lt := hfs }
  · show kernels.length = k * u32 (2 * a)
    rw [hlen, u32_of_lt hexact]

/-- Every sequence of `fillFragment` calls from a well-formed state is defined and
ends in a well-formed state with the same configuration. -/
theorem fillFragments_reach [Field F] (cb : Producer) (lengths : List Nat)
    (s : LanczosResampler F) (hw : WellFormed s) (hp : ProducerOk cb s.myFormatFrom) :
    ∃ t wss, fillFragments cb s lengths = some (t, wss) ∧ WellFormed t ∧ SameConfig s t := by
  obtain ⟨t, wss, h, hwt, hc, -⟩ := fillFragments_safe cb lengths s hw hp
  exact ⟨t, wss, h, hwt, hc⟩

end IndexSafety

section ClaimsIndexSafety

variable {F : Type}

/-- The read indices of `shiftSamples` in a well-formed state that holds a fragment
are inside the fragment. -/
theorem read_indices_in_range [Field F] (s : LanczosResampler F) (hw : WellFormed s)
    (frag : List Int) (hfr : s.myCurrentFragment = some frag) :
    s.myFragmentIndex < s.myFormatFrom.fragmentSize ∧
      (s.myFormatFrom.stereo = false →
        frag.length = s.myFormatFrom.fragmentSize ∧ s.myFragmentIndex < frag.length) ∧
      (s.myFormatFrom.stereo = true →
        frag.length = s.myFormatFrom.fragmentSize * 2 ∧
        u32 (2 * s.myFragmentIndex) < frag.length ∧
        u32 (u32 (2 * s.myFragmentIndex) + 1) < frag.length) ∧
      ∃ t, pushSample s = some t := by
  have hlen := hw.fragment_size frag hfr
  have hcur := hw.cursor_lt
  refine ⟨hcur, fun hst => ?_, fun hst => ?_, ?_⟩
  · rw [hst] at hlen
    simp only [Bool.false_eq_true, if_false, Nat.mul_one] at hlen
    exact ⟨hlen, by omega⟩
  · rw [hst] at hlen
    simp only [if_true] at hlen
    have h1 := u32_le (2 * s.myFragmentIndex)
    have h2 := u32_le (u32 (2 * s.myFragmentIndex) + 1)
    exact ⟨hlen, by omega, by omega⟩
  · obtain ⟨t, ht, -⟩ := pushSample_safe s hw (by rw [hfr]; rfl)
    exact ⟨t, ht⟩

/-- C18 (index safety): with `fragmentSize > 0`, `Fout > 0` and 32-bit rates, every
sequence of `fillFragment` calls on a constructed engine is defined (no read is
out of bounds), and the state reached is well-formed: the cursor is below
`fragmentSize`; the kernel index is below `N`; the table has `N * myKernelSize`
coefficients (`myKernelSize = 2a`) and the selected slice
`[k * myKernelSize, k * myKernelSize + myKernelSize)` lies inside it. In every
well-formed state that holds a fragment (those in which `shiftSamples` reads) the
read indices, `myFragmentIndex` for mono and `2 * myFragmentIndex`,
`2 * myFragmentIndex + 1` for stereo, are below the fragment's length
`fragmentSize` times the channel count. -/
theorem index_safety [Field F] [DecidableEq F] (sin : F → F) (pi : F)
    (formatFrom formatTo : Format) (a : Nat) (cb : Producer) (lengths : List Nat)
    (s0 : LanczosResampler F) (hto : 0 < formatTo.sampleRate)
    (hfrom32 : formatFrom.sampleRate < 4294967296) (hto32 : formatTo.sampleRate < 4294967296)
    (hfs : 0 < formatFrom.fragmentSize) (hp : ProducerOk cb formatFrom)
    (hcreate : LanczosResampler.create sin pi formatFrom formatTo a = some s0) :
    (∃ t wss, fillFragments cb s0 lengths = some (t, wss) ∧ WellFormed t ∧
      t.myFragmentIndex < formatFrom.fragmentSize ∧
      t.myCurrentKernelIndex < t.myPrecomputedKernelCount ∧
      t.myPrecomputedKernels.length = t.myPrecomputedKernelCount * t.myKernelSize ∧
      u32 (t.myCurrentKernelIndex * t.myKernelSize) = t.myCurrentKernelIndex * t.myKernelSize ∧
      t.myCurrentKernelIndex * t.myKernelSize + t.myKernelSize
        ≤ t.myPrecomputedKernelCount * t.myKernelSize) ∧
    (∀ (s : LanczosResampler F) (frag : List Int), WellFormed s →
      s.myCurrentFragment = some frag →
      s.myFragmentIndex < s.myFormatFrom.fragmentSize ∧
      (s.myFormatFrom.stereo = false →
        frag.length = s.myFormatFrom.fragmentSize ∧ s.myFragmentIndex < frag.length) ∧
      (s.myFormatFrom.stereo = true →
        frag.length = s.myFormatFrom.fragmentSize * 2 ∧
        u32 (2 * s.myFragmentIndex) < frag.length ∧
        u32 (u32 (2 * s.myFragmentIndex) + 1) < frag.length) ∧
      ∃ t, pushSample s = some t) := by
  obtain ⟨hw0, hf0, -, hlen0, hexact0⟩ := create_safe hcreate hto hfrom32 hto32 hfs
  obtain ⟨t, wss, hrun, hwt, hcfg⟩ := fillFragments_reach cb lengths s0 hw0
    (by rw [hf0]; exact hp)
  obtain ⟨c1, -, c3, c4, -, c6⟩ := hcfg
  have hidx := hwt.kernelIndex_lt
  have hrow : (t.myCurrentKernelIndex + 1) * t.myKernelSize
      ≤ t.myPrecomputedKernelCount * t.myKernelSize := Nat.mul_le_mul_right _ hidx
  rw [Nat.add_mul, Nat.one_mul] at hrow
  have hex : t.myPrecomputedKernelCount * t.myKernelSize < 4294967296 := by
    rw [c3, c4]
    exact hexact0
  refine ⟨⟨t, wss, hrun, hwt, ?_, hidx, ?_, u32_of_lt (by omega), hrow⟩,
    fun s frag hw hfr => read_indices_in_range s hw frag hfr⟩
  · have := hwt.cursor_lt
    rw [c1, hf0] at this
    exact this
  · rw [c6, c3, c4]
    exact hlen0

theorem index_safety_witness :
    (∃ t wss, fillFragments exampleProducer exampleEngine [3, 2] = some (t, wss) ∧
      WellFormed t ∧ t.myFragmentIndex < exampleFrom.fragmentSize ∧
      t.myCurrentKernelIndex < t.myPrecomputedKernelCount ∧
      t.myPrecomputedKernels.length = t.myPrecomputedKernelCount * t.myKernelSize ∧
      u32 (t.myCurrentKernelIndex * t.myKernelSize) = t.myCurrentKernelIndex * t.myKernelSize ∧
      t.myCurrentKernelIndex * t.myKernelSize + t.myKernelSize
        ≤ t.myPrecomputedKernelCount * t.myKernelSize) ∧
    (∀ (s : LanczosResampler ℚ) (frag : List Int), WellFormed s →
      s.myCurrentFragment = some frag →
      s.myFragmentIndex < s.myFormatFrom.fragmentSize ∧
      (s.myFormatFrom.stereo = false →
        frag.length = s.myFormatFrom.fragmentSize ∧ s.myFragmentIndex < frag.length) ∧
      (s.myFormatFrom.stereo = true →
        frag.length = s.myFormatFrom.fragmentSize * 2 ∧
        u32 (2 * s.myFragmentIndex) < frag.length ∧
        u32 (u32 (2 * s.myFragmentIndex) + 1) < frag.length) ∧
      ∃ t, pushSample s = some t) :=
  index_safety exampleSin 1 exampleFrom exampleTo 1 exampleProducer [3, 2] exampleEngine
    (by decide) (by decide) (by decide) (by decide) exampleProducer_ok exampleEngine_created

end ClaimsIndexSafety

/-! ### The kernel table of a constructed engine -/

section CreatedTable

variable {F : Type}

/-- The kernel table of a constructed engine, when no 32-bit computation of the
constructor wraps: kernel count, kernel size, and every coefficient as a value of
`lanczosKernel`. -/
theorem created_table [Field F] [DecidableEq F] {sin : F → F} {pi : F}
    {formatFrom formatTo : Format} {a : Nat} {s0 : LanczosResampler F}
    (hcreate : LanczosResampler.create sin pi formatFrom formatTo a = some s0)
    (hfrom : 0 < formatFrom.sampleRate) (hto : 0 < formatTo.sampleRate)
    (hsum : formatFrom.sampleRate + formatTo.sampleRate ≤ 4294967296)
    (hsize : formatTo.sampleRate / Nat.gcd formatFrom.sampleRate formatTo.sampleRate * (2 * a)
      < 4294967296) :
    s0.myPrecomputedKernelCount
        = formatTo.sampleRate / Nat.gcd formatFrom.sampleRate formatTo.sampleRate ∧
      s0.myKernelSize = 2 * a ∧
      s0.myPrecomputedKernels.length = s0.myPrecomputedKernelCount * (2 * a) ∧
      ∀ i j, i < s0.myPrecomputedKernelCount → j < 2 * a →
        s0.myPrecomputedKernels[i * (2 * a) + j]? =
          some (lanczosKernel sin pi
            (((i * formatFrom.sampleRate % formatTo.sampleRate : Nat) : F)
              / (formatTo.sampleRate : F) - (j : F) + (a : F) - 1) a * CLIPPING_FACTOR) := by
  obtain ⟨count, kernels, hc, hk, rfl⟩ := create_eq hcreate
  rw [reducedDenominator_gcd _ _ hfrom hto (by omega)] at hc
  injection hc with hc
  subst hc
  have hn : 0 < formatTo.sampleRate / Nat.gcd formatFrom.sampleRate formatTo.sampleRate :=
    Nat.div_pos (Nat.le_of_dvd hto (Nat.gcd_dvd_right _ _)) (Nat.gcd_pos_of_pos_right _ hto)
  have h2a : u32 (2 * a) = 2 * a := by
    apply u32_of_lt
    have : 1 * (2 * a) ≤
        formatTo.sampleRate / Nat.gcd formatFrom.sampleRate formatTo.sampleRate * (2 * a) :=
      Nat.mul_le_mul_right _ hn
    omega
  obtain ⟨mem1, h1, hlen, -, hval⟩ := precomputeKernelsLoop_spec sin pi
    formatFrom.sampleRate formatTo.sampleRate a _ hto hsum hsize _ 0
    (List.replicate
      (formatTo.sampleRate / Nat.gcd formatFrom.sampleRate formatTo.sampleRate * (2 * a)) 0)
    (Nat.zero_add _) (List.length_replicate _ _)
  rw [List.length_replicate] at hlen
  rw [Nat.zero_mul, Nat.zero_mod] at h1
  rw [h2a, u32_of_lt hsize] at hk
  unfold precomputeKernels at hk
  rw [h1] at hk
  injection hk with hk
  subst hk
  exact ⟨rfl, h2a, hlen, fun i j hi hj => hval i j (Nat.zero_le _) hi hj⟩

end CreatedTable

section ClaimsSupport

variable {F : Type}

/-- The argument of the kernel for a time index below `Fout` and a tap below `2a`
lies in `[-a, a)`. -/
theorem kernel_argument_range [LinearOrderedField F] (t rateTo j a : Nat) (ht : t < rateTo)
    (hj : j < 2 * a) :
    -(a : F) ≤ (t : F) / (rateTo : F) - (j : F) + (a : F) - 1 ∧
      (t : F) / (rateTo : F) - (j : F) + (a : F) - 1 < (a : F) := by
  have hpos : (0 : F) < (rateTo : F) := by exact_mod_cast (Nat.lt_of_le_of_lt (Nat.zero_le _) ht)
  have h0 : (0 : F) ≤ (t : F) / (rateTo : F) := div_nonneg (Nat.cast_nonneg _) hpos.le
  have h1 : (t : F) / (rateTo : F) < 1 := by
    rw [div_lt_one hpos]
    exact_mod_cast ht
  have hj1 : (j : F) + 1 ≤ 2 * (a : F) := by exact_mod_cast hj
  have hj0 : (0 : F) ≤ (j : F) := Nat.cast_nonneg _
  constructor <;> linarith

/-- C20 (kernel support): for positive `Fin`, `Fout`, every `a ≥ 1`, every phase `i`
and every tap `j < 2a`, the argument `x = t_i / Fout - j + a - 1` with
`t_i = (i * Fin) mod Fout` satisfies `-a ≤ x < a`, so the window argument `x / a`
lies in `[-1, 1)`; and it is this `x` that
`precomputeKernels` passes to `lanczosKernel` for coefficient `j` of kernel
`i < N` (when `Fin + Fout ≤ 2^32` and the table size fits 32 bits, so that `t_i` is
the time index of the loop). -/
theorem kernel_support [LinearOrderedField F] [DecidableEq F] (sin : F → F) (pi : F)
    (formatFrom formatTo : Format) (a i j : Nat)
    (hfrom : 0 < formatFrom.sampleRate) (hto : 0 < formatTo.sampleRate) (ha : 1 ≤ a)
    (hj : j < 2 * a) :
    (-(a : F) ≤ ((i * formatFrom.sampleRate % formatTo.sampleRate : Nat) : F)
          / (formatTo.sampleRate : F) - (j : F) + (a : F) - 1 ∧
      ((i * formatFrom.sampleRate % formatTo.sampleRate : Nat) : F)
          / (formatTo.sampleRate : F) - (j : F) + (a : F) - 1 < (a : F)) ∧
    (-1 ≤ (((i * formatFrom.sampleRate % formatTo.sampleRate : Nat) : F)
          / (formatTo.sampleRate : F) - (j : F) + (a : F) - 1) / (a : F) ∧
      (((i * formatFrom.sampleRate % formatTo.sampleRate : Nat) : F)
          / (formatTo.sampleRate : F) - (j : F) + (a : F) - 1) / (a : F) < 1) ∧
    (∀ s0 : LanczosResampler F,
      LanczosResampler.create sin pi formatFrom formatTo a = some s0 →
      formatFrom.sampleRate + formatTo.sampleRate ≤ 4294967296 →
      formatTo.sampleRate / Nat.gcd formatFrom.sampleRate formatTo.sampleRate * (2 * a)
        < 4294967296 →
      i < s0.myPrecomputedKernelCount →
      s0.myPrecomputedKernels[i * (2 * a) + j]? =
        some (lanczosKernel sin pi
          (((i * formatFrom.sampleRate % formatTo.sampleRate : Nat) : F)
            / (formatTo.sampleRate : F) - (j : F) + (a : F) - 1) a * CLIPPING_FACTOR)) := by
  have hrange := kernel_argument_range (F := F) _ _ j a (Nat.mod_lt (i * formatFrom.sampleRate) hto) hj
  have hapos : (0 : F) < (a : F) := by exact_mod_cast ha
  refine ⟨hrange, ⟨?_, ?_⟩, fun s0 hcreate hsum hsize hi => ?_⟩
  · rw [le_div_iff₀ hapos]
    linarith [hrange.1]
  · rw [div_lt_one hapos]
    exact hrange.2
  · exact (created_table hcreate hfrom hto hsum hsize).2.2.2 i j hi hj

theorem kernel_support_witness :
    (-((1 : Nat) : ℚ) ≤ ((1 * exampleFrom.sampleRate % exampleTo.sampleRate : Nat) : ℚ)
          / (exampleTo.sampleRate : ℚ) - ((1 : Nat) : ℚ) + ((1 : Nat) : ℚ) - 1 ∧
      ((1 * exampleFrom.sampleRate % exampleTo.sampleRate : Nat) : ℚ)
          / (exampleTo.sampleRate : ℚ) - ((1 : Nat) : ℚ) + ((1 : Nat) : ℚ) - 1
        < ((1 : Nat) : ℚ)) ∧
    (-1 ≤ (((1 * exampleFrom.sampleRate % exampleTo.sampleRate : Nat) : ℚ)
          / (exampleTo.sampleRate : ℚ) - ((1 : Nat) : ℚ) + ((1 : Nat) : ℚ) - 1)
            / ((1 : Nat) : ℚ) ∧
      (((1 * exampleFrom.sampleRate % exampleTo.sampleRate : Nat) : ℚ)
          / (exampleTo.sampleRate : ℚ) - ((1 : Nat) : ℚ) + ((1 : Nat) : ℚ) - 1)
            / ((1 : Nat) : ℚ) < 1) ∧
    (∀ s0 : LanczosResampler ℚ,
      LanczosResampler.create exampleSin 1 exampleFrom exampleTo 1 = some s0 →
      exampleFrom.sampleRate + exampleTo.sampleRate ≤ 4294967296 →
      exampleTo.sampleRate / Nat.gcd exampleFrom.sampleRate exampleTo.sampleRate * (2 * 1)
        < 4294967296 →
      1 < s0.myPrecomputedKernelCount →
      s0.myPrecomputedKernels[1 * (2 * 1) + 1]? =
        some (lanczosKernel exampleSin 1
          (((1 * exampleFrom.sampleRate % exampleTo.sampleRate : Nat) : ℚ)
            / (exampleTo.sampleRate : ℚ) - ((1 : Nat) : ℚ) + ((1 : Nat) : ℚ) - 1) 1
              * CLIPPING_FACTOR)) :=
  kernel_support exampleSin 1 exampleFrom exampleTo 1 1 1 (by decide) (by decide) (by decide)
    (by decide)

end ClaimsSupport

/-! ### The phase-0 kernel in real arithmetic -/

section PhaseZero

/-- At a nonzero integer `sinc` vanishes. -/
theorem sinc_int_eq_zero (n : Int) (hn : n ≠ 0) : sinc Real.sin Real.pi (n : ℝ) = 0 := by
  have hne : (n : ℝ) ≠ 0 := by exact_mod_cast hn
  unfold sinc
  rw [if_neg hne, mul_comm, Real.sin_int_mul_pi]
  simp

/-- In real arithmetic the coefficients computed for time index 0 are `0.75` at tap
`a - 1` and `0` at every other tap. -/
theorem phaseZero_coefficient (rateTo a j : Nat) (ha : 1 ≤ a) :
    lanczosKernel Real.sin Real.pi
        (((0 : Nat) : ℝ) / (rateTo : ℝ) - (j : ℝ) + (a : ℝ) - 1) a * CLIPPING_FACTOR
      = if j = a - 1 then 3 / 4 else 0 := by
  have hx : ((0 : Nat) : ℝ) / (rateTo : ℝ) - (j : ℝ) + (a : ℝ) - 1
      = (((a : Int) - 1 - (j : Int) : Int) : ℝ) := by
    push_cast
    ring
  rw [hx]
  by_cases hj : j = a - 1
  · have h0 : (a : Int) - 1 - (j : Int) = 0 := by omega
    rw [if_pos hj, h0]
    simp only [lanczosKernel, sinc, CLIPPING_FACTOR, Int.cast_zero, zero_div, if_true]
    norm_num
  · have h0 : (a : Int) - 1 - (j : Int) ≠ 0 := by omega
    rw [if_neg hj]
    unfold lanczosKernel
    rw [sinc_int_eq_zero _ h0]
    simp

/-- A list of `2a` entries that is `c` at position `a - 1` and `0` elsewhere. -/
theorem list_eq_delta {F : Type} [Field F] (l : List F) (a : Nat) (c : F) (ha : 1 ≤ a)
    (hlen : l.length = 2 * a)
    (h : ∀ j, j < 2 * a → l[j]? = some (if j = a - 1 then c else 0)) :
    l = List.replicate (a - 1) 0 ++ c :: List.replicate a 0 := by
  apply List.ext_getElem?
  intro j
  by_cases hj : j < 2 * a
  · rw [h j hj]
    rcases Nat.lt_trichotomy j (a - 1) with h1 | h1 | h1
    · rw [if_neg (by omega), List.getElem?_append_left (by simpa using h1),
        List.getElem?_replicate, if_pos h1]
    · subst h1
      rw [if_pos rfl, List.getElem?_append_right (by simp)]
      simp
    · rw [if_neg (by omega), List.getElem?_append_right (by simp; omega)]
      simp only [List.length_replicate]
      obtain ⟨m, hm⟩ : ∃ m, j - (a - 1) = m + 1 := ⟨j - (a - 1) - 1, by omega⟩
      rw [hm, List.getElem?_cons_succ, List.getElem?_replicate, if_pos (by omega)]
  · rw [List.getElem?_eq_none (by omega), List.getElem?_eq_none (by simp; omega)]

/-- The dot product with a kernel that is `c` at position `p` and `0` elsewhere picks
the sample at position `p`. -/
theorem dotProduct_delta {F : Type} [Field F] (c : F) (q : Nat) :
    ∀ (p : Nat) (data : List F),
      dotProduct data (List.replicate p 0 ++ c :: List.replicate q 0)
        = (data[p]?).getD 0 * c := by
  have hzero : ∀ (n : Nat) (data : List F), dotProduct data (List.replicate n 0) = 0 := by
    intro n
    induction n with
    | zero =>
      intro data
      cases data <;> simp [dotProduct]
    | succ n ih =>
      intro data
      cases data with
      | nil => simp [dotProduct]
      | cons x xs => simp [dotProduct, List.replicate_succ, ih]
  intro p
  induction p with
  | zero =>
    intro data
    cases data with
    | nil => simp [dotProduct]
    | cons x xs => simp [dotProduct, hzero]
  | succ p ih =>
    intro data
    cases data with
    | nil => simp [dotProduct, List.replicate_succ]
    | cons x xs => simp [dotProduct, List.replicate_succ, ih]

/-- The dot product of a constant buffer with a kernel is the constant times the sum
of the coefficients. -/
theorem dotProduct_replicate {F : Type} [Field F] (v : F) :
    ∀ (ks : List F) (n : Nat), ks.length ≤ n →
      dotProduct (List.replicate n v) ks = v * ks.sum := by
  intro ks
  induction ks with
  | nil =>
    intro n _
    cases n <;> simp [dotProduct, List.replicate_succ]
  | cons k ks ih =>
    intro n hn
    obtain ⟨m, rfl⟩ : ∃ m, n = m + 1 := ⟨n - 1, by simp at hn; omega⟩
    simp only [List.replicate_succ, dotProduct, List.sum_cons]
    rw [ih m (by simpa using hn)]
    ring

end PhaseZero

section DcGain

theorem sinc_half : sinc Real.sin Real.pi (1 / 2) = 2 / Real.pi := by
  have hpi : Real.pi ≠ 0 := Real.pi_ne_zero
  unfold sinc
  rw [if_neg (by norm_num), show Real.pi * (1 / 2) = Real.pi / 2 by ring, Real.sin_pi_div_two]
  field_simp

theorem sinc_neg_half : sinc Real.sin Real.pi (-(1 / 2)) = 2 / Real.pi := by
  have hpi : Real.pi ≠ 0 := Real.pi_ne_zero
  unfold sinc
  rw [if_neg (by norm_num), show Real.pi * (-(1 / 2)) = -(Real.pi / 2) by ring, Real.sin_neg,
    Real.sin_pi_div_two]
  field_simp

theorem upsamplingEngine_created :
    LanczosResampler.create Real.sin Real.pi passthroughFormat exampleTo 1
      = some (upsamplingEngine ℝ (3 / Real.pi ^ 2)) := by
  have hcount : reducedDenominator 1 2 = some 2 := by decide
  have hpi : Real.pi ≠ 0 := Real.pi_ne_zero
  have h0 : sinc Real.sin Real.pi 0 = 1 := by simp [sinc]
  have h1 : sinc Real.sin Real.pi (-1) = 0 := by
    have := sinc_int_eq_zero (-1) (by decide)
    simpa using this
  have h2 : sinc Real.sin Real.pi 2⁻¹ = 2 / Real.pi := by
    rw [← sinc_half]
    norm_num
  have h3 : sinc Real.sin Real.pi (2⁻¹ - 1) = 2 / Real.pi := by
    rw [← sinc_neg_half]
    norm_num
  simp [LanczosResampler.create, passthroughFormat, exampleTo, hcount, precomputeKernels,
    precomputeKernelsLoop, precomputeKernelRow, u32, lanczosKernel,
    CLIPPING_FACTOR, singleKernelEngine, upsamplingEngine, ConvolutionBuffer.create,
    List.replicate]
  rw [h0, h1, h2, h3]
  refine ⟨by norm_num, Or.inl rfl, ?_, ?_⟩ <;> field_simp <;> ring

end DcGain

section RowZero

variable {F : Type}

/-- A row of `precomputeKernels` leaves the positions before its first write alone. -/
theorem precomputeKernelRow_keeps [Field F] [DecidableEq F] (sin : F → F) (pi : F) (a : Nat)
    (center : F) (off : Nat) :
    ∀ (count j : Nat) (mem mem1 : List F),
      precomputeKernelRow sin pi a center off count j mem = some mem1 →
      ∀ p, p < off + j → mem1[p]? = mem[p]? := by
  intro count
  induction count with
  | zero =>
    intro j mem mem1 h p _
    simp only [precomputeKernelRow, Option.some.injEq] at h
    rw [h]
  | succ count ih =>
    intro j mem mem1 h p hp
    unfold precomputeKernelRow at h
    split at h
    · rw [ih _ _ _ h p (by omega), List.getElem?_set_ne (by omega)]
    · exact absurd h (by simp)

/-- The rows of `precomputeKernels` that start at or after position `bound` leave the
positions before `bound` alone. -/
theorem precomputeKernelsLoop_keeps [Field F] [DecidableEq F] (sin : F → F) (pi : F)
    (rateFrom rateTo kernelSize a bound : Nat) :
    ∀ (count i timeIndex : Nat) (mem mem1 : List F),
      precomputeKernelsLoop sin pi rateFrom rateTo kernelSize a count i timeIndex mem
        = some mem1 →
      (∀ k, i ≤ k → k < i + count → bound ≤ u32 (kernelSize * k)) →
      ∀ p, p < bound → mem1[p]? = mem[p]? := by
  intro count
  induction count with
  | zero =>
    intro i t mem mem1 h _ p _
    simp only [precomputeKernelsLoop, Option.some.injEq] at h
    rw [h]
  | succ count ih =>
    intro i t mem mem1 h hb p hp
    unfold precomputeKernelsLoop at h
    split at h
    · exact absurd h (by simp)
    · rename_i mem2 hrow
      split at h
      · exact absurd h (by simp)
      · have hi := hb i (le_refl _) (by omega)
        rw [ih _ _ _ _ h (fun k h1 h2 => hb k (by omega) (by omega)) p hp]
        exact precomputeKernelRow_keeps sin pi a _ _ _ _ _ _ hrow p (by omega)

/-- The first kernel of a constructed engine (positive 32-bit target rate, 32-bit
kernel size): `myKernelSize = 2a`, and coefficient `j` is the value of
`lanczosKernel` for time index 0. -/
theorem created_row_zero [Field F] [DecidableEq F] {sin : F → F} {pi : F}
    {formatFrom formatTo : Format} {a : Nat} {s0 : LanczosResampler F}
    (hcreate : LanczosResampler.create sin pi formatFrom formatTo a = some s0)
    (hto : 0 < formatTo.sampleRate)
    (hfrom32 : formatFrom.sampleRate < 4294967296) (hto32 : formatTo.sampleRate < 4294967296)
    (hfs : 0 < formatFrom.fragmentSize) (h2a : 2 * a < 4294967296) :
    s0.myKernelSize = 2 * a ∧
      ∀ j, j < 2 * a → s0.myPrecomputedKernels[j]? =
        some (lanczosKernel sin pi
          (((0 : Nat) : F) / (formatTo.sampleRate : F) - (j : F) + (a : F) - 1) a
            * CLIPPING_FACTOR) := by
  obtain ⟨hw, -, -, hlen, hexact⟩ := create_safe hcreate hto hfrom32 hto32 hfs
  have hN := hw.kernelCount_pos
  obtain ⟨count, kernels, hc, hk, hs0⟩ := create_eq hcreate
  have hK : s0.myKernelSize = 2 * a := by
    rw [hs0]
    exact u32_of_lt h2a
  have hcount : s0.myPrecomputedKernelCount = count := by rw [hs0]
  have hkern : s0.myPrecomputedKernels = kernels := by rw [hs0]
  rw [hcount, hK] at hexact
  rw [hcount] at hN
  refine ⟨hK, fun j hj => ?_⟩
  rw [hkern]
  rw [u32_of_lt h2a, u32_of_lt hexact] at hk
  obtain ⟨c, rfl⟩ : ∃ c, count = c + 1 := ⟨count - 1, by omega⟩
  unfold precomputeKernels precomputeKernelsLoop at hk
  have hfit : 0 + 0 + 2 * a ≤ (List.replicate ((c + 1) * (2 * a)) (0 : F)).length := by
    rw [List.length_replicate, Nat.add_mul]
    omega
  obtain ⟨mem1, h1, -, -, hin⟩ := precomputeKernelRow_spec sin pi a
    (((0 : Nat) : F) / (formatTo.sampleRate : F)) 0 (2 * a) 0 _ hfit
  have hoff : u32 (2 * a * 0) = 0 := by simp [u32]
  rw [hoff, u32_of_lt h2a, h1] at hk
  simp only at hk
  rw [if_neg (by omega)] at hk
  have hkeep := precomputeKernelsLoop_keeps sin pi _ _ _ a (2 * a) _ _ _ _ _ hk
    (fun k h1 h2 => by
      have hle : 2 * a * k ≤ 2 * a * (c + 1) := Nat.mul_le_mul_left _ (by omega)
      have hge : 2 * a * 1 ≤ 2 * a * k := Nat.mul_le_mul_left _ h1
      rw [u32_of_lt (by rw [Nat.mul_comm (c + 1)] at hexact; omega)]
      omega) j hj
  rw [hkeep]
  have := hin j (Nat.zero_le _) (by omega)
  rw [Nat.zero_add] at this
  exact this

/-- In real arithmetic the first kernel of a constructed engine with `a ≥ 1` is
`0.75` at tap `a - 1` and `0` at every other tap. -/
theorem created_passthrough_kernel {formatFrom formatTo : Format} {a : Nat}
    {s0 : LanczosResampler ℝ}
    (hcreate : LanczosResampler.create Real.sin Real.pi formatFrom formatTo a = some s0)
    (hto : 0 < formatTo.sampleRate)
    (hfrom32 : formatFrom.sampleRate < 4294967296) (hto32 : formatTo.sampleRate < 4294967296)
    (hfs : 0 < formatFrom.fragmentSize) (ha : 1 ≤ a) (h2a : 2 * a < 4294967296) :
    s0.myKernelSize = 2 * a ∧
      (s0.myPrecomputedKernels.drop (u32 (0 * s0.myKernelSize))).take s0.myKernelSize
        = List.replicate (a - 1) 0 ++ (3 / 4 : ℝ) :: List.replicate a 0 := by
  obtain ⟨hK, hrow⟩ := created_row_zero hcreate hto hfrom32 hto32 hfs h2a
  obtain ⟨hw, -, -, hlen, hexact⟩ := create_safe hcreate hto hfrom32 hto32 hfs
  have hN := hw.kernelCount_pos
  refine ⟨hK, ?_⟩
  have hoff : u32 (0 * s0.myKernelSize) = 0 := by simp [u32]
  rw [hoff, List.drop_zero, hK]
  have hle : 2 * a ≤ s0.myPrecomputedKernels.length := by
    rw [hlen, hK]
    have : 1 * (2 * a) ≤ s0.myPrecomputedKernelCount * (2 * a) := Nat.mul_le_mul_right _ hN
    omega
  apply list_eq_delta _ a _ ha
  · rw [List.length_take]
    omega
  · intro j hj
    rw [List.getElem?_take_of_lt hj, hrow j hj, phaseZero_coefficient _ a j ha]

end RowZero

section ClaimsDcGain

/-- Mono source, mono target: the assignment of an iteration is the dot product of
the mono buffer with the selected kernel, at position `i`. -/
theorem convolveSample_mono_mono {F : Type} [Field F] (s : LanczosResampler F)
    (hw : WellFormed s) (i : Nat)
    (hfrom : s.myFormatFrom.stereo = false) (hto : s.myFormatTo.stereo = false) :
    ∃ b, s.myBuffer = some b ∧
      convolveSample s (u32 (s.myCurrentKernelIndex * s.myKernelSize)) i =
        some [(i, dotProduct b.data (selectedKernel s))] := by
  obtain ⟨b, hb, hbl⟩ := hw.mono hfrom
  have hfit := hw.kernels_fit _ hw.kernelIndex_lt
  refine ⟨b, hb, ?_⟩
  unfold convolveSample
  simp only [hfrom, Bool.false_eq_true, if_false, hb]
  rw [convoluteWith_safe b _ _ (by omega)]
  simp only [hto, Bool.false_eq_true, if_false, hbl, selectedKernel]

/-- C15 (amended): real arithmetic, mono to mono, kernel half-width `a ≥ 1`. In every
state reached from the constructor in which a fragment is at hand and the buffer
holds `2a` copies of `v`, the next output sample is `v` times the sum of the
coefficients of the selected kernel snapshot. The snapshot of phase 0 is `0.75`
at tap `a - 1` and `0` elsewhere, so it sums to exactly `0.75` and the output is
`0.75 * v` there; nothing normalises the other snapshots. -/
theorem dc_gain (formatFrom formatTo : Format) (a : Nat) (cb : Producer)
    (s0 s : LanczosResampler ℝ) (lengths : List Nat) (wss : List (List (Write ℝ)))
    (v : ℝ) (i : Nat)
    (hto : 0 < formatTo.sampleRate)
    (hfrom32 : formatFrom.sampleRate < 4294967296) (hto32 : formatTo.sampleRate < 4294967296)
    (hfs : 0 < formatFrom.fragmentSize) (ha : 1 ≤ a) (h2a : 2 * a < 4294967296)
    (hmonoFrom : formatFrom.stereo = false) (hmonoTo : formatTo.stereo = false)
    (hp : ProducerOk cb formatFrom)
    (hcreate : LanczosResampler.create Real.sin Real.pi formatFrom formatTo a = some s0)
    (hreach : fillFragments cb s0 lengths = some (s, wss))
    (hfrag : s.myCurrentFragment.isSome = true)
    (hbuf : s.myBuffer = some ⟨List.replicate (2 * a) v⟩) :
    (∃ t, outputSample cb s i = some (t, [(i, v * (selectedKernel s).sum)])) ∧
      (s.myCurrentKernelIndex = 0 →
        selectedKernel s = List.replicate (a - 1) 0 ++ (3 / 4 : ℝ) :: List.replicate a 0 ∧
        (selectedKernel s).sum = 3 / 4 ∧
        ∃ t, outputSample cb s i = some (t, [(i, 3 / 4 * v)])) := by
  obtain ⟨hw0, hf0, ht0, -, -⟩ := create_safe hcreate hto hfrom32 hto32 hfs
  obtain ⟨hK0, hrow0⟩ := created_passthrough_kernel hcreate hto hfrom32 hto32 hfs ha h2a
  obtain ⟨t1, wss1, hrun, hw, hcfg⟩ := fillFragments_reach cb lengths s0 hw0
    (by rw [hf0]; exact hp)
  rw [hreach] at hrun
  simp only [Option.some.injEq, Prod.mk.injEq] at hrun
  have hst : t1 = s := hrun.1.symm
  subst hst
  have hK : t1.myKernelSize = 2 * a := by rw [hcfg.2.2.2.1, hK0]
  have hmf : t1.myFormatFrom.stereo = false := by rw [hcfg.1, hf0]; exact hmonoFrom
  have hmt : t1.myFormatTo.stereo = false := by rw [hcfg.2.1, ht0]; exact hmonoTo
  obtain ⟨t, ws, hout, -, -, -⟩ := outputSample_safe cb t1 i hw
    (by rw [hcfg.1, hf0]; exact hp) hfrag
  obtain ⟨b, hb, hconv⟩ := convolveSample_mono_mono t1 hw i hmf hmt
  rw [hbuf] at hb
  injection hb with hb
  subst hb
  have hsel : (selectedKernel t1).length ≤ 2 * a := by
    unfold selectedKernel
    rw [List.length_take, hK]
    omega
  rw [outputSample_writes hout] at hconv
  injection hconv with hconv
  rw [dotProduct_replicate v _ _ hsel] at hconv
  have hfirst : outputSample cb t1 i = some (t, [(i, v * (selectedKernel t1).sum)]) := by
    rw [hout, hconv]
  refine ⟨⟨t, hfirst⟩, fun hidx => ?_⟩
  have hk0 : selectedKernel t1
      = List.replicate (a - 1) 0 ++ (3 / 4 : ℝ) :: List.replicate a 0 := by
    unfold selectedKernel
    rw [hidx, hcfg.2.2.2.2.2, hcfg.2.2.2.1]
    exact hrow0
  have hsum : (selectedKernel t1).sum = 3 / 4 := by
    rw [hk0]
    simp
  refine ⟨hk0, hsum, t, ?_⟩
  rw [hfirst, hsum, mul_comm]

theorem dcProducer_ok : ProducerOk dcProducer passthroughFormat := by
  intro k frag h
  simp only [dcProducer, Option.some.injEq] at h
  subst h
  rfl

theorem warmEngine_reached :
    fillFragments dcProducer (singleKernelEngine ℝ passthroughFormat) [2]
      = some (warmEngine ℝ, [[(0, 0), (1, 0)]]) := by
  simp [fillFragments, fillFragment, recoverFromUnderrun, singleKernelEngine, warmEngine,
    passthroughFormat, dcProducer, fillLoop, outputSample, convolveSample,
    ConvolutionBuffer.convoluteWith, dotProduct, shiftSamples, pushSample, advanceCursor,
    u32, ConvolutionBuffer.shift]

theorem dc_gain_witness :
    (∃ t, outputSample dcProducer (warmEngine ℝ) 7
        = some (t, [(7, 1 * (selectedKernel (warmEngine ℝ)).sum)])) ∧
      ((warmEngine ℝ).myCurrentKernelIndex = 0 →
        selectedKernel (warmEngine ℝ)
          = List.replicate (1 - 1) 0 ++ (3 / 4 : ℝ) :: List.replicate 1 0 ∧
        (selectedKernel (warmEngine ℝ)).sum = 3 / 4 ∧
        ∃ t, outputSample dcProducer (warmEngine ℝ) 7 = some (t, [(7, 3 / 4 * 1)])) :=
  dc_gain passthroughFormat passthroughFormat 1 dcProducer
    (singleKernelEngine ℝ passthroughFormat) (warmEngine ℝ) [2] [[(0, 0), (1, 0)]] 1 7
    (by decide) (by decide) (by decide) (by decide) (by decide) (by decide) rfl rfl
    dcProducer_ok singleKernelEngine_created_one warmEngine_reached rfl rfl

/-- C15 (counterexample): real arithmetic, mono, source rate 1, target rate 2,
`a = 1`, constant input `32767` (normalised value 1). The constructor computes the
kernels `[0.75, 0]` and `[3/π², 3/π²]`. After `fillFragment` with `length = 5` the
buffer holds two copies of `1` and phase 1/2 is next; the next output sample is
`6/π²` (about `0.608`), the sum of the second snapshot, which is farther than
`1e-3` from `0.75 * 1`. -/
theorem dc_gain_off_phase :
    LanczosResampler.create Real.sin Real.pi passthroughFormat exampleTo 1
      = some (upsamplingEngine ℝ (3 / Real.pi ^ 2)) ∧
    fillFragment dcProducer (upsamplingEngine ℝ (3 / Real.pi ^ 2)) 5
      = some (warmUpsamplingEngine ℝ (3 / Real.pi ^ 2),
          [(0, 0), (1, 0), (2, 0), (3, 3 / Real.pi ^ 2), (4, 3 / 4)]) ∧
    (warmUpsamplingEngine ℝ (3 / Real.pi ^ 2)).myBuffer = some ⟨List.replicate (2 * 1) 1⟩ ∧
    (selectedKernel (warmUpsamplingEngine ℝ (3 / Real.pi ^ 2))).sum = 6 / Real.pi ^ 2 ∧
    (∃ t, fillFragment dcProducer (warmUpsamplingEngine ℝ (3 / Real.pi ^ 2)) 1
      = some (t, [(0, 6 / Real.pi ^ 2)])) ∧
    (1 / 1000 : ℝ) < |6 / Real.pi ^ 2 - 0.75 * 1| := by
  have hpi : Real.pi ≠ 0 := Real.pi_ne_zero
  refine ⟨upsamplingEngine_created, ?_, rfl, ?_, ?_, ?_⟩
  · simp [fillFragment, recoverFromUnderrun, singleKernelEngine, upsamplingEngine,
      warmUpsamplingEngine, passthroughFormat, exampleTo,
      dcProducer, fillLoop, outputSample, convolveSample,
      ConvolutionBuffer.convoluteWith, dotProduct, shiftSamples, pushSample, advanceCursor,
      u32, ConvolutionBuffer.shift]
  · simp [selectedKernel, warmUpsamplingEngine, upsamplingEngine, singleKernelEngine, u32]
    field_simp
    norm_num
  · simp [fillFragment, recoverFromUnderrun, singleKernelEngine, upsamplingEngine,
      warmUpsamplingEngine, passthroughFormat, exampleTo,
      dcProducer, fillLoop, outputSample, convolveSample,
      ConvolutionBuffer.convoluteWith, dotProduct, shiftSamples, pushSample, advanceCursor,
      u32, ConvolutionBuffer.shift]
    field_simp
    norm_num
  · have h3 : (3 : ℝ) < Real.pi := Real.pi_gt_three
    have h9 : (9 : ℝ) < Real.pi ^ 2 := by nlinarith
    have hlt : 6 / Real.pi ^ 2 < (2 / 3 : ℝ) := by
      rw [div_lt_iff₀ (by positivity)]
      linarith
    rw [abs_of_neg (by linarith)]
    linarith

end ClaimsDcGain

/-! ### Passthrough at equal rates -/

section PassthroughLemmas

variable {F : Type}

/-- Quotient and remainder of `k + 1`. -/
theorem succ_div_mod (k size : Nat) (hsize : 0 < size) :
    (k % size + 1 = size → (k + 1) / size = k / size + 1 ∧ (k + 1) % size = 0) ∧
    (k % size + 1 ≠ size → (k + 1) / size = k / size ∧ (k + 1) % size = k % size + 1) := by
  have hdm := Nat.div_add_mod k size
  have hlt := Nat.mod_lt k hsize
  constructor
  · intro h
    apply (Nat.div_mod_unique hsize).mpr
    refine ⟨?_, hsize⟩
    rw [Nat.mul_add, Nat.mul_one]
    omega
  · intro h
    apply (Nat.div_mod_unique hsize).mpr
    refine ⟨?_, by omega⟩
    omega

/-- Pushing input sample `k` turns the window before sample `k` into the window
before sample `k + 1`. -/
theorem window_shift [Field F] (f : Nat → F) (n k : Nat) :
    (((List.replicate n (0 : F) ++ (List.range k).map f).drop k) ++ [f k]).drop 1
      = (List.replicate n 0 ++ (List.range (k + 1)).map f).drop (k + 1) := by
  rw [List.range_succ, List.map_append, List.map_singleton, ← List.append_assoc,
    ← List.drop_append_of_le_length (by simp), List.drop_drop]

/-- Tap `a - 1` of the window before input sample `k`. -/
theorem window_tap [Field F] (f : Nat → F) (a k : Nat) (ha : 1 ≤ a) :
    (((List.replicate (2 * a) (0 : F) ++ (List.range k).map f).drop k)[a - 1]?).getD 0
      = if k < a + 1 then 0 else f (k - a - 1) := by
  rw [List.getElem?_drop]
  by_cases hk : k < a + 1
  · rw [if_pos hk, List.getElem?_append_left (by simp; omega), List.getElem?_replicate,
      if_pos (by omega)]
    rfl
  · rw [if_neg hk, List.getElem?_append_right (by simp; omega), List.length_replicate,
      List.getElem?_map, List.getElem?_range (by omega)]
    simp only [Option.map_some', Option.getD_some]
    congr 1
    omega

end PassthroughLemmas

section PassthroughStep

variable {F : Type}

/-- The convolution of a streaming state: the value named by the passthrough
property for the output sample that is next. -/
theorem convolveSample_streaming [Field F] (cb : Producer) (size a : Nat)
    (s : LanczosResampler F) (i : Nat) (ha : 1 ≤ a) (hs : Streaming cb size a s) :
    convolveSample s (u32 (s.myCurrentKernelIndex * s.myKernelSize)) i
      = some [(i, delayedOutput F cb size a s.outputSamples)] := by
  have hlen : ((List.replicate (2 * a) (0 : F) ++
      (List.range s.outputSamples).map
        (fun n => (inputSample cb size n : F) / 32767)).drop s.outputSamples).length
      = 2 * a := by
    simp
  have htab : (List.replicate (a - 1) 0 ++ (3 / 4 : F) :: List.replicate a 0).length
      = 2 * a := by
    simp
    omega
  have hoff : u32 (s.myCurrentKernelIndex * s.myKernelSize) = 0 := by
    rw [hs.kernelIndex]
    simp [u32]
  unfold convolveSample
  simp only [hs.monoFrom, hs.monoTo, Bool.false_eq_true, if_false, hs.buffer, hoff,
    ConvolutionBuffer.convoluteWith, hs.kernels, hlen, htab, Nat.zero_add, le_refl, if_true,
    List.drop_zero]
  rw [List.take_of_length_le (by rw [htab]), dotProduct_delta, window_tap _ a _ ha]
  unfold delayedOutput
  split
  · simp
  · ring_nf

/-- One shift of a streaming state: input sample `outputSamples` is pushed, and the
cursor moves on, into the next fragment at the end of the current one. -/
theorem shiftSamples_streaming [Field F] (cb : Producer) (size : Nat)
    (s : LanczosResampler F) (b : ConvolutionBuffer F) (k : Nat)
    (hsize : 0 < size) (hsize32 : size < 4294967296)
    (hfull : ∀ j, ∃ frag, cb j = some frag ∧ frag.length = size)
    (hmono : s.myFormatFrom.stereo = false) (hsz : s.myFormatFrom.fragmentSize = size)
    (hb : s.myBuffer = some b) (hfr : s.myCurrentFragment = cb (k / size))
    (hcur : s.myFragmentIndex = k % size) (hpulls : s.pulls = k / size + 1)
    (hu : s.myIsUnderrun = false) :
    ∃ t, shiftSamples cb 1 s = some t ∧ SameTimebase s t ∧
      t.myBuffer = some (b.shift ((inputSample cb size k : F) / 32767)) ∧
      t.myCurrentFragment = cb ((k + 1) / size) ∧ t.myFragmentIndex = (k + 1) % size ∧
      t.pulls = (k + 1) / size + 1 ∧ t.myIsUnderrun = false := by
  obtain ⟨frag, hfrag, hlen⟩ := hfull (k / size)
  obtain ⟨next, hnext, -⟩ := hfull (k / size + 1)
  have hmod := Nat.mod_lt k hsize
  obtain ⟨hwrap, hstay⟩ := succ_div_mod k size hsize
  have hv : frag[s.myFragmentIndex]? = some (inputSample cb size k) := by
    rw [hcur]
    unfold inputSample
    rw [hfrag]
    simp only
    rw [List.getD_eq_getElem?_getD, List.getElem?_eq_getElem (by omega)]
    rfl
  have hpush : pushSample s
      = some { s with myBuffer := some (b.shift ((inputSample cb size k : F) / 32767)) } := by
    unfold pushSample
    rw [hfr, hfrag]
    simp only [hmono, Bool.false_eq_true, if_false, hb, hv]
  have hu32 : u32 (s.myFragmentIndex + 1) = k % size + 1 := by
    rw [hcur]
    exact u32_of_lt (by omega)
  by_cases hend : k % size + 1 = size
  · obtain ⟨hdiv, hrem⟩ := hwrap hend
    refine ⟨{ s with
        myBuffer := some (b.shift ((inputSample cb size k : F) / 32767))
        myFragmentIndex := 0
        pulls := s.pulls + 1
        myCurrentFragment := some next
        myIsUnderrun := false }, ?_, ?_, rfl, ?_, ?_, ?_, rfl⟩
    · simp only [shiftSamples, hpush, advanceCursor, hu32, hsz, hend, le_refl, if_true,
        Nat.mod_self, hpulls, hnext]
      rw [if_neg (by omega)]
    · exact ⟨rfl, rfl, rfl, rfl, rfl, rfl, rfl, rfl, rfl, rfl⟩
    · rw [hdiv, hnext]
    · rw [hrem]
    · show s.pulls + 1 = (k + 1) / size + 1
      rw [hpulls, hdiv]
  · obtain ⟨hdiv, hrem⟩ := hstay hend
    refine ⟨{ s with
        myBuffer := some (b.shift ((inputSample cb size k : F) / 32767))
        myFragmentIndex := k % size + 1 }, ?_, ?_, rfl, ?_, ?_, ?_, hu⟩
    · simp only [shiftSamples, hpush, advanceCursor, hu32, hsz]
      rw [if_neg (by omega)]
    · exact ⟨rfl, rfl, rfl, rfl, rfl, rfl, rfl, rfl, rfl, rfl⟩
    · show s.myCurrentFragment = cb ((k + 1) / size)
      rw [hdiv, hfr]
    · rw [hrem]
    · show s.pulls = (k + 1) / size + 1
      rw [hpulls, hdiv]

end PassthroughStep

section PassthroughRun

variable {F : Type}

/-- One iteration of the loop of `fillFragment` from a streaming state: it assigns
the value named by the passthrough property and ends in a streaming state with
one more output sample. -/
theorem outputSample_streaming [Field F] (cb : Producer) (size a : Nat)
    (s : LanczosResampler F) (i : Nat) (ha : 1 ≤ a)
    (hsize : 0 < size) (hsize32 : size < 4294967296)
    (hfull : ∀ j, ∃ frag, cb j = some frag ∧ frag.length = size)
    (hs : Streaming cb size a s) :
    ∃ t, outputSample cb s i
        = some (t, [(i, delayedOutput F cb size a s.outputSamples)]) ∧
      Streaming cb size a t ∧ t.outputSamples = s.outputSamples + 1 := by
  have hconv := convolveSample_streaming cb size a s i ha hs
  have hr := hs.rate_pos
  have hr32 := hs.rate_lt
  have htime : u32 (s.myTimeIndex + s.myFormatFrom.sampleRate) = s.myFormatTo.sampleRate := by
    rw [hs.time, hs.rates, Nat.zero_add]
    exact u32_of_lt hr32
  obtain ⟨t, hshift, hframe, hbuf, hfrag, hcur, hpulls, hu⟩ := shiftSamples_streaming cb size
    { s with
      myCurrentKernelIndex := u32 (s.myCurrentKernelIndex + 1) % s.myPrecomputedKernelCount
      myTimeIndex := u32 (s.myTimeIndex + s.myFormatFrom.sampleRate) % s.myFormatTo.sampleRate
      outputSamples := s.outputSamples + 1
      shiftRequests := s.shiftRequests
        + u32 (s.myTimeIndex + s.myFormatFrom.sampleRate) / s.myFormatTo.sampleRate }
    _ s.outputSamples hsize hsize32 hfull hs.monoFrom hs.size_eq hs.buffer hs.fragment
    hs.cursor hs.pulls hs.underrun
  refine ⟨t, ?_, ?_, ?_⟩
  · unfold outputSample
    have hc1 : convolveSample
        { s with
          myCurrentKernelIndex :=
            u32 (s.myCurrentKernelIndex + 1) % s.myPrecomputedKernelCount }
        (u32 (s.myCurrentKernelIndex * s.myKernelSize)) i
        = some [(i, delayedOutput F cb size a s.outputSamples)] := hconv
    rw [if_neg (by rw [hs.kernelCount]; decide)]
    simp only [hc1, htime, Nat.div_self hr, Nat.mod_self]
    rw [if_neg (by omega), if_neg (by decide)]
    simp only [htime, Nat.div_self hr, Nat.mod_self] at hshift
    rw [hshift]
  · obtain ⟨e1, e2, e3, e4, -, e6, e7, e8, e9, -⟩ := hframe
    simp only at e1 e2 e3 e4 e6 e7 e8 e9
    exact
      { monoFrom := by rw [e1]; exact hs.monoFrom
        monoTo := by rw [e2]; exact hs.monoTo
        rates := by rw [e1, e2]; exact hs.rates
        rate_pos := by rw [e2]; exact hr
        rate_lt := by rw [e2]; exact hr32
        size_eq := by rw [e1]; exact hs.size_eq
        kernelCount := by rw [e3]; exact hs.kernelCount
        kernelSize := by rw [e4]; exact hs.kernelSize
        kernels := by rw [e6]; exact hs.kernels
        kernelIndex := by rw [e7, hs.kernelCount]; exact Nat.mod_one _
        time := by rw [e8, htime]; exact Nat.mod_self _
        underrun := hu
        buffer := by
          rw [hbuf, e9]
          simp only [ConvolutionBuffer.shift]
          rw [window_shift (fun n => (inputSample cb size n : F) / 32767)]
        fragment := by rw [hfrag, e9]
        cursor := by rw [hcur, e9]
        pulls := by rw [hpulls, e9] }
  · exact hframe.2.2.2.2.2.2.2.2.1

/-- The loop of `fillFragment` from a streaming state. -/
theorem fillLoop_streaming [Field F] (cb : Producer) (size a : Nat) (ha : 1 ≤ a)
    (hsize : 0 < size) (hsize32 : size < 4294967296)
    (hfull : ∀ j, ∃ frag, cb j = some frag ∧ frag.length = size) (count : Nat) :
    ∀ (i : Nat) (s : LanczosResampler F), Streaming cb size a s →
      ∃ t, fillLoop cb count i s
          = some (t, (List.range count).map
              (fun j => (i + j, delayedOutput F cb size a (s.outputSamples + j)))) ∧
        Streaming cb size a t ∧ t.outputSamples = s.outputSamples + count := by
  induction count with
  | zero =>
    intro i s hs
    exact ⟨s, rfl, hs, rfl⟩
  | succ count ih =>
    intro i s hs
    obtain ⟨s1, h1, hs1, ho1⟩ := outputSample_streaming cb size a s i ha hsize hsize32 hfull hs
    obtain ⟨t, h2, hst, hot⟩ := ih (i + 1) s1 hs1
    have hcount : t.outputSamples = s.outputSamples + (count + 1) := by omega
    refine ⟨t, ?_, hst, hcount⟩
    simp only [fillLoop, h1, h2, List.range_succ_eq_map, List.map_cons, List.map_map,
      Nat.add_zero, List.singleton_append, Option.some.injEq, Prod.mk.injEq, true_and,
      List.cons.injEq]
    apply List.map_congr_left
    intro j _
    simp only [Function.comp, ho1, Prod.mk.injEq]
    refine ⟨by omega, ?_⟩
    congr 1
    omega

/-- Every sequence of `fillFragment` calls from a streaming state makes the
assignments named by the passthrough property. -/
theorem fillFragments_streaming [Field F] (cb : Producer) (size a : Nat) (ha : 1 ≤ a)
    (hsize : 0 < size) (hsize32 : size < 4294967296)
    (hfull : ∀ j, ∃ frag, cb j = some frag ∧ frag.length = size) (lengths : List Nat) :
    ∀ (s : LanczosResampler F), Streaming cb size a s →
      ∃ t, fillFragments cb s lengths
        = some (t, passthroughWrites F cb size a s.outputSamples lengths) := by
  induction lengths with
  | nil =>
    intro s _
    exact ⟨s, rfl⟩
  | cons length rest ih =>
    intro s hs
    obtain ⟨s1, h1, hs1, ho1⟩ := fillLoop_streaming cb size a ha hsize hsize32 hfull length 0 s hs
    obtain ⟨t, h2⟩ := ih s1 hs1
    have hcall : fillFragment cb s length
        = some (s1, (List.range length).map
            (fun j => (j, delayedOutput F cb size a (s.outputSamples + j)))) := by
      obtain ⟨frag, hfrag, -⟩ := hfull (s.outputSamples / size)
      have hcur : s.myCurrentFragment = some frag := hs.fragment.trans hfrag
      simp only [fillFragment, recoverFromUnderrun, hs.underrun, Bool.false_eq_true, if_false,
        hcur, hs.monoTo, h1, Nat.zero_add]
    refine ⟨t, ?_⟩
    simp only [fillFragments, hcall, passthroughWrites]
    rw [ho1] at h2
    rw [h2]

end PassthroughRun

section ClaimsPassthrough

/-- C19: real arithmetic, mono to mono, equal positive 32-bit rates, kernel
half-width `a ≥ 1` with `2a < 2^32`, and a producer that always hands out a
fragment of `fragmentSize` samples. The constructed engine has one kernel of `2a`
coefficients, `0.75` at tap `a - 1` and `0` at every other tap, and every sequence
of `fillFragment` calls is defined and assigns to output sample `k` (counted
across the calls) `0` for `k < a + 1` and otherwise `0.75` times the normalised
input sample `k - a - 1`. -/
theorem passthrough_delay (formatFrom formatTo : Format) (a : Nat) (cb : Producer)
    (lengths : List Nat) (s0 : LanczosResampler ℝ)
    (hrates : formatFrom.sampleRate = formatTo.sampleRate)
    (hr : 0 < formatTo.sampleRate) (hr32 : formatTo.sampleRate < 4294967296)
    (hmonoFrom : formatFrom.stereo = false) (hmonoTo : formatTo.stereo = false)
    (hsize : 0 < formatFrom.fragmentSize) (hsize32 : formatFrom.fragmentSize < 4294967296)
    (ha : 1 ≤ a) (h2a : 2 * a < 4294967296)
    (hfull : ∀ j, ∃ frag, cb j = some frag ∧ frag.length = formatFrom.fragmentSize)
    (hcreate : LanczosResampler.create Real.sin Real.pi formatFrom formatTo a = some s0) :
    (s0.myPrecomputedKernelCount = 1 ∧ s0.myKernelSize = 2 * a ∧
      s0.myPrecomputedKernels
        = List.replicate (a - 1) 0 ++ (3 / 4 : ℝ) :: List.replicate a 0) ∧
    ∃ t, fillFragments cb s0 lengths
      = some (t, passthroughWrites ℝ cb formatFrom.fragmentSize a 0 lengths) := by
  have hfrom : 0 < formatFrom.sampleRate := by rw [hrates]; exact hr
  have hfrom32 : formatFrom.sampleRate < 4294967296 := by rw [hrates]; exact hr32
  obtain ⟨-, -, hf0, ht0, hN0, hidx0, ho0⟩ :=
    create_wellFormed hcreate hfrom hr hfrom32 hr32 hsize
  obtain ⟨-, -, -, hlen0, -⟩ := create_safe hcreate hr hfrom32 hr32 hsize
  obtain ⟨hK0, hrow0⟩ := created_passthrough_kernel hcreate hr hfrom32 hr32 hsize ha h2a
  have hN : s0.myPrecomputedKernelCount = 1 := by
    rw [hN0, hrates, Nat.gcd_self]
    exact Nat.div_self hr
  have htab : s0.myPrecomputedKernels
      = List.replicate (a - 1) 0 ++ (3 / 4 : ℝ) :: List.replicate a 0 := by
    have hoff : u32 (0 * s0.myKernelSize) = 0 := by simp [u32]
    rw [hoff, List.drop_zero, List.take_of_length_le (by rw [hlen0, hN]; omega)] at hrow0
    exact hrow0
  refine ⟨⟨hN, hK0, htab⟩, ?_⟩
  obtain ⟨count, kernels, -, -, hs0⟩ := create_eq hcreate
  have hbuf0 : s0.myBuffer = some ⟨List.replicate (2 * a) 0⟩ := by
    rw [hs0]
    simp only [hmonoFrom, Bool.false_eq_true, if_false, ConvolutionBuffer.create,
      u32_of_lt h2a]
  have hu0 : s0.myIsUnderrun = true := by rw [hs0]
  have hp0 : s0.pulls = 0 := by rw [hs0]
  have htime0 : s0.myTimeIndex = 0 := by rw [hs0]
  cases lengths with
  | nil => exact ⟨s0, rfl⟩
  | cons length rest =>
    obtain ⟨frag, hfrag, -⟩ := hfull 0
    have hrec := fillFragment_recovers cb s0 length frag hu0 (by rw [hp0]; exact hfrag)
    have hstream : Streaming cb formatFrom.fragmentSize a
        { s0 with
          pulls := s0.pulls + 1
          myCurrentFragment := some frag
          myFragmentIndex := 0
          myIsUnderrun := false } :=
      { monoFrom := by rw [← hf0] at hmonoFrom; exact hmonoFrom
        monoTo := by rw [← ht0] at hmonoTo; exact hmonoTo
        rates := by
          show s0.myFormatFrom.sampleRate = s0.myFormatTo.sampleRate
          rw [hf0, ht0]
          exact hrates
        rate_pos := by
          show 0 < s0.myFormatTo.sampleRate
          rw [ht0]
          exact hr
        rate_lt := by
          show s0.myFormatTo.sampleRate < 4294967296
          rw [ht0]
          exact hr32
        size_eq := by
          show s0.myFormatFrom.fragmentSize = formatFrom.fragmentSize
          rw [hf0]
        kernelCount := hN
        kernelSize := hK0
        kernels := htab
        kernelIndex := hidx0
        time := htime0
        underrun := rfl
        buffer := by
          show s0.myBuffer = _
          rw [hbuf0, ho0]
          simp
        fragment := by
          show some frag = cb (s0.outputSamples / formatFrom.fragmentSize)
          rw [ho0, Nat.zero_div, hfrag]
        cursor := by
          show 0 = s0.outputSamples % formatFrom.fragmentSize
          rw [ho0, Nat.zero_mod]
        pulls := by
          show s0.pulls + 1 = s0.outputSamples / formatFrom.fragmentSize + 1
          rw [hp0, ho0, Nat.zero_div] }
    obtain ⟨s1, h1, hs1, ho1⟩ := fillLoop_streaming cb formatFrom.fragmentSize a ha hsize
      hsize32 hfull length 0 _ hstream
    obtain ⟨t, h2⟩ := fillFragments_streaming cb formatFrom.fragmentSize a ha hsize hsize32
      hfull rest s1 hs1
    have hmt : s0.myFormatTo.stereo = false := by rw [ht0]; exact hmonoTo
    simp only [hmt, Bool.false_eq_true, if_false] at hrec
    have ho1 : s1.outputSamples = 0 + length := by
      rw [ho1]
      show s0.outputSamples + length = 0 + length
      rw [ho0]
    refine ⟨t, ?_⟩
    simp only [fillFragments, hrec, h1, passthroughWrites]
    rw [ho1] at h2
    rw [h2]
    simp only [ho0, Nat.zero_add]

theorem dcProducer_full (j : Nat) :
    ∃ frag, dcProducer j = some frag ∧ frag.length = passthroughFormat.fragmentSize :=
  ⟨[32767, 32767], rfl, rfl⟩

theorem passthrough_delay_witness :
    ((singleKernelEngine ℝ passthroughFormat).myPrecomputedKernelCount = 1 ∧
      (singleKernelEngine ℝ passthroughFormat).myKernelSize = 2 * 1 ∧
      (singleKernelEngine ℝ passthroughFormat).myPrecomputedKernels
        = List.replicate (1 - 1) 0 ++ (3 / 4 : ℝ) :: List.replicate 1 0) ∧
    ∃ t, fillFragments dcProducer (singleKernelEngine ℝ passthroughFormat) [3, 2]
      = some (t, passthroughWrites ℝ dcProducer passthroughFormat.fragmentSize 1 0 [3, 2]) :=
  passthrough_delay passthroughFormat passthroughFormat 1 dcProducer [3, 2]
    (singleKernelEngine ℝ passthroughFormat) rfl (by decide) (by decide) rfl rfl (by decide)
    (by decide) (by decide) (by decide) dcProducer_full singleKernelEngine_created_one

end ClaimsPassthrough

/-! ### Termination of `reducedDenominator` -/

section Termination

/-- From `n = d = 0` and a counter above 1 the loop never leaves: every test finds
`0 % i == 0`, divides, and the decrement of `min(0, 0)` wraps to `2^32 - 1`. The
function never gets there, because it enters the loop with `i = min(n, d) = 0`. -/
theorem reducedDenominatorLoop_zero_diverges (fuel : Nat) :
    ∀ i, 1 < i → reducedDenominatorLoop fuel 0 0 i = none := by
  induction fuel with
  | zero =>
    intro i _
    rfl
  | succ fuel ih =>
    intro i hi
    unfold reducedDenominatorLoop
    rw [if_pos hi, if_pos ⟨Nat.zero_mod _, Nat.zero_mod _⟩]
    simp only [Nat.zero_div, Nat.min_self, Nat.zero_add]
    exact ih _ (by decide)

/-- After a successful division the counter can go up: for `n = 10`, `d = 14` the
test at `i = 2` divides and continues at `i = min(5, 7) - 1 = 4`. -/
theorem reducedDenominatorLoop_upward (fuel : Nat) :
    reducedDenominatorLoop (fuel + 1) 10 14 2 = reducedDenominatorLoop fuel 5 7 4 := by
  simp [reducedDenominatorLoop, u32]

/-- C21: for every pair of 32-bit inputs, zero included, `reducedDenominator` returns
a value: the loop started at `i = min(n, d)` ends within any bound of more than
`2 * min(n, d)` loop tests (so also within the `n + d + 1` tests of the model),
with one and the same result for every such bound. The result is `d` itself when
`n = 0` (the loop is not entered) and `d / gcd(n, d)` otherwise, a 32-bit value. -/
theorem reducedDenominator_terminates (n d : Nat) (hn32 : n < 4294967296)
    (hd32 : d < 4294967296) :
    ∃ k, reducedDenominator n d = some k ∧
      k = (if n = 0 then d else d / Nat.gcd n d) ∧ k < 4294967296 ∧
      ∀ fuel, 2 * min n d < fuel → reducedDenominatorLoop fuel n d (min n d) = some k := by
  have hloop : ∀ fuel, 2 * min n d < fuel →
      reducedDenominatorLoop fuel n d (min n d)
        = some (if n = 0 then d else d / Nat.gcd n d) := by
    intro fuel hf
    obtain ⟨f, rfl⟩ : ∃ f, fuel = f + 1 := ⟨fuel - 1, by omega⟩
    rcases Nat.eq_zero_or_pos n with hn | hn
    · subst hn
      simp [reducedDenominatorLoop]
    · rw [if_neg (by omega)]
      rcases Nat.eq_zero_or_pos d with hd | hd
      · subst hd
        simp [reducedDenominatorLoop]
      · have hg : Nat.gcd n d ≤ min n d := by
          simp only [Nat.le_min]
          exact ⟨Nat.le_of_dvd hn (Nat.gcd_dvd_left n d),
            Nat.le_of_dvd hd (Nat.gcd_dvd_right n d)⟩
        exact reducedDenominatorLoop_search n d hn hd hn32 (min n d - Nat.gcd n d) (min n d)
          (f + 1) (by omega) (le_refl _) (by omega)
  have hmin1 : min n d ≤ n := Nat.min_le_left n d
  have hmin2 : min n d ≤ d := Nat.min_le_right n d
  have hle : (if n = 0 then d else d / Nat.gcd n d) ≤ d := by
    split
    · exact le_refl _
    · exact Nat.div_le_self _ _
  exact ⟨_, hloop (n + d + 1) (by omega), rfl, by omega, hloop⟩

theorem reducedDenominator_terminates_witness :
    ∃ k, reducedDenominator 10 14 = some k ∧
      k = (if 10 = 0 then 14 else 14 / Nat.gcd 10 14) ∧ k < 4294967296 ∧
      ∀ fuel, 2 * min 10 14 < fuel → reducedDenominatorLoop fuel 10 14 (min 10 14) = some k :=
  reducedDenominator_terminates 10 14 (by decide) (by decide)

end Termination

/-! ### The read position: what a shift does to cursor and pulls -/

section Position

variable {F : Type}

/-- The end of one iteration of `shiftSamples` moves the read position forward by
exactly one: the cursor advances by one modulo the fragment size, and the
callback is pulled exactly when the cursor reaches the end of the fragment. -/
theorem advanceCursor_position [Field F] {cb : Producer} {s t : LanczosResampler F}
    (h : advanceCursor cb s = some t)
    (hcur : s.myFragmentIndex < s.myFormatFrom.fragmentSize)
    (hsz : s.myFormatFrom.fragmentSize < 4294967296) :
    rawPosition t = rawPosition s + 1 ∧
      t.myFragmentIndex = (s.myFragmentIndex + 1) % s.myFormatFrom.fragmentSize ∧
      t.pulls = s.pulls
        + (if s.myFragmentIndex + 1 = s.myFormatFrom.fragmentSize then 1 else 0) ∧
      t.myFormatFrom = s.myFormatFrom := by
  have hu : u32 (s.myFragmentIndex + 1) = s.myFragmentIndex + 1 := u32_of_lt (by omega)
  unfold advanceCursor at h
  simp only [hu] at h
  split at h
  · rename_i hge
    have hge1 : s.myFormatFrom.fragmentSize ≤ s.myFragmentIndex + 1 := hge
    have heq : s.myFragmentIndex + 1 = s.myFormatFrom.fragmentSize := by omega
    rw [if_neg (by omega)] at h
    have hpos : rawPosition s + 1
        = (s.pulls + 1) * s.myFormatFrom.fragmentSize
          + (s.myFragmentIndex + 1) % s.myFormatFrom.fragmentSize := by
      rw [heq, Nat.mod_self, Nat.add_mul, Nat.one_mul, Nat.add_zero]
      unfold rawPosition
      omega
    split at h
    · injection h with h
      subst h
      exact ⟨hpos.symm, rfl, by rw [if_pos heq], rfl⟩
    · injection h with h
      subst h
      exact ⟨hpos.symm, rfl, by rw [if_pos heq], rfl⟩
  · rename_i hlt
    have hlt1 : ¬ s.myFormatFrom.fragmentSize ≤ s.myFragmentIndex + 1 := hlt
    injection h with h
    subst h
    refine ⟨?_, ?_, ?_, rfl⟩
    · show s.pulls * s.myFormatFrom.fragmentSize + (s.myFragmentIndex + 1) = rawPosition s + 1
      unfold rawPosition
      omega
    · show s.myFragmentIndex + 1 = (s.myFragmentIndex + 1) % s.myFormatFrom.fragmentSize
      exact (Nat.mod_eq_of_lt
        (show s.myFragmentIndex + 1 < s.myFormatFrom.fragmentSize by omega)).symm
    · rw [if_neg (by omega)]
      rfl

/-- Method `shiftSamples(n)` moves the read position forward by exactly `n`. -/
theorem shiftSamples_position [Field F] (cb : Producer) (n : Nat) :
    ∀ (s t : LanczosResampler F), shiftSamples cb n s = some t →
      s.myFragmentIndex < s.myFormatFrom.fragmentSize →
      s.myFormatFrom.fragmentSize < 4294967296 →
      rawPosition t = rawPosition s + n ∧
        t.myFragmentIndex < t.myFormatFrom.fragmentSize ∧
        t.myFormatFrom = s.myFormatFrom := by
  induction n with
  | zero =>
    intro s t h hcur _
    simp only [shiftSamples, Option.some.injEq] at h
    subst h
    exact ⟨rfl, hcur, rfl⟩
  | succ n ih =>
    intro s t h hcur hsz
    unfold shiftSamples at h
    split at h
    · exact absurd h (by simp)
    · rename_i s1 h1
      split at h
      · exact absurd h (by simp)
      · rename_i s2 h2
        obtain ⟨hs1, -, hidx1, -, hpl1, -⟩ := pushSample_frame h1
        have hcur1 : s1.myFragmentIndex < s1.myFormatFrom.fragmentSize := by
          rw [hidx1, hs1.1]
          exact hcur
        have hsz1 : s1.myFormatFrom.fragmentSize < 4294967296 := by
          rw [hs1.1]
          exact hsz
        obtain ⟨hpos2, hidx2, -, hf2⟩ := advanceCursor_position h2 hcur1 hsz1
        have hcur2 : s2.myFragmentIndex < s2.myFormatFrom.fragmentSize := by
          rw [hidx2, hf2]
          exact Nat.mod_lt _ (by omega)
        obtain ⟨hpos3, hcur3, hf3⟩ := ih s2 t h hcur2 (by rw [hf2]; exact hsz1)
        have hp1 : rawPosition s1 = rawPosition s := by
          unfold rawPosition
          rw [hpl1, hs1.1, hidx1]
        refine ⟨?_, hcur3, by rw [hf3, hf2, hs1.1]⟩
        rw [hpos3, hpos2, hp1]
        omega

/-- One iteration of the loop of `fillFragment` is the convolution followed by
`shiftSamples(samplesToShift)` on the state with the updated timebase. -/
theorem outputSample_shift [Field F] {cb : Producer} {s t : LanczosResampler F} {i : Nat}
    {ws : List (Write F)} (h : outputSample cb s i = some (t, ws)) :
    shiftSamples cb
        (u32 (s.myTimeIndex + s.myFormatFrom.sampleRate) / s.myFormatTo.sampleRate)
        { s with
          myCurrentKernelIndex :=
            u32 (s.myCurrentKernelIndex + 1) % s.myPrecomputedKernelCount
          myTimeIndex :=
            u32 (s.myTimeIndex + s.myFormatFrom.sampleRate) % s.myFormatTo.sampleRate
          outputSamples := s.outputSamples + 1
          shiftRequests := s.shiftRequests
            + u32 (s.myTimeIndex + s.myFormatFrom.sampleRate) / s.myFormatTo.sampleRate }
      = some t := by
  unfold outputSample at h
  simp only at h
  split at h
  · exact absurd h (by simp)
  · split at h
    · exact absurd h (by simp)
    · split at h
      · exact absurd h (by simp)
      · rename_i hB
        have hB0 : 0 < s.myFormatTo.sampleRate := Nat.pos_of_ne_zero hB
        split at h
        · rename_i h0
          simp only [Option.some.injEq, Prod.mk.injEq] at h
          obtain ⟨rfl, -⟩ := h
          have hlt := (Nat.div_eq_zero_iff hB0).mp h0
          rw [h0, Nat.mod_eq_of_lt hlt]
          rfl
        · split at h
          · exact absurd h (by simp)
          · rename_i s3 h3
            simp only [Option.some.injEq, Prod.mk.injEq] at h
            obtain ⟨rfl, -⟩ := h
            exact h3

/-- One iteration of the loop of `fillFragment` moves the read position forward by
`samplesToShift`, the number it adds to the count of requested shifts. -/
theorem outputSample_position [Field F] {cb : Producer} {s t : LanczosResampler F} {i : Nat}
    {ws : List (Write F)} (h : outputSample cb s i = some (t, ws))
    (hcur : s.myFragmentIndex < s.myFormatFrom.fragmentSize)
    (hsz : s.myFormatFrom.fragmentSize < 4294967296) :
    ∃ n, rawPosition t = rawPosition s + n ∧ t.shiftRequests = s.shiftRequests + n ∧
      n = u32 (s.myTimeIndex + s.myFormatFrom.sampleRate) / s.myFormatTo.sampleRate ∧
      t.myFragmentIndex < t.myFormatFrom.fragmentSize ∧
      t.myFormatFrom = s.myFormatFrom := by
  obtain ⟨hpos, hcur1, hf1⟩ := shiftSamples_position cb _ _ _ (outputSample_shift h) hcur hsz
  exact ⟨_, hpos, (outputSample_timebase h).2.2.2.2, rfl, hcur1, hf1⟩

/-- The loop of `fillFragment` moves the read position forward by the number of
shifts it requests. -/
theorem fillLoop_position [Field F] (cb : Producer) (count : Nat) :
    ∀ (i : Nat) (s t : LanczosResampler F) (ws : List (Write F)),
      fillLoop cb count i s = some (t, ws) →
      s.myFragmentIndex < s.myFormatFrom.fragmentSize →
      s.myFormatFrom.fragmentSize < 4294967296 →
      ∃ n, rawPosition t = rawPosition s + n ∧ t.shiftRequests = s.shiftRequests + n := by
  induction count with
  | zero =>
    intro i s t ws h _ _
    simp only [fillLoop, Option.some.injEq, Prod.mk.injEq] at h
    obtain ⟨rfl, -⟩ := h
    exact ⟨0, rfl, rfl⟩
  | succ count ih =>
    intro i s t ws h hcur hsz
    unfold fillLoop at h
    split at h
    · exact absurd h (by simp)
    · rename_i s1 ws1 h1
      split at h
      · exact absurd h (by simp)
      · rename_i s2 rest h2
        simp only [Option.some.injEq, Prod.mk.injEq] at h
        obtain ⟨rfl, -⟩ := h
        obtain ⟨n1, hp1, hr1, -, hcur1, hf1⟩ := outputSample_position h1 hcur hsz
        obtain ⟨n2, hp2, hr2⟩ := ih _ _ _ _ h2 hcur1 (by rw [hf1]; exact hsz)
        exact ⟨n1 + n2, by omega, by omega⟩

end Position

section ObservedRuns

variable {F : Type}

/-- What one `fillFragment` call is observed to do, against the counters of the
state: the output samples it writes on the convolution path are the increase of
`outputSamples`, and the advance of the read position after the pull at the top
is the increase of `shiftRequests`. -/
theorem fillFragment_observed [Field F] (cb : Producer) (s : LanczosResampler F)
    (length : Nat) (hw : WellFormed s) (hp : ProducerOk cb s.myFormatFrom)
    (hsz : s.myFormatFrom.fragmentSize < 4294967296) :
    ∃ t ws, fillFragment cb s length = some (t, ws) ∧ WellFormed t ∧ SameConfig s t ∧
      t.outputSamples = s.outputSamples
        + (if (recoverFromUnderrun cb s).myCurrentFragment.isSome then
            ws.length / (if s.myFormatTo.stereo then 2 else 1) else 0) ∧
      t.shiftRequests = s.shiftRequests
        + (rawPosition t - rawPosition (recoverFromUnderrun cb s)) := by
  have hw1 := recoverFromUnderrun_safe cb s hw hp
  have hs1 := recoverFromUnderrun_frame cb s
  obtain ⟨t, ws, h, hwt, hcfg, -⟩ := fillFragment_safe cb s length hw hp
  refine ⟨t, ws, h, hwt, hcfg, ?_⟩
  unfold fillFragment at h
  simp only at h
  split at h
  · rename_i hnone
    simp only [Option.some.injEq, Prod.mk.injEq] at h
    obtain ⟨rfl, -⟩ := h
    rw [hnone]
    exact ⟨hs1.2.2.2.2.2.2.2.2.1, by rw [Nat.sub_self]; exact hs1.2.2.2.2.2.2.2.2.2⟩
  · rename_i frag hsome
    rw [hsome]
    have hlen := fillLoop_length cb _ _ _ _ _ h
    have hcount := fillLoop_count cb _ _ _ _ _ h
    obtain ⟨n, hpos, hreq⟩ := fillLoop_position cb _ _ _ _ _ h hw1.cursor_lt
      (by rw [hs1.1]; exact hsz)
    rw [hs1.2.1] at hlen
    rw [hs1.2.2.2.2.2.2.2.2.1] at hcount
    rw [hs1.2.2.2.2.2.2.2.2.2] at hreq
    refine ⟨?_, by rw [hreq, hpos]; omega⟩
    simp only [Option.isSome_some, if_true]
    rw [hcount, hlen, hs1.2.1]
    congr 1
    rw [Nat.mul_div_cancel]
    split <;> decide

/-- Every sequence of `fillFragment` calls from a well-formed state is defined, and
what it is observed to do agrees with the counters of the state: the output
samples written on the convolution path are the increase of `outputSamples`, and
the raw samples shifted are the increase of `shiftRequests`. -/
theorem observedRun_counters [Field F] (cb : Producer) (lengths : List Nat) :
    ∀ (s : LanczosResampler F), WellFormed s → ProducerOk cb s.myFormatFrom →
      s.myFormatFrom.fragmentSize < 4294967296 →
      ∃ t wss k m, fillFragments cb s lengths = some (t, wss) ∧
        observedRun cb s lengths = some (t, wss, k, m) ∧
        t.outputSamples = s.outputSamples + k ∧ t.shiftRequests = s.shiftRequests + m := by
  induction lengths with
  | nil =>
    intro s _ _ _
    exact ⟨s, [], 0, 0, rfl, rfl, rfl, rfl⟩
  | cons length rest ih =>
    intro s hw hp hsz
    obtain ⟨s1, ws, h1, hw1, hc1, ho1, hr1⟩ := fillFragment_observed cb s length hw hp hsz
    obtain ⟨t, wss, k, m, h2, h3, ho2, hr2⟩ := ih s1 hw1 (by rw [hc1.1]; exact hp)
      (by rw [hc1.1]; exact hsz)
    refine ⟨t, ws :: wss,
      (if (recoverFromUnderrun cb s).myCurrentFragment.isSome then
        ws.length / (if s.myFormatTo.stereo then 2 else 1) else 0) + k,
      (rawPosition s1 - rawPosition (recoverFromUnderrun cb s)) + m, ?_, ?_, ?_, ?_⟩
    · simp only [fillFragments, h1, h2]
    · simp only [observedRun, h1, h3]
    · rw [ho2, ho1, Nat.add_assoc]
    · rw [hr2, hr1, Nat.add_assoc]

end ObservedRuns

section ClaimsNoDrift

variable {F : Type}

/-- C4 (no drift): from a constructed engine (positive rates with
`Fin + Fout ≤ 2^32`, a positive 32-bit fragment size), every sequence of
`fillFragment` calls is defined. When `k` output samples have been written in
total by the calls on the convolution path (counted on the assignments made),
the read position has advanced by exactly `(k * Fin) / Fout` raw samples in total
(counted on cursor and pulls), and `myTimeIndex` is `(k * Fin) mod Fout`. The
counters `outputSamples` and `shiftRequests` of the state are these two
numbers. -/
theorem no_drift [Field F] [DecidableEq F] (sin : F → F) (pi : F)
    (formatFrom formatTo : Format) (a : Nat)
    (cb : Producer) (lengths : List Nat) (s0 : LanczosResampler F)
    (hfrom : 0 < formatFrom.sampleRate) (hto : 0 < formatTo.sampleRate)
    (hsum : formatFrom.sampleRate + formatTo.sampleRate ≤ 4294967296)
    (hfs : 0 < formatFrom.fragmentSize) (hfs32 : formatFrom.fragmentSize < 4294967296)
    (hp : ProducerOk cb formatFrom)
    (hcreate : LanczosResampler.create sin pi formatFrom formatTo a = some s0) :
    ∃ t wss k m, fillFragments cb s0 lengths = some (t, wss) ∧
      observedRun cb s0 lengths = some (t, wss, k, m) ∧
      m = (k * formatFrom.sampleRate) / formatTo.sampleRate ∧
      t.myTimeIndex = (k * formatFrom.sampleRate) % formatTo.sampleRate ∧
      t.outputSamples = k ∧ t.shiftRequests = m := by
  obtain ⟨hw0, hph0, hf0, ht0, -, -, ho0⟩ :=
    create_wellFormed hcreate hfrom hto (by omega) (by omega) hfs
  obtain ⟨t1, wss1, hrun1, -, hcfg, hph⟩ :=
    fillFragments_safe cb lengths s0 hw0 (by rw [hf0]; exact hp)
  have hph1 := hph hph0 (by rw [hf0, ht0]; exact hsum)
  obtain ⟨t, wss, k, m, hrun, hobs, hk, hm⟩ := observedRun_counters cb lengths s0 hw0
    (by rw [hf0]; exact hp) (by rw [hf0]; exact hfs32)
  rw [hrun] at hrun1
  simp only [Option.some.injEq, Prod.mk.injEq] at hrun1
  have ht1 : t1 = t := hrun1.1.symm
  subst ht1
  have hs0 : s0.shiftRequests = 0 := by
    rw [hph0.shifts, ho0, Nat.zero_mul, Nat.zero_div]
  rw [ho0, Nat.zero_add] at hk
  rw [hs0, Nat.zero_add] at hm
  refine ⟨t1, wss, k, m, hrun, hobs, ?_, ?_, hk, hm⟩
  · rw [← hm, hph1.shifts, hk, hcfg.1, hcfg.2.1, hf0, ht0]
  · rw [hph1.time, hk, hcfg.1, hcfg.2.1, hf0, ht0]

theorem no_drift_witness :
    ∃ t wss k m, fillFragments exampleProducer exampleEngine [1, 4] = some (t, wss) ∧
      observedRun exampleProducer exampleEngine [1, 4] = some (t, wss, k, m) ∧
      m = (k * exampleFrom.sampleRate) / exampleTo.sampleRate ∧
      t.myTimeIndex = (k * exampleFrom.sampleRate) % exampleTo.sampleRate ∧
      t.outputSamples = k ∧ t.shiftRequests = m :=
  no_drift exampleSin 1 exampleFrom exampleTo 1 exampleProducer [1, 4] exampleEngine
    (by decide) (by decide) (by decide) (by decide) (by decide) exampleProducer_ok
    exampleEngine_created

end ClaimsNoDrift

section ObservedExample

/-- The worked configuration (rates 3 to 2, fragments of two samples, one fragment and
then no data), calls of lengths 1 and 4: five output samples are written on the
convolution path, the read position advances by `7 = (5 * 3) / 2`, and
`myTimeIndex` ends at `1 = (5 * 3) mod 2`. -/
theorem observedRun_example :
    (observedRun exampleProducer exampleEngine [1, 4]).map
        (fun r => (r.2.2.1, r.2.2.2, r.1.myTimeIndex, r.1.pulls, r.1.myFragmentIndex))
      = some (5, 7, 1, 4, 1) := by
  simp [observedRun, rawPosition, fillFragment, recoverFromUnderrun, exampleEngine,
    exampleFrom, exampleTo, exampleProducer, fillLoop, outputSample, convolveSample,
    ConvolutionBuffer.convoluteWith, dotProduct, shiftSamples, pushSample, advanceCursor,
    u32, ConvolutionBuffer.shift]

end ObservedExample

section ClaimsEqualRatesShift

variable {F : Type}

/-- Method `shiftSamples(1)` on a well-formed state with a fragment at hand shifts
exactly one raw sample. -/
theorem shiftSamples_once [Field F] {cb : Producer} {s t : LanczosResampler F}
    (h : shiftSamples cb 1 s = some t) (hw : WellFormed s) (frag : List Int)
    (hfr : s.myCurrentFragment = some frag)
    (hsz : s.myFormatFrom.fragmentSize < 4294967296) :
    ShiftedOnce s t := by
  obtain ⟨s1, h1, hmono, hstereo⟩ := pushSample_pushes s frag hw hfr
  obtain ⟨hs1, -, hidx1, -, hpl1, -⟩ := pushSample_frame h1
  simp only [shiftSamples, h1] at h
  split at h
  · exact absurd h (by simp)
  · rename_i s2 h2
    simp only [Option.some.injEq] at h
    subst h
    obtain ⟨hpos, hcur, hpulls, -⟩ := advanceCursor_position h2
      (by rw [hidx1, hs1.1]; exact hw.cursor_lt) (by rw [hs1.1]; exact hsz)
    obtain ⟨-, hb, hbl, hbr, -⟩ := advanceCursor_frame h2
    have hp1 : rawPosition s1 = rawPosition s := by
      unfold rawPosition
      rw [hpl1, hs1.1, hidx1]
    rw [hidx1, hs1.1] at hcur hpulls
    rw [hpl1] at hpulls
    exact
      { position := by rw [hpos, hp1]
        cursor := hcur
        pulls := hpulls
        mono := fun hst => by
          obtain ⟨b, v, e1, e2, e3⟩ := hmono hst
          exact ⟨frag, b, v, hfr, e1, e2, by rw [hb, e3]⟩
        stereo := fun hst => by
          obtain ⟨l, r, vl, vr, e1, e2, e3, e4, e5, e6⟩ := hstereo hst
          exact ⟨frag, l, r, vl, vr, hfr, e1, e2, e3, e4, by rw [hbl, e5], by rw [hbr, e6]⟩ }

/-- With equal rates and one kernel, an iteration that starts with the accumulator
at 0 shifts exactly one raw sample and leaves accumulator and kernel index at 0. -/
theorem outputSample_one_shift [Field F] (cb : Producer) (s : LanczosResampler F) (i : Nat)
    (hw : WellFormed s) (hp : ProducerOk cb s.myFormatFrom)
    (hf : s.myCurrentFragment.isSome = true)
    (hsz : s.myFormatFrom.fragmentSize < 4294967296)
    (hrate : s.myFormatFrom.sampleRate = s.myFormatTo.sampleRate)
    (h32 : s.myFormatTo.sampleRate < 4294967296)
    (hone : s.myPrecomputedKernelCount = 1) (htime : s.myTimeIndex = 0) :
    ∃ t ws, outputSample cb s i = some (t, ws) ∧ t.myTimeIndex = 0 ∧
      t.myCurrentKernelIndex = 0 ∧ ShiftedOnce s t := by
  obtain ⟨t, ws, h, -, -, -⟩ := outputSample_safe cb s i hw hp hf
  obtain ⟨frag, hfr⟩ := Option.isSome_iff_exists.mp hf
  obtain ⟨-, g2, g3, -⟩ := outputSample_equal_rates h hrate hw.rateTo_pos h32 hone htime
  have hshift := outputSample_shift h
  have hn : u32 (s.myTimeIndex + s.myFormatFrom.sampleRate) / s.myFormatTo.sampleRate = 1 := by
    rw [htime, Nat.zero_add, hrate, u32_of_lt h32]
    exact Nat.div_self hw.rateTo_pos
  rw [hn] at hshift
  have hk : u32 (s.myCurrentKernelIndex + 1) % s.myPrecomputedKernelCount
      < s.myPrecomputedKernelCount := Nat.mod_lt _ hw.kernelCount_pos
  have hone := shiftSamples_once hshift (hw.timebase _ _ _ _ hk) frag hfr hsz
  exact ⟨t, ws, h, g2, g3,
    { position := hone.position
      cursor := hone.cursor
      pulls := hone.pulls
      mono := hone.mono
      stereo := hone.stereo }⟩

/-- C12: when `Fin = Fout` (positive, 32-bit; positive 32-bit fragment size), `N = 1`.
Every sequence of `fillFragment` calls from the constructor is defined and ends
with `myTimeIndex` and the kernel index at 0, and the number of raw samples it
shifted (advance of the read position) is the number of output samples it wrote
on the convolution path. In every state so reached that has a fragment at hand,
the next output sample shifts exactly one raw sample (the sample at the cursor
goes into the buffer, the cursor advances by one, with a pull at the end of the
fragment) and leaves `myTimeIndex` and the kernel index at 0. -/
theorem equal_rates_one_shift [Field F] [DecidableEq F] (sin : F → F) (pi : F)
    (formatFrom formatTo : Format) (a : Nat) (cb : Producer) (s0 : LanczosResampler F)
    (hrate : formatFrom.sampleRate = formatTo.sampleRate) (hto : 0 < formatTo.sampleRate)
    (hto32 : formatTo.sampleRate < 4294967296) (hfs : 0 < formatFrom.fragmentSize)
    (hfs32 : formatFrom.fragmentSize < 4294967296) (hp : ProducerOk cb formatFrom)
    (hcreate : LanczosResampler.create sin pi formatFrom formatTo a = some s0) :
    reducedDenominator formatFrom.sampleRate formatTo.sampleRate = some 1 ∧
      s0.myPrecomputedKernelCount = 1 ∧
      ∀ lengths, ∃ t wss k m, fillFragments cb s0 lengths = some (t, wss) ∧
        observedRun cb s0 lengths = some (t, wss, k, m) ∧ m = k ∧
        t.myTimeIndex = 0 ∧ t.myCurrentKernelIndex = 0 ∧
        (t.myCurrentFragment.isSome = true → ∀ i, ∃ u ws,
          outputSample cb t i = some (u, ws) ∧ u.myTimeIndex = 0 ∧
          u.myCurrentKernelIndex = 0 ∧ ShiftedOnce t u) := by
  have hfrom : 0 < formatFrom.sampleRate := by rw [hrate]; exact hto
  have hN : formatTo.sampleRate / Nat.gcd formatFrom.sampleRate formatTo.sampleRate = 1 := by
    rw [hrate, Nat.gcd_self, Nat.div_self hto]
  obtain ⟨hw0, hph0, hf0, ht0, hN0, hk0, ho0⟩ :=
    create_wellFormed hcreate hfrom hto (by rw [hrate]; exact hto32) hto32 hfs
  refine ⟨?_, by rw [hN0, hN], fun lengths => ?_⟩
  · rw [reducedDenominator_gcd _ _ hfrom hto (by rw [hrate]; exact hto32), hN]
  · obtain ⟨t1, wss1, hrun1, hwt, hcfg, hP⟩ := fillFragments_invariant cb
      (fun s => s.myFormatFrom.sampleRate = s.myFormatTo.sampleRate ∧
        0 < s.myFormatTo.sampleRate ∧ s.myFormatTo.sampleRate < 4294967296 ∧
        s.myPrecomputedKernelCount = 1 ∧ s.myTimeIndex = 0 ∧ s.myCurrentKernelIndex = 0 ∧
        s.shiftRequests = s.outputSamples)
      (fun s t hst hP => by
        obtain ⟨e1, e2, e3, -, -, -, e7, e8, e9, e10⟩ := hst
        rw [e1, e2, e3, e7, e8, e9, e10]
        exact hP)
      (fun s t i ws _ h hP => by
        obtain ⟨h1, h2, h3, h4, h5, h6, h7⟩ := hP
        obtain ⟨hcfg, -, -, -, -⟩ := outputSample_timebase h
        obtain ⟨g1, g2, g3, g4⟩ := outputSample_equal_rates h h1 h2 h3 h4 h5
        rw [hcfg.1, hcfg.2.1, hcfg.2.2.1]
        exact ⟨h1, h2, h3, h4, g2, g3, by rw [g1, g4, h7]⟩)
      lengths s0 hw0 (by rw [hf0]; exact hp)
      ⟨by rw [hf0, ht0]; exact hrate, by rw [ht0]; exact hto, by rw [ht0]; exact hto32,
        by rw [hN0, hN], hph0.time.trans (by rw [ho0]; simp), hk0,
        hph0.shifts.trans (by rw [ho0]; simp)⟩
    obtain ⟨t, wss, k, m, hrun, hobs, hk, hm⟩ := observedRun_counters cb lengths s0 hw0
      (by rw [hf0]; exact hp) (by rw [hf0]; exact hfs32)
    rw [hrun] at hrun1
    simp only [Option.some.injEq, Prod.mk.injEq] at hrun1
    have ht1 : t1 = t := hrun1.1.symm
    subst ht1
    have hs0 : s0.shiftRequests = 0 := by
      rw [hph0.shifts, ho0, Nat.zero_mul, Nat.zero_div]
    obtain ⟨p1, p2, p3, p4, p5, p6, p7⟩ := hP
    refine ⟨t1, wss, k, m, hrun, hobs, by omega, p5, p6, fun hfr i => ?_⟩
    exact outputSample_one_shift cb t1 i hwt (by rw [hcfg.1, hf0]; exact hp) hfr
      (by rw [hcfg.1, hf0]; exact hfs32) p1 p3 p4 p5

theorem equal_rates_one_shift_witness :
    reducedDenominator passthroughFormat.sampleRate passthroughFormat.sampleRate = some 1 ∧
      (singleKernelEngine ℚ passthroughFormat).myPrecomputedKernelCount = 1 ∧
      ∀ lengths, ∃ t wss k m,
        fillFragments exampleProducer (singleKernelEngine ℚ passthroughFormat) lengths
          = some (t, wss) ∧
        observedRun exampleProducer (singleKernelEngine ℚ passthroughFormat) lengths
          = some (t, wss, k, m) ∧ m = k ∧
        t.myTimeIndex = 0 ∧ t.myCurrentKernelIndex = 0 ∧
        (t.myCurrentFragment.isSome = true → ∀ i, ∃ u ws,
          outputSample exampleProducer t i = some (u, ws) ∧ u.myTimeIndex = 0 ∧
          u.myCurrentKernelIndex = 0 ∧ ShiftedOnce t u) :=
  equal_rates_one_shift exampleSin 1 passthroughFormat passthroughFormat 1 exampleProducer
    (singleKernelEngine ℚ passthroughFormat) rfl (by decide) (by decide) (by decide)
    (by decide) exampleProducer_ok_passthrough singleKernelEngine_created_example

end ClaimsEqualRatesShift

section ClaimsUnderrunOutput

variable {F : Type}

/-- C6 (amended): underrun does not silence the output. If the engine holds an
exhausted fragment, is in Underrun, and the producer returns no data on every
later pull, every subsequent `fillFragment` call is defined and, after the failed
pull at its top, is the convolution loop (not the `memset` path). It keeps
configuration, fragment and flag (so the same holds for the call after it), in
its final state and in the state in which each iteration starts, and the
assignments of every output sample `i` are the convolution of the buffers, as
iteration `i` finds them, with the kernel selected then. -/
theorem underrun_output_is_convolution [Field F] (cb : Producer) (frag : List Int)
    (s : LanczosResampler F) (length : Nat) (hw : WellFormed s)
    (hp : ProducerOk cb s.myFormatFrom) (hfr : s.myCurrentFragment = some frag)
    (hu : s.myIsUnderrun = true) (hsz : s.myFormatFrom.fragmentSize < 4294967296)
    (hcb : ∀ k, s.pulls ≤ k → cb k = none) :
    ∃ t ws, fillFragment cb s length = some (t, ws) ∧
      fillFragment cb s length
        = fillLoop cb (if s.myFormatTo.stereo then length >>> 1 else length) 0
            { s with pulls := s.pulls + 1 } ∧
      WellFormed t ∧ SameConfig s t ∧
      t.myCurrentFragment = some frag ∧ t.myIsUnderrun = true ∧ s.pulls ≤ t.pulls ∧
      ws.length = (if s.myFormatTo.stereo then length >>> 1 else length)
        * (if s.myFormatTo.stereo then 2 else 1) ∧
      ∀ i, i < (if s.myFormatTo.stereo then length >>> 1 else length) →
        ∃ si before wi after,
          fillLoop cb i 0 { s with pulls := s.pulls + 1 } = some (si, before) ∧
          si.myCurrentFragment = some frag ∧ si.myIsUnderrun = true ∧
          convolveSample si (u32 (si.myCurrentKernelIndex * si.myKernelSize)) i = some wi ∧
          before.length = i * (if s.myFormatTo.stereo then 2 else 1) ∧
          ws = before ++ wi ++ after := by
  have hrec : recoverFromUnderrun cb s = { s with pulls := s.pulls + 1 } := by
    unfold recoverFromUnderrun
    rw [if_pos hu, hcb s.pulls (le_refl _)]
  have hw1 := recoverFromUnderrun_safe cb s hw hp
  have hsome : ({ s with pulls := s.pulls + 1 } : LanczosResampler F).myCurrentFragment.isSome
      = true := by
    show s.myCurrentFragment.isSome = true
    rw [hfr]
    rfl
  have hpath := fillFragment_convolution_path cb s length (by rw [hrec]; exact hsome)
  rw [hrec] at hw1 hpath
  have hcb1 : ∀ k, ({ s with pulls := s.pulls + 1 } : LanczosResampler F).pulls ≤ k →
      cb k = none := fun k hk => hcb k (by
    have : s.pulls + 1 ≤ k := hk
    omega)
  obtain ⟨t, ws, d, hloop, hwt, hr, -⟩ := fillLoop_replay cb frag
    (if s.myFormatTo.stereo then length >>> 1 else length) 0 _ hw1 hp hfr hsz hcb1
  have hlen := fillLoop_length cb _ _ _ _ _ hloop
  have hpl : s.pulls ≤ t.pulls := by
    have : s.pulls + 1 ≤ t.pulls := hr.pulls
    omega
  refine ⟨t, ws, hpath.trans hloop, hpath, hwt, hr.config, hr.fragment, hr.underrun hu, hpl,
    hlen, fun i hi => ?_⟩
  obtain ⟨si, before, wi, after, h1, -, -, hconv, hbl, hws⟩ :=
    fillLoop_sample cb _ _ t ws hloop hw1 hp hsome i hi
  obtain ⟨si1, before1, d1, h2, -, hr1, -⟩ := fillLoop_replay cb frag i 0 _ hw1 hp hfr hsz hcb1
  rw [h1] at h2
  simp only [Option.some.injEq, Prod.mk.injEq] at h2
  have hsi : si1 = si := h2.1.symm
  subst hsi
  exact ⟨si1, before, wi, after, h1, hr1.fragment, hr1.underrun hu, hconv, hbl, hws⟩

theorem underrun_output_is_convolution_witness :
    ∃ t ws, fillFragment exampleProducer underrunEngine 3 = some (t, ws) ∧
      fillFragment exampleProducer underrunEngine 3
        = fillLoop exampleProducer (if underrunEngine.myFormatTo.stereo then 3 >>> 1 else 3) 0
            { underrunEngine with pulls := underrunEngine.pulls + 1 } ∧
      WellFormed t ∧ SameConfig underrunEngine t ∧
      t.myCurrentFragment = some [32767, 0] ∧ t.myIsUnderrun = true ∧
      underrunEngine.pulls ≤ t.pulls ∧
      ws.length = (if underrunEngine.myFormatTo.stereo then 3 >>> 1 else 3)
        * (if underrunEngine.myFormatTo.stereo then 2 else 1) ∧
      ∀ i, i < (if underrunEngine.myFormatTo.stereo then 3 >>> 1 else 3) →
        ∃ si before wi after,
          fillLoop exampleProducer i 0
            { underrunEngine with pulls := underrunEngine.pulls + 1 } = some (si, before) ∧
          si.myCurrentFragment = some [32767, 0] ∧ si.myIsUnderrun = true ∧
          convolveSample si (u32 (si.myCurrentKernelIndex * si.myKernelSize)) i = some wi ∧
          before.length = i * (if underrunEngine.myFormatTo.stereo then 2 else 1) ∧
          ws = before ++ wi ++ after :=
  underrun_output_is_convolution exampleProducer [32767, 0] underrunEngine 3
    underrunEngine_wellFormed exampleProducer_ok rfl rfl (by decide) exampleProducer_silent

end ClaimsUnderrunOutput

end Stella
